import Mathlib

/-!
# Polynomial calculator: arithmetic over `ModInt<p>`, long division, factor rings

A shallow embedding of `modint.h`, `polynomial.h` and `factor_ring.h`.

* `int` is a 32-bit two's-complement integer: every `int` addition and subtraction of the
  source goes through `wrap32`.  The product in `ModInt::operator*=` is taken in `long long`
  and reduced before it is cast back, so it needs no wrapping.
* `vector<T>` is a `List T`; `v[i] = x` is `List.set`.
* `while` loops whose termination depends on the data carry a fuel argument and answer
  `none` when the fuel is used up; `throw runtime_error(..)` is `Except.error`.
* The reference semantics of a coefficient vector over `ModInt<p>` is a polynomial of
  `(ZMod p)[X]`.
-/

/-- Polynomials over the prime field, the reference semantics of coefficient vectors. -/
abbrev FpPoly (p : Nat) : Type := Polynomial (ZMod p)

namespace PolyCalc

/-! ## modint.h -/

/-- Reduction of a mathematical integer to the range of a 32-bit `int`. -/
def wrap32 (x : Int) : Int := (x + 2147483648) % 4294967296 - 2147483648

/-- The struct `ModInt<MOD>`: one `int` field. -/
structure ModInt (M : Int) where
  value : Int
deriving DecidableEq

namespace ModInt

variable {M : Int}

/-- Constructor `ModInt(int v)`: `v % MOD` (truncated), lifted by `MOD` when negative. -/
def ofInt (M : Int) (v : Int) : ModInt M :=
  let value := Int.tmod v M
  if value < 0 then ⟨wrap32 (value + M)⟩ else ⟨value⟩

/-- Operator `+=`. -/
def add (a b : ModInt M) : ModInt M :=
  let value := wrap32 (a.value + b.value)
  if value ≥ M then ⟨wrap32 (value - M)⟩ else ⟨value⟩

/-- Operator `-=`. -/
def sub (a b : ModInt M) : ModInt M :=
  let value := wrap32 (a.value - b.value)
  if value < 0 then ⟨wrap32 (value + M)⟩ else ⟨value⟩

/-- Operator `*=`: the product is formed and reduced in `long long`, then cast to `int`. -/
def mul (a b : ModInt M) : ModInt M :=
  ⟨wrap32 (Int.tmod (a.value * b.value) M)⟩

/-- The loop of `pow`: `while (exp > 0) { if (exp & 1) result *= base; base *= base; exp /= 2; }`.
Each round halves a positive `exp`, so `exp` rounds are always enough. -/
def powLoop : Nat → ModInt M → ModInt M → Int → ModInt M
  | 0, _, result, _ => result
  | fuel + 1, base, result, exp =>
    if exp > 0 then
      let result := if exp % 2 = 1 then mul result base else result
      powLoop fuel (mul base base) result (Int.tdiv exp 2)
    else result

/-- Binary exponentiation `pow(long long exp)`. -/
def pow (a : ModInt M) (exp : Int) : ModInt M :=
  powLoop exp.toNat a (ofInt M 1) exp

/-- Inverse `inv()`: `pow(MOD - 2)`. -/
def inv (a : ModInt M) : ModInt M := pow a (M - 2)

/-- Operator `/=`: multiplication by the inverse. -/
def div (a b : ModInt M) : ModInt M := mul a (inv b)

end ModInt

/-! ## The operations a coefficient type `T` must offer -/

/-- What `Polynomial<T>` uses of `T`: construction from an `int` and the four operators. -/
class Scalar (T : Type) extends Add T, Sub T, Mul T, Div T where
  ofInt : Int → T

/-- What `FactorRingElement<T>` and `is_irreducible` use in addition: `inv()` and
`T::MOD_VALUE`. -/
class FieldScalar (T : Type) extends Scalar T where
  inv : T → T
  MOD_VALUE : Int

instance (M : Int) : FieldScalar (ModInt M) where
  add := ModInt.add
  sub := ModInt.sub
  mul := ModInt.mul
  div := ModInt.div
  ofInt := ModInt.ofInt M
  inv := ModInt.inv
  MOD_VALUE := M

/-! ## polynomial.h -/

/-- The class `Polynomial<T>`: the coefficient vector, `coeffs[i]` belongs to `x^i`. -/
structure Polynomial (T : Type) where
  coeffs : List T
deriving DecidableEq

/-- The messages of the three `runtime_error`s. -/
inductive Error where
  | divisionByZeroPolynomial
  | differentModuli
  | noInverse
deriving DecidableEq

namespace Polynomial

variable {T : Type} [Scalar T] [DecidableEq T]

/-- Method `normalize()`: pop trailing coefficients equal to `T(0)`. -/
def normalize (f : Polynomial T) : Polynomial T :=
  ⟨f.coeffs.rdropWhile (fun c => decide (c = Scalar.ofInt 0))⟩

/-- Default constructor `Polynomial()`. -/
def empty : Polynomial T := ⟨[]⟩

/-- Constructor `Polynomial(const vector<T>&)`. -/
def ofCoeffs (c : List T) : Polynomial T := normalize ⟨c⟩

/-- Constructor `Polynomial(T constant)`. -/
def const (c : T) : Polynomial T := normalize ⟨[c]⟩

/-- Method `degree()`. -/
def degree (f : Polynomial T) : Int :=
  if f.coeffs.isEmpty then -1 else (f.coeffs.length : Int) - 1

/-- Operator `+`. -/
def add (f g : Polynomial T) : Polynomial T :=
  let n := max f.coeffs.length g.coeffs.length
  ofCoeffs <| (List.range n).foldl (fun result i =>
    let result := if i < f.coeffs.length then
        result.set i (result.getD i (Scalar.ofInt 0) + f.coeffs.getD i (Scalar.ofInt 0))
      else result
    if i < g.coeffs.length then
      result.set i (result.getD i (Scalar.ofInt 0) + g.coeffs.getD i (Scalar.ofInt 0))
    else result) (List.replicate n (Scalar.ofInt 0))

/-- Operator `-`. -/
def sub (f g : Polynomial T) : Polynomial T :=
  let n := max f.coeffs.length g.coeffs.length
  ofCoeffs <| (List.range n).foldl (fun result i =>
    let result := if i < f.coeffs.length then
        result.set i (result.getD i (Scalar.ofInt 0) + f.coeffs.getD i (Scalar.ofInt 0))
      else result
    if i < g.coeffs.length then
      result.set i (result.getD i (Scalar.ofInt 0) - g.coeffs.getD i (Scalar.ofInt 0))
    else result) (List.replicate n (Scalar.ofInt 0))

/-- The two nested loops of operator `*` on the coefficient vectors. -/
def mulLoop (a b : List T) : List T :=
  (List.range a.length).foldl (fun result i =>
    (List.range b.length).foldl (fun result j =>
      result.set (i + j)
        (result.getD (i + j) (Scalar.ofInt 0)
          + a.getD i (Scalar.ofInt 0) * b.getD j (Scalar.ofInt 0))) result)
    (List.replicate (a.length + b.length - 1) (Scalar.ofInt 0))

/-- Operator `*`. -/
def mul (f g : Polynomial T) : Polynomial T :=
  if f.coeffs.isEmpty || g.coeffs.isEmpty then empty
  else ofCoeffs (mulLoop f.coeffs g.coeffs)

/-- The `while` loop of `divmod`, one round per unit of fuel; `none` when the fuel runs out. -/
def divmodLoop (divisor : Polynomial T) :
    Nat → Polynomial T → Polynomial T → Option (Polynomial T × Polynomial T)
  | 0, _, _ => none
  | fuel + 1, dividend, quotient =>
    if dividend.degree ≥ divisor.degree ∧ dividend.degree ≥ 0 then
      let diff := (dividend.degree - divisor.degree).toNat
      let factor := dividend.coeffs.getLastD (Scalar.ofInt 0)
        / divisor.coeffs.getLastD (Scalar.ofInt 0)
      let term := (List.replicate (diff + 1) (Scalar.ofInt 0 : T)).set diff factor
      let monomial := ofCoeffs term
      let quotient : Polynomial T := ⟨quotient.coeffs.set diff factor⟩
      let dividend := normalize (sub dividend (mul divisor monomial))
      divmodLoop divisor fuel dividend quotient
    else some (normalize quotient, normalize dividend)

/-- Method `divmod(divisor)`. -/
def divmod (fuel : Nat) (f divisor : Polynomial T) :
    Option (Except Error (Polynomial T × Polynomial T)) :=
  if divisor.coeffs.isEmpty then some (.error .divisionByZeroPolynomial)
  else
    let quotient : Polynomial T :=
      ⟨List.replicate (max 0 (f.degree - divisor.degree + 1)).toNat (Scalar.ofInt 0)⟩
    (divmodLoop divisor fuel f quotient).map .ok

/-- Operator `/`: `divmod(divisor).first`. -/
def quot (fuel : Nat) (f divisor : Polynomial T) : Option (Except Error (Polynomial T)) :=
  (divmod fuel f divisor).map (fun r => r.map Prod.fst)

/-- Operator `%`: `divmod(divisor).second`. -/
def rem (fuel : Nat) (f divisor : Polynomial T) : Option (Except Error (Polynomial T)) :=
  (divmod fuel f divisor).map (fun r => r.map Prod.snd)

end Polynomial

/-! ## factor_ring.h -/

/-- The class `FactorRingElement<T>`. -/
structure FactorRingElement (T : Type) where
  poly : Polynomial T
  mod_poly : Polynomial T
deriving DecidableEq

namespace FactorRingElement

variable {T : Type} [FieldScalar T] [DecidableEq T]

/-- Constructor `FactorRingElement(poly, mod_poly)`: stores `poly % mod_poly`. -/
def construct (fuel : Nat) (poly mod_poly : Polynomial T) :
    Option (Except Error (FactorRingElement T)) :=
  (Polynomial.rem fuel poly mod_poly).map (fun r => r.map (fun q => ⟨q, mod_poly⟩))

/-- Operator `+`. -/
def add (fuel : Nat) (a b : FactorRingElement T) : Option (Except Error (FactorRingElement T)) :=
  if a.mod_poly.coeffs ≠ b.mod_poly.coeffs then some (.error .differentModuli)
  else construct fuel (Polynomial.add a.poly b.poly) a.mod_poly

/-- Operator `-`. -/
def sub (fuel : Nat) (a b : FactorRingElement T) : Option (Except Error (FactorRingElement T)) :=
  if a.mod_poly.coeffs ≠ b.mod_poly.coeffs then some (.error .differentModuli)
  else construct fuel (Polynomial.sub a.poly b.poly) a.mod_poly

/-- Operator `*`. -/
def mul (fuel : Nat) (a b : FactorRingElement T) : Option (Except Error (FactorRingElement T)) :=
  if a.mod_poly.coeffs ≠ b.mod_poly.coeffs then some (.error .differentModuli)
  else construct fuel (Polynomial.mul a.poly b.poly) a.mod_poly

/-- Static method `extended_gcd(a, b)`; one unit of fuel per call. -/
def extended_gcd : Nat → Polynomial T → Polynomial T →
    Option (Except Error (Polynomial T × Polynomial T × Polynomial T))
  | 0, _, _ => none
  | fuel + 1, a, b =>
    if b.degree < 0 then
      some (.ok (a, Polynomial.const (Scalar.ofInt 1), Polynomial.const (Scalar.ofInt 0)))
    else
      match Polynomial.divmod fuel a b with
      | none => none
      | some (.error e) => some (.error e)
      | some (.ok (q, r)) =>
        match extended_gcd fuel b r with
        | none => none
        | some (.error e) => some (.error e)
        | some (.ok (g, x, y)) => some (.ok (g, y, Polynomial.sub x (Polynomial.mul q y)))

/-- Method `inv()`. -/
def inv (fuel : Nat) (a : FactorRingElement T) : Option (Except Error (FactorRingElement T)) :=
  match extended_gcd fuel a.poly a.mod_poly with
  | none => none
  | some (.error e) => some (.error e)
  | some (.ok (g, x, _)) =>
    if g.degree ≠ 0 then some (.error .noInverse)
    else
      let inv_g := FieldScalar.inv (g.coeffs.getD 0 (Scalar.ofInt 0))
      construct fuel (Polynomial.mul x (Polynomial.const inv_g)) a.mod_poly

end FactorRingElement

/-! ## Irreducibility check -/

section Irreducible

variable {T : Type} [FieldScalar T] [DecidableEq T]

/-- A loop `for (x : xs) if (test(x)) return true; return false;` whose test may itself
fail or run out of fuel. -/
def firstTrue {α : Type} (test : α → Option (Except Error Bool)) :
    List α → Option (Except Error Bool)
  | [] => some (.ok false)
  | x :: xs =>
    match test x with
    | some (.ok false) => firstTrue test xs
    | r => r

/-- The recursive lambda `gen(pos)` of `is_irreducible` for candidate degree `d`; the first
argument is `d - pos`.  The captured vector `coeffs` is written at index `pos` before every
recursive call and read only when `pos == d`, so it is passed down. -/
def gen (fuel : Nat) (poly : Polynomial T) (field_mod : Int) :
    Nat → Nat → List T → Option (Except Error Bool)
  | 0, _, coeffs =>
    let candidate := Polynomial.ofCoeffs (coeffs ++ [Scalar.ofInt 1])
    match Polynomial.divmod fuel poly candidate with
    | none => none
    | some (.error e) => some (.error e)
    | some (.ok (_, rem)) => some (.ok (decide (rem.degree < 0)))
  | k + 1, pos, coeffs =>
    firstTrue (fun i : Nat => gen fuel poly field_mod k (pos + 1)
      (coeffs.set pos (Scalar.ofInt (i : Int)))) (List.range field_mod.toNat)

/-- Function `is_irreducible(poly)`. -/
def is_irreducible (fuel : Nat) (poly : Polynomial T) : Option (Except Error Bool) :=
  let deg := poly.degree
  if deg ≤ 0 then some (.ok false)
  else if deg = 1 then some (.ok true)
  else
    let field_mod : Int := FieldScalar.MOD_VALUE T
    match firstTrue (fun d : Nat => gen fuel poly field_mod d 0
        (List.replicate d (Scalar.ofInt 0))) ((List.range (deg / 2).toNat).map (· + 1)) with
    | some (.ok found) => some (.ok (!found))
    | r => r

end Irreducible

/-! ## Vocabulary of the specification -/

namespace ModInt

/-- A residue in canonical form: `0 ≤ value < M`. -/
def Valid {M : Int} (a : ModInt M) : Prop := 0 ≤ a.value ∧ a.value < M

instance {M : Int} (a : ModInt M) : Decidable (Valid a) :=
  inferInstanceAs (Decidable (0 ≤ a.value ∧ a.value < M))

/-- The residue class of a `ModInt<p>` value. -/
def toZ {p : Nat} (a : ModInt (p : Int)) : ZMod p := (a.value : ZMod p)

/-- The sum of two residues fits in an `int`. -/
def AddFits {M : Int} (a b : ModInt M) : Prop := a.value + b.value < 2147483648

/-- A stored `int` below the modulus, possibly negative: adding zero leaves it as it is. -/
def Small {M : Int} (a : ModInt M) : Prop := -2147483648 ≤ a.value ∧ a.value < M

/-- A stored `int` above `-M`: what operator `-=` can leave behind. -/
def Tame {M : Int} (a : ModInt M) : Prop := -M < a.value ∧ a.value < 2147483648

end ModInt

/-- The polynomial of `(ZMod p)[X]` denoted by a coefficient vector. -/
noncomputable def toPolyL {p : Nat} : List (ModInt (p : Int)) → FpPoly p
  | [] => 0
  | c :: l => Polynomial.C (ModInt.toZ c) + Polynomial.X * toPolyL l

/-- Every coefficient is a canonical residue. -/
def ValidL {M : Int} (l : List (ModInt M)) : Prop := ∀ c ∈ l, ModInt.Valid c

/-- The vector does not end in a zero coefficient. -/
def NormalizedL {M : Int} (l : List (ModInt M)) : Prop := l.getLast? ≠ some ⟨0⟩

namespace Polynomial

/-- The polynomial of `(ZMod p)[X]` denoted by a `Polynomial<ModInt<p>>`. -/
noncomputable def toPoly {p : Nat} (f : Polynomial (ModInt (p : Int))) : FpPoly p :=
  toPolyL f.coeffs

/-- Data-model invariant of `Polynomial<ModInt<M>>`: canonical residues, no trailing zero. -/
def WF {M : Int} (f : Polynomial (ModInt M)) : Prop := ValidL f.coeffs ∧ NormalizedL f.coeffs

instance {M : Int} (l : List (ModInt M)) : Decidable (ValidL l) :=
  inferInstanceAs (Decidable (∀ c ∈ l, ModInt.Valid c))

instance {M : Int} (l : List (ModInt M)) : Decidable (NormalizedL l) :=
  inferInstanceAs (Decidable (l.getLast? ≠ some ⟨0⟩))

instance {M : Int} (f : Polynomial (ModInt M)) : Decidable (WF f) :=
  inferInstanceAs (Decidable (ValidL f.coeffs ∧ NormalizedL f.coeffs))

end Polynomial

end PolyCalc

namespace PolyCalc

/-! ## Further members of polynomial.h, modint.h and factor_ring.h -/

/-- Operator `<<` of `ModInt`: the decimal text of the stored `int`. -/
instance (M : Int) : ToString (ModInt M) := ⟨fun m => toString m.value⟩

/-- The coefficient operations of a commutative ring used as the type `T`, with `T(v)` the
image of the integer `v`. -/
def Scalar.ofCommRing (R : Type) [CommRing R] [Div R] : Scalar R where
  ofInt := fun v => (v : R)

namespace Polynomial

variable {T : Type} [Scalar T] [DecidableEq T]

/-- Operator `[]`: the coefficient of `x^idx`, `T(0)` when `idx` is out of range. -/
def get (f : Polynomial T) (idx : Int) : T :=
  if idx < 0 ∨ idx ≥ (f.coeffs.length : Int) then Scalar.ofInt 0
  else f.coeffs.getD idx.toNat (Scalar.ofInt 0)

/-- The loop of `pow`: `while (exponent) { if (exponent & 1) result = result * base;
base = base * base; exponent >>= 1; }`.  Each round halves a nonzero `exponent`, so
`exponent` rounds are always enough. -/
def powLoop : Nat → Polynomial T → Polynomial T → Nat → Polynomial T
  | 0, _, result, _ => result
  | fuel + 1, base, result, exponent =>
    if exponent ≠ 0 then
      let result := if exponent % 2 = 1 then mul result base else result
      powLoop fuel (mul base base) result (exponent / 2)
    else result

/-- Method `pow(unsigned int exponent)`. -/
def pow (f : Polynomial T) (exponent : Nat) : Polynomial T :=
  powLoop exponent f (const (Scalar.ofInt 1)) exponent

/-- Method `evaluate(x)`: Horner's rule, `i` running from `degree()` down to `0`. -/
def evaluate (f : Polynomial T) (x : T) : T :=
  (List.range (f.degree + 1).toNat).reverse.foldl
    (fun result i => result * x + f.coeffs.getD i (Scalar.ofInt 0)) (Scalar.ofInt 0)

/-- The body of the loop of operator `<<` for index `i`: the flag `first` and the text
written so far. -/
def renderStep [ToString T] (f : Polynomial T) (st : Bool × String) (i : Nat) : Bool × String :=
  let c := f.coeffs.getD i (Scalar.ofInt 0)
  if c = Scalar.ofInt 0 then st
  else
    let os := if !st.1 then st.2 ++ " + " else st.2
    let os :=
      if i = 0 then os ++ toString c
      else
        let os := if c ≠ Scalar.ofInt 1 then os ++ toString c ++ "*" else os
        let os := os ++ "x"
        if i > 1 then os ++ "^" ++ toString i else os
    (false, os)

/-- Operator `<<` of `Polynomial`: the text written to the stream. -/
def render [ToString T] (f : Polynomial T) : String :=
  if f.coeffs.isEmpty then "0"
  else
    let st := (List.range (f.degree + 1).toNat).reverse.foldl (renderStep f) (true, "")
    if st.1 then st.2 ++ "0" else st.2

end Polynomial

namespace FactorRingElement

variable {T : Type} [FieldScalar T] [DecidableEq T]

/-- Default constructor `FactorRingElement()`: empty `poly`, modulus `Polynomial(T(1))`. -/
def default : FactorRingElement T := ⟨Polynomial.empty, Polynomial.const (Scalar.ofInt 1)⟩

/-- Operator `/`. -/
def div (fuel : Nat) (a b : FactorRingElement T) : Option (Except Error (FactorRingElement T)) :=
  if a.mod_poly.coeffs ≠ b.mod_poly.coeffs then some (.error .differentModuli)
  else
    match inv fuel b with
    | none => none
    | some (.error e) => some (.error e)
    | some (.ok i) => mul fuel a i

/-- The loop of `pow`; the first argument counts the rounds, the second is the fuel handed
to every multiplication. -/
def powLoop (fuel : Nat) : Nat → FactorRingElement T → FactorRingElement T → Nat →
    Option (Except Error (FactorRingElement T))
  | 0, _, result, _ => some (.ok result)
  | rounds + 1, base, result, exponent =>
    if exponent ≠ 0 then
      let step (result : FactorRingElement T) :=
        match mul fuel base base with
        | none => none
        | some (.error e) => some (.error e)
        | some (.ok base) => powLoop fuel rounds base result (exponent / 2)
      if exponent % 2 = 1 then
        match mul fuel result base with
        | none => none
        | some (.error e) => some (.error e)
        | some (.ok result) => step result
      else step result
    else some (.ok result)

/-- Method `pow(unsigned int exponent)`. -/
def pow (fuel : Nat) (a : FactorRingElement T) (exponent : Nat) :
    Option (Except Error (FactorRingElement T)) :=
  match construct fuel (Polynomial.const (Scalar.ofInt 1)) a.mod_poly with
  | none => none
  | some (.error e) => some (.error e)
  | some (.ok result) => powLoop fuel exponent a result exponent

end FactorRingElement

/-! ## Further vocabulary of the specification -/

namespace Polynomial

variable {T : Type} [Scalar T] [DecidableEq T]

/-- The coefficient vector is empty or ends in a coefficient different from `T(0)`. -/
def Normalized (f : Polynomial T) : Prop := f.coeffs.getLast? ≠ some (Scalar.ofInt 0)

instance (f : Polynomial T) : Decidable (Normalized f) :=
  inferInstanceAs (Decidable (f.coeffs.getLast? ≠ some (Scalar.ofInt 0)))

/-- The text of one term, as the specification words it: the bare coefficient for degree
`0`, `c*x` for degree `1` and `c*x^i` above, the factor `c*` left out when `c` is `T(1)`. -/
def termText [ToString T] (i : Nat) (c : T) : String :=
  if i = 0 then toString c
  else
    (if c = Scalar.ofInt 1 then "" else toString c ++ "*") ++
      (if i = 1 then "x" else "x^" ++ toString i)

/-- The term of index `i`: none for the coefficient `T(0)`. -/
def termOf [ToString T] (f : Polynomial T) (i : Nat) : Option String :=
  let c := f.coeffs.getD i (Scalar.ofInt 0)
  if c = Scalar.ofInt 0 then none else some (termText i c)

/-- The terms of the nonzero coefficients in descending degree. -/
def termTexts [ToString T] (f : Polynomial T) : List String :=
  (List.range f.coeffs.length).reverse.filterMap (termOf f)

/-- The rendering as the specification words it. -/
def renderSpec [ToString T] (f : Polynomial T) : String :=
  if termTexts f = [] then "0" else " + ".intercalate (termTexts f)

end Polynomial

/-- The representative invariant: the stored modulus is `m` and the representative is the
zero polynomial or has degree below the degree of `m`. -/
def FactorRingElement.Reduced {T : Type} (e : FactorRingElement T) (m : Polynomial T) : Prop :=
  e.mod_poly = m ∧ (e.poly.coeffs = [] ∨ e.poly.degree < m.degree)

end PolyCalc

namespace PolyCalc
namespace Polynomial

variable {T : Type} [Scalar T] [DecidableEq T]

/-- The body of the `while` loop of `divmod`, on the running dividend and the quotient: the
write `quotient.coeffs[diff] = factor` and the subtraction of `divisor * monomial`. -/
def divmodBody (divisor dividend quotient : Polynomial T) : Polynomial T × Polynomial T :=
  let diff := (dividend.degree - divisor.degree).toNat
  let factor := dividend.coeffs.getLastD (Scalar.ofInt 0)
    / divisor.coeffs.getLastD (Scalar.ofInt 0)
  let term := (List.replicate (diff + 1) (Scalar.ofInt 0 : T)).set diff factor
  let monomial := ofCoeffs term
  let quotient : Polynomial T := ⟨quotient.coeffs.set diff factor⟩
  let dividend := normalize (sub dividend (mul divisor monomial))
  (dividend, quotient)

/-- The state (running dividend, quotient) that `k` rounds of the loop make of the state
`s`. -/
def divmodIter (divisor : Polynomial T) (k : Nat) (s : Polynomial T × Polynomial T) :
    Polynomial T × Polynomial T :=
  (fun s : Polynomial T × Polynomial T => divmodBody divisor s.1 s.2)^[k] s

/-- The running dividend and the quotient of `f.divmod(divisor)` after `k` rounds of the
loop, from the dividend `f` and the pre-sized quotient of zeros. -/
def divmodState (divisor f : Polynomial T) (k : Nat) : Polynomial T × Polynomial T :=
  divmodIter divisor k
    (f, ⟨List.replicate (max 0 (f.degree - divisor.degree + 1)).toNat (Scalar.ofInt 0)⟩)

end Polynomial
end PolyCalc

namespace PolyCalc
namespace ModInt

theorem wrap32_of_range {x : Int} (h1 : -2147483648 ≤ x) (h2 : x < 2147483648) :
    wrap32 x = x := by
  unfold wrap32; omega

variable {p : Nat}

theorem Valid.eq_of_toZ {a b : ModInt (p : Int)} (ha : Valid a) (hb : Valid b)
    (h : toZ a = toZ b) : a = b := by
  obtain ⟨a⟩ := a
  obtain ⟨b⟩ := b
  simp only [toZ, Valid] at *
  rw [ZMod.intCast_eq_intCast_iff] at h
  have := Int.ModEq.eq h
  rw [Int.emod_eq_of_lt ha.1 ha.2, Int.emod_eq_of_lt hb.1 hb.2] at this
  rw [this]

theorem ofInt_of_nonneg {M : Int} {v : Int} (hv : 0 ≤ v) (hM : 0 < M) :
    ofInt M v = ⟨v % M⟩ := by
  unfold ofInt
  have h := Int.tmod_eq_emod hv hM.le
  simp only [h]
  have : ¬ (v % M < 0) := not_lt.mpr (Int.emod_nonneg _ hM.ne')
  simp [this]

theorem ofInt_zero {M : Int} : ofInt M 0 = ⟨0⟩ := by
  simp [ofInt]

theorem ofInt_one {M : Int} (hM : 2 ≤ M) : ofInt M 1 = ⟨1⟩ := by
  rw [ofInt_of_nonneg (by omega) (by omega), Int.emod_eq_of_lt (by omega) (by omega)]

theorem ofInt_valid {M : Int} {v : Int} (hv : 0 ≤ v) (hM : 0 < M) : Valid (ofInt M v) := by
  rw [ofInt_of_nonneg hv hM]
  exact ⟨Int.emod_nonneg _ hM.ne', Int.emod_lt_of_pos _ hM⟩

theorem toZ_ofInt {v : Int} (hv : 0 ≤ v) (hp : 0 < p) : toZ (ofInt (p : Int) v) = (v : ZMod p) := by
  rw [ofInt_of_nonneg hv (by exact_mod_cast hp)]
  simp [toZ]

theorem mul_value {M : Int} {a b : ModInt M} (ha : Valid a) (hb : Valid b)
    (hM : M ≤ 2147483648) : (mul a b).value = (a.value * b.value) % M := by
  have hpos : 0 < M := lt_of_le_of_lt ha.1 ha.2
  have hab : 0 ≤ a.value * b.value := mul_nonneg ha.1 hb.1
  unfold mul
  simp only [Int.tmod_eq_emod hab hpos.le]
  apply wrap32_of_range
  · have := Int.emod_nonneg (a.value * b.value) hpos.ne'
    omega
  · have := Int.emod_lt_of_pos (a.value * b.value) hpos
    omega

theorem mul_valid {M : Int} {a b : ModInt M} (ha : Valid a) (hb : Valid b)
    (hM : M ≤ 2147483648) : Valid (mul a b) := by
  have hpos : 0 < M := lt_of_le_of_lt ha.1 ha.2
  unfold Valid
  rw [mul_value ha hb hM]
  exact ⟨Int.emod_nonneg _ hpos.ne', Int.emod_lt_of_pos _ hpos⟩

theorem toZ_mul {a b : ModInt (p : Int)} (ha : Valid a) (hb : Valid b)
    (hM : (p : Int) ≤ 2147483648) : toZ (mul a b) = toZ a * toZ b := by
  unfold toZ
  rw [mul_value ha hb hM]
  simp

theorem sub_valid {M : Int} {a b : ModInt M} (ha : Valid a) (hb : Valid b)
    (hM : M ≤ 2147483648) : Valid (sub a b) := by
  obtain ⟨a⟩ := a
  obtain ⟨b⟩ := b
  simp only [Valid, sub] at *
  rw [wrap32_of_range (by omega) (by omega)]
  split
  · rw [wrap32_of_range (by omega) (by omega)]
    simp only; omega
  · simp only; omega

theorem toZ_sub {a b : ModInt (p : Int)} (ha : Valid a) (hb : Valid b)
    (hM : (p : Int) ≤ 2147483648) : toZ (sub a b) = toZ a - toZ b := by
  obtain ⟨a⟩ := a
  obtain ⟨b⟩ := b
  simp only [Valid, sub, toZ] at *
  rw [wrap32_of_range (by omega) (by omega)]
  split
  · rw [wrap32_of_range (by omega) (by omega)]
    simp
  · simp

theorem add_valid {M : Int} {a b : ModInt M} (ha : Valid a) (hb : Valid b)
    (hf : AddFits a b) : Valid (add a b) := by
  obtain ⟨a⟩ := a
  obtain ⟨b⟩ := b
  simp only [Valid, add, AddFits] at *
  rw [wrap32_of_range (by omega) (by omega)]
  split
  · rw [wrap32_of_range (by omega) (by omega)]
    simp only; omega
  · simp only; omega

theorem toZ_add {a b : ModInt (p : Int)} (ha : Valid a) (hb : Valid b)
    (hf : AddFits a b) : toZ (add a b) = toZ a + toZ b := by
  obtain ⟨a⟩ := a
  obtain ⟨b⟩ := b
  simp only [Valid, add, toZ, AddFits] at *
  rw [wrap32_of_range (by omega) (by omega)]
  split
  · rw [wrap32_of_range (by omega) (by omega)]
    simp
  · simp

theorem zero_add {M : Int} {a : ModInt M} (ha : Valid a) (hM : M ≤ 2147483648) :
    add ⟨0⟩ a = a := by
  obtain ⟨a⟩ := a
  simp only [Valid, add] at *
  rw [wrap32_of_range (by omega) (by omega)]
  simp; omega

theorem add_zero {M : Int} {a : ModInt M} (ha : Valid a) (hM : M ≤ 2147483648) :
    add a ⟨0⟩ = a := by
  obtain ⟨a⟩ := a
  simp only [Valid, add] at *
  rw [wrap32_of_range (by omega) (by omega)]
  simp; omega

end ModInt
end PolyCalc

namespace PolyCalc
namespace ModInt
variable {p : Nat}

theorem powLoop_spec (hM : (p : Int) ≤ 2147483648) (fuel : Nat) :
    ∀ (base result : ModInt (p : Int)) (exp : Int), Valid base → Valid result →
      exp.toNat ≤ fuel →
      Valid (powLoop fuel base result exp) ∧
      toZ (powLoop fuel base result exp) = toZ result * toZ base ^ exp.toNat := by
  induction fuel with
  | zero =>
    intro base result exp _ hr hfuel
    have h0 : exp.toNat = 0 := Nat.le_zero.mp hfuel
    simp [powLoop, h0, hr]
  | succ fuel ih =>
    intro base result exp hb hr hfuel
    unfold powLoop
    by_cases hexp : exp > 0
    · simp only [hexp, if_true]
      obtain ⟨n, rfl⟩ := Int.eq_ofNat_of_zero_le hexp.le
      have hdiv : Int.tdiv (n : Int) 2 = ((n / 2 : Nat) : Int) := by
        rw [Int.tdiv_eq_ediv (by omega) (by omega)]; simp
      rw [hdiv]
      have hn : 0 < n := by exact_mod_cast hexp
      have hfuel2 : (((n / 2 : Nat) : Int)).toNat ≤ fuel := by
        simp only [Int.toNat_ofNat] at hfuel ⊢
        omega
      have hbb := mul_valid hb hb hM
      by_cases hodd : (n : Int) % 2 = 1
      · simp only [hodd, if_true]
        obtain ⟨h1, h2⟩ := ih (mul base base) (mul result base) _ hbb (mul_valid hr hb hM) hfuel2
        refine ⟨h1, ?_⟩
        rw [h2, toZ_mul hb hb hM, toZ_mul hr hb hM]
        simp only [Int.toNat_ofNat]
        have hn2 : n = 2 * (n / 2) + 1 := by omega
        conv_rhs => rw [hn2]
        rw [pow_succ, pow_mul]
        ring
      · simp only [hodd, if_false]
        obtain ⟨h1, h2⟩ := ih (mul base base) result _ hbb hr hfuel2
        refine ⟨h1, ?_⟩
        rw [h2, toZ_mul hb hb hM]
        simp only [Int.toNat_ofNat]
        have hn2 : n = 2 * (n / 2) := by omega
        conv_rhs => rw [hn2]
        rw [pow_mul]
        ring
    · simp only [hexp, if_false]
      have h0 : exp.toNat = 0 := by
        rw [Int.toNat_eq_zero]; omega
      simp [h0, hr]

theorem pow_valid (hp : 0 < p) (hM : (p : Int) ≤ 2147483648) {a : ModInt (p : Int)}
    (ha : Valid a) (exp : Int) : Valid (pow a exp) :=
  (powLoop_spec hM _ a _ exp ha (ofInt_valid (v := 1) (by norm_num) (by exact_mod_cast hp)) le_rfl).1

theorem toZ_pow (hp : 0 < p) (hM : (p : Int) ≤ 2147483648) {a : ModInt (p : Int)}
    (ha : Valid a) (exp : Int) : toZ (pow a exp) = toZ a ^ exp.toNat := by
  have h := (powLoop_spec hM _ a _ exp ha (ofInt_valid (v := 1) (by norm_num) (by exact_mod_cast hp)) le_rfl).2
  unfold pow
  rw [h, toZ_ofInt (by norm_num) hp]
  simp

theorem inv_valid (hp : 0 < p) (hM : (p : Int) ≤ 2147483648) {a : ModInt (p : Int)}
    (ha : Valid a) : Valid (inv a) := pow_valid hp hM ha _

theorem toZ_inv_raw (hp : 0 < p) (hM : (p : Int) ≤ 2147483648) {a : ModInt (p : Int)}
    (ha : Valid a) : toZ (inv a) = toZ a ^ (p - 2) := by
  unfold inv
  rw [toZ_pow hp hM ha]
  congr 1
  omega

theorem toZ_inv (hp : p.Prime) (hM : (p : Int) ≤ 2147483648) {a : ModInt (p : Int)}
    (ha : Valid a) (h0 : toZ a ≠ 0) : toZ (inv a) = (toZ a)⁻¹ := by
  haveI := Fact.mk hp
  rw [toZ_inv_raw hp.pos hM ha]
  have h1 : toZ a ^ (p - 1) = 1 := ZMod.pow_card_sub_one_eq_one h0
  have h2 : p - 1 = (p - 2) + 1 := by have := hp.two_le; omega
  rw [h2, pow_succ] at h1
  exact eq_inv_of_mul_eq_one_left h1

theorem div_valid (hp : 0 < p) (hM : (p : Int) ≤ 2147483648) {a b : ModInt (p : Int)}
    (ha : Valid a) (hb : Valid b) : Valid (div a b) :=
  mul_valid ha (inv_valid hp hM hb) hM

theorem toZ_div (hp : p.Prime) (hM : (p : Int) ≤ 2147483648) {a b : ModInt (p : Int)}
    (ha : Valid a) (hb : Valid b) (h0 : toZ b ≠ 0) : toZ (div a b) = toZ a * (toZ b)⁻¹ := by
  unfold div
  rw [toZ_mul ha (inv_valid hp.pos hM hb) hM, toZ_inv hp hM hb h0]

theorem toZ_eq_zero_iff {a : ModInt (p : Int)} (ha : Valid a) : toZ a = 0 ↔ a = ⟨0⟩ := by
  constructor
  · intro h
    have hv : Valid (⟨0⟩ : ModInt (p : Int)) := ⟨le_rfl, lt_of_le_of_lt ha.1 ha.2⟩
    exact ha.eq_of_toZ hv (by simpa [toZ] using h)
  · rintro rfl
    simp [toZ]

end ModInt
end PolyCalc

namespace PolyCalc

section ListSem
variable {p : Nat}

theorem scalar_ofInt_zero {M : Int} : (Scalar.ofInt 0 : ModInt M) = ⟨0⟩ := ModInt.ofInt_zero

theorem toZ_zero : ModInt.toZ (⟨0⟩ : ModInt (p : Int)) = 0 := by simp [ModInt.toZ]

theorem valid_zero {M : Int} (hM : 0 < M) : ModInt.Valid (⟨0⟩ : ModInt M) := ⟨le_rfl, hM⟩

theorem toPolyL_cons (c : ModInt (p : Int)) (l : List (ModInt (p : Int))) :
    toPolyL (c :: l) = Polynomial.C (ModInt.toZ c) + Polynomial.X * toPolyL l := rfl

theorem coeff_toPolyL (l : List (ModInt (p : Int))) (k : Nat) :
    (toPolyL l).coeff k = ModInt.toZ (l.getD k ⟨0⟩) := by
  induction l generalizing k with
  | nil => simp [toPolyL, toZ_zero]
  | cons c l ih =>
    cases k with
    | zero => simp [toPolyL]
    | succ k =>
      have := ih k
      simp only [toPolyL, Polynomial.coeff_add, Polynomial.coeff_C_succ, Polynomial.coeff_X_mul,
        zero_add, this]
      simp

theorem toPolyL_eq_of_getD {l m : List (ModInt (p : Int))}
    (h : ∀ k, ModInt.toZ (l.getD k ⟨0⟩) = ModInt.toZ (m.getD k ⟨0⟩)) : toPolyL l = toPolyL m := by
  ext k
  rw [coeff_toPolyL, coeff_toPolyL, h]

theorem toPolyL_append (l m : List (ModInt (p : Int))) :
    toPolyL (l ++ m) = toPolyL l + Polynomial.X ^ l.length * toPolyL m := by
  induction l with
  | nil => simp [toPolyL]
  | cons c l ih =>
    rw [List.cons_append, toPolyL_cons, toPolyL_cons, ih, List.length_cons, pow_succ]
    ring

theorem toPolyL_singleton (c : ModInt (p : Int)) : toPolyL [c] = Polynomial.C (ModInt.toZ c) := by
  simp [toPolyL]

theorem degree_toPolyL_lt (l : List (ModInt (p : Int))) :
    (toPolyL l).degree < (l.length : WithBot Nat) := by
  rw [Polynomial.degree_lt_iff_coeff_zero]
  intro m hm
  rw [coeff_toPolyL, List.getD_eq_default _ _ hm, toZ_zero]

theorem natDegree_toPolyL_le (l : List (ModInt (p : Int))) :
    (toPolyL l).natDegree ≤ l.length - 1 := by
  rw [Polynomial.natDegree_le_iff_coeff_eq_zero]
  intro m hm
  rw [coeff_toPolyL, List.getD_eq_default _ _ (by omega), toZ_zero]

theorem getLast_eq_getD {α : Type} (l : List α) (h : l ≠ []) (d : α) :
    l.getLast h = l.getD (l.length - 1) d := by
  rw [List.getLast_eq_getElem, List.getD_eq_getElem]

theorem getLastD_eq_getLast {α : Type} (l : List α) (h : l ≠ []) (d : α) :
    l.getLastD d = l.getLast h := by
  rw [List.getLastD_eq_getLast?, List.getLast?_eq_getLast _ h]
  rfl

theorem NormalizedL.last_ne {M : Int} {l : List (ModInt M)} (h : NormalizedL l) (hl : l ≠ []) :
    l.getLast hl ≠ ⟨0⟩ := by
  intro h0
  apply h
  rw [List.getLast?_eq_getLast _ hl, h0]

theorem normalizedL_iff {M : Int} {l : List (ModInt M)} :
    NormalizedL l ↔ ∀ hl : l ≠ [], l.getLast hl ≠ ⟨0⟩ := by
  constructor
  · exact fun h hl => h.last_ne hl
  · intro h h0
    cases l with
    | nil => simp at h0
    | cons a l =>
      rw [List.getLast?_eq_getLast _ (by simp)] at h0
      exact h (by simp) (Option.some.inj h0)

theorem ValidL.getD {M : Int} {l : List (ModInt M)} (h : ValidL l) (hM : 0 < M) (k : Nat) :
    ModInt.Valid (l.getD k ⟨0⟩) := by
  by_cases hk : k < l.length
  · rw [List.getD_eq_getElem _ _ hk]
    exact h _ (List.getElem_mem _)
  · rw [List.getD_eq_default _ _ (by omega)]
    exact valid_zero hM

theorem ValidL.getLast {M : Int} {l : List (ModInt M)} (h : ValidL l) (hl : l ≠ []) :
    ModInt.Valid (l.getLast hl) := h _ (List.getLast_mem hl)

/-- Leading coefficient and degree of a nonempty normalized vector. -/
theorem toPolyL_lead {l : List (ModInt (p : Int))} (hv : ValidL l) (hn : NormalizedL l)
    (hl : l ≠ []) :
    (toPolyL l).natDegree = l.length - 1 ∧
    (toPolyL l).leadingCoeff = ModInt.toZ (l.getLast hl) ∧ toPolyL l ≠ 0 := by
  have hc : (toPolyL l).coeff (l.length - 1) = ModInt.toZ (l.getLast hl) := by
    rw [coeff_toPolyL, getLast_eq_getD l hl]
  have hne : ModInt.toZ (l.getLast hl) ≠ 0 := by
    intro h0
    exact hn.last_ne hl ((ModInt.toZ_eq_zero_iff (hv.getLast hl)).mp h0)
  have hdeg : (toPolyL l).natDegree = l.length - 1 :=
    Polynomial.natDegree_eq_of_le_of_coeff_ne_zero (natDegree_toPolyL_le l) (by rw [hc]; exact hne)
  refine ⟨hdeg, ?_, ?_⟩
  · rw [Polynomial.leadingCoeff, hdeg, hc]
  · intro h0
    rw [h0] at hc
    simp at hc
    exact hne hc.symm

theorem toPolyL_eq_zero_iff {l : List (ModInt (p : Int))} (hv : ValidL l) (hn : NormalizedL l) :
    toPolyL l = 0 ↔ l = [] := by
  constructor
  · intro h
    by_contra hl
    exact (toPolyL_lead hv hn hl).2.2 h
  · rintro rfl
    rfl

/-- Canonical vectors are determined by the polynomial they denote. -/
theorem toPolyL_injective {l m : List (ModInt (p : Int))} (hl : ValidL l) (hln : NormalizedL l)
    (hm : ValidL m) (hmn : NormalizedL m) (h : toPolyL l = toPolyL m) : l = m := by
  have hlen : l.length = m.length := by
    by_cases h1 : l = []
    · subst h1
      have : m = [] := (toPolyL_eq_zero_iff hm hmn).mp (by rw [← h]; rfl)
      rw [this]
    · have h2 : m ≠ [] := by
        intro h2
        subst h2
        exact h1 ((toPolyL_eq_zero_iff hl hln).mp (by rw [h]; rfl))
      have d1 := (toPolyL_lead hl hln h1).1
      have d2 := (toPolyL_lead hm hmn h2).1
      rw [h] at d1
      have := List.length_pos.mpr h1
      have := List.length_pos.mpr h2
      omega
  apply List.ext_getElem hlen
  intro k h1 h2
  have hc := congrArg (fun f => Polynomial.coeff f k) h
  simp only [coeff_toPolyL] at hc
  rw [List.getD_eq_getElem _ _ h1, List.getD_eq_getElem _ _ h2] at hc
  exact ModInt.Valid.eq_of_toZ (hl _ (List.getElem_mem _)) (hm _ (List.getElem_mem _)) hc

end ListSem
end PolyCalc

namespace PolyCalc

section Folds

theorem foldl_set_spec {T : Type} (d : T) (h : Nat → T → T) (k : Nat) (r0 : List T) :
    ∀ m, ((List.range k).foldl (fun r i => r.set i (h i (r.getD i d))) r0)[m]? =
      if m < k then (r0[m]?).map (h m) else r0[m]? := by
  induction k with
  | zero => intro m; simp
  | succ k ih =>
    intro m
    rw [List.range_succ, List.foldl_append]
    simp only [List.foldl_cons, List.foldl_nil]
    rw [List.getElem?_set]
    by_cases hkm : k = m
    · subst hkm
      simp only [if_true, Nat.lt_succ_self]
      have hk := ih k
      simp only [lt_irrefl, if_false] at hk
      rw [List.getD_eq_getElem?_getD, hk]
      split
      · rename_i hlt
        have : k < r0.length := by
          by_contra hge
          have h1 := List.getElem?_eq_none (Nat.le_of_not_lt hge)
          rw [← hk] at h1
          rw [List.getElem?_eq_none_iff] at h1
          omega
        rw [List.getElem?_eq_getElem this]
        simp
      · rename_i hlt
        have h1 : ((List.range k).foldl (fun r i => r.set i (h i (r.getD i d))) r0)[k]? = none :=
          List.getElem?_eq_none (by omega)
        rw [hk] at h1
        rw [h1]
        simp
    · simp only [hkm, if_false]
      rw [ih m]
      have : (m < k + 1) ↔ (m < k) := by omega
      simp only [this]

theorem foldl_set_length {T : Type} (f : Nat → List T → T) (xs : List Nat) (r0 : List T) :
    (xs.foldl (fun r i => r.set i (f i r)) r0).length = r0.length := by
  induction xs generalizing r0 with
  | nil => rfl
  | cons x xs ih => simp [List.foldl_cons, ih]

end Folds

section Normalize
variable {p : Nat}

/-- The test of the `normalize()` loop on `ModInt` coefficients. -/
theorem decide_eq_zero {M : Int} (c : ModInt M) :
    decide (c = (Scalar.ofInt 0 : ModInt M)) = decide (c = ⟨0⟩) := by
  rw [scalar_ofInt_zero]

theorem normalize_coeffs {M : Int} (f : Polynomial (ModInt M)) :
    (Polynomial.normalize f).coeffs = f.coeffs.rdropWhile (fun c => decide (c = ⟨0⟩)) := by
  unfold Polynomial.normalize
  simp only [scalar_ofInt_zero]

theorem toPolyL_rdropWhile (l : List (ModInt (p : Int))) :
    toPolyL (l.rdropWhile (fun c => decide (c = ⟨0⟩))) = toPolyL l := by
  induction l using List.reverseRecOn with
  | nil => simp
  | append_singleton l x ih =>
    rw [List.rdropWhile_concat]
    split
    · rename_i hx
      have hx' : x = ⟨0⟩ := by simpa using hx
      rw [ih, toPolyL_append, toPolyL_singleton, hx', toZ_zero]
      simp
    · rfl

theorem validL_rdropWhile {M : Int} {l : List (ModInt M)} (h : ValidL l) :
    ValidL (l.rdropWhile (fun c => decide (c = ⟨0⟩))) :=
  fun c hc => h c ((List.rdropWhile_prefix _ l).subset hc)

theorem normalizedL_rdropWhile {M : Int} (l : List (ModInt M)) :
    NormalizedL (l.rdropWhile (fun c => decide (c = ⟨0⟩))) := by
  rw [normalizedL_iff]
  intro hl h0
  have := List.rdropWhile_last_not (fun c : ModInt M => decide (c = ⟨0⟩)) l hl
  simp [h0] at this

theorem rdropWhile_of_normalizedL {M : Int} {l : List (ModInt M)} (h : NormalizedL l) :
    l.rdropWhile (fun c => decide (c = ⟨0⟩)) = l := by
  rw [List.rdropWhile_eq_self_iff]
  intro hl
  simpa using h.last_ne hl

theorem length_rdropWhile_le {α : Type} (P : α → Bool) (l : List α) :
    (l.rdropWhile P).length ≤ l.length :=
  (List.rdropWhile_prefix P l).length_le

namespace Polynomial

theorem normalize_wf {M : Int} {f : Polynomial (ModInt M)} (h : ValidL f.coeffs) :
    WF (normalize f) := by
  unfold WF
  rw [normalize_coeffs]
  exact ⟨validL_rdropWhile h, normalizedL_rdropWhile _⟩

theorem toPoly_normalize (f : Polynomial (ModInt (p : Int))) :
    toPoly (normalize f) = toPoly f := by
  unfold toPoly
  rw [normalize_coeffs, toPolyL_rdropWhile]

theorem normalize_of_wf {M : Int} {f : Polynomial (ModInt M)} (h : WF f) : normalize f = f := by
  obtain ⟨l⟩ := f
  have := normalize_coeffs (⟨l⟩ : Polynomial (ModInt M))
  rw [rdropWhile_of_normalizedL h.2] at this
  cases hn : normalize (⟨l⟩ : Polynomial (ModInt M))
  rw [hn] at this
  simp at this
  rw [this]

theorem toPoly_ofCoeffs (l : List (ModInt (p : Int))) : toPoly (ofCoeffs l) = toPolyL l :=
  toPoly_normalize ⟨l⟩

theorem ofCoeffs_wf {M : Int} {l : List (ModInt M)} (h : ValidL l) : WF (ofCoeffs l) :=
  normalize_wf (f := ⟨l⟩) h

theorem wf_empty {M : Int} : WF (empty : Polynomial (ModInt M)) := by
  constructor
  · intro c hc; simp [empty] at hc
  · simp [NormalizedL, empty]

theorem toPoly_empty : toPoly (empty : Polynomial (ModInt (p : Int))) = 0 := rfl

/-- Link between `degree()` and the degree in `(ZMod p)[X]`. -/
theorem degree_eq {f : Polynomial (ModInt (p : Int))} (h : WF f) (hne : f.coeffs ≠ []) :
    f.degree = ((toPoly f).natDegree : Int) ∧ toPoly f ≠ 0 := by
  obtain ⟨h1, _, h3⟩ := toPolyL_lead h.1 h.2 hne
  refine ⟨?_, h3⟩
  unfold degree toPoly
  have hpos := List.length_pos.mpr hne
  have : f.coeffs.isEmpty = false := by
    cases hc : f.coeffs with
    | nil => exact absurd hc hne
    | cons a l => rfl
  rw [this, h1]
  simp only [Bool.false_eq_true, if_false]
  omega

theorem degree_empty {T : Type} {f : Polynomial T} (h : f.coeffs = []) : f.degree = -1 := by
  unfold degree; simp [h]

theorem degree_nonempty {T : Type} {f : Polynomial T} (h : f.coeffs ≠ []) :
    f.degree = (f.coeffs.length : Int) - 1 := by
  unfold degree
  have : f.coeffs.isEmpty = false := by
    cases hc : f.coeffs with
    | nil => exact absurd hc h
    | cons a l => rfl
  simp [this]

end Polynomial
end Normalize
end PolyCalc

namespace PolyCalc

theorem scalar_add_def {M : Int} (a b : ModInt M) : a + b = ModInt.add a b := rfl
theorem scalar_sub_def {M : Int} (a b : ModInt M) : a - b = ModInt.sub a b := rfl
theorem scalar_mul_def {M : Int} (a b : ModInt M) : a * b = ModInt.mul a b := rfl
theorem scalar_div_def {M : Int} (a b : ModInt M) : a / b = ModInt.div a b := rfl

theorem set_getD_self {T : Type} (d : T) (r : List T) (i : Nat) : r.set i (r.getD i d) = r := by
  apply List.ext_getElem?
  intro m
  rw [List.getElem?_set]
  by_cases him : i = m
  · subst him
    by_cases hi : i < r.length
    · simp [hi, List.getD_eq_getElem _ _ hi]
    · simp [hi, List.getElem?_eq_none (Nat.le_of_not_lt hi)]
  · simp [him]

theorem two_step_set {T : Type} (d : T) (r : List T) (i : Nat) (c1 c2 : Prop)
    [Decidable c1] [Decidable c2] (u v : T → T) :
    (if c2 then
        (if c1 then r.set i (u (r.getD i d)) else r).set i
          (v ((if c1 then r.set i (u (r.getD i d)) else r).getD i d))
      else (if c1 then r.set i (u (r.getD i d)) else r)) =
    r.set i ((fun x => if c2 then v (if c1 then u x else x) else (if c1 then u x else x))
      (r.getD i d)) := by
  by_cases hi : i < r.length
  · have hself : r.set i (r.getD i d) = r := set_getD_self d r i
    have hget : ∀ x, (r.set i x).getD i d = x := by
      intro x
      rw [List.getD_eq_getElem _ _ (by simpa using hi)]
      simp
    by_cases h1 : c1 <;> by_cases h2 : c2 <;> simp only [h1, h2, if_true, if_false, hget,
      List.set_set, hself]
  · have hset : ∀ x, r.set i x = r := fun x => List.set_eq_of_length_le (by omega)
    by_cases h1 : c1 <;> by_cases h2 : c2 <;> simp only [h1, h2, if_true, if_false, hset]

section Sub
variable {p : Nat}

/-- The coefficient-wise loop shared by operator `+` and operator `-`. -/
theorem addsub_loop_getElem? {T : Type} (d : T) (op : T → T → T) (plus : T → T → T)
    (f g : List T) (n : Nat) (m : Nat) :
    ((List.range n).foldl (fun result i =>
      let result := if i < f.length then
          result.set i (plus (result.getD i d) (f.getD i d))
        else result
      if i < g.length then
        result.set i (op (result.getD i d) (g.getD i d))
      else result) (List.replicate n d))[m]? =
    if m < n then
      some (if m < g.length then op (if m < f.length then plus d (f.getD m d) else d) (g.getD m d)
        else (if m < f.length then plus d (f.getD m d) else d))
    else none := by
  have hbody : (fun (result : List T) (i : Nat) =>
      let result := if i < f.length then
          result.set i (plus (result.getD i d) (f.getD i d))
        else result
      if i < g.length then
        result.set i (op (result.getD i d) (g.getD i d))
      else result) =
      (fun r i => r.set i ((fun i x => if i < g.length then
        op (if i < f.length then plus x (f.getD i d) else x) (g.getD i d)
        else (if i < f.length then plus x (f.getD i d) else x)) i (r.getD i d))) := by
    funext r i
    exact two_step_set d r i (i < f.length) (i < g.length) (fun x => plus x (f.getD i d))
      (fun x => op x (g.getD i d))
  rw [hbody]
  rw [foldl_set_spec d (fun i x => if i < g.length then
        op (if i < f.length then plus x (f.getD i d) else x) (g.getD i d)
        else (if i < f.length then plus x (f.getD i d) else x)) n (List.replicate n d) m]
  by_cases hm : m < n
  · simp [hm, List.getElem?_replicate]
  · simp [hm, List.getElem?_replicate]

theorem getD_of_getElem? {T : Type} {l : List T} {m : Nat} {d x : T} (h : l[m]? = some x) :
    l.getD m d = x := by
  rw [List.getD_eq_getElem?_getD, h]; rfl

theorem getD_of_getElem?_none {T : Type} {l : List T} {m : Nat} {d : T} (h : l[m]? = none) :
    l.getD m d = d := by
  rw [List.getD_eq_getElem?_getD, h]; rfl

theorem validL_of_getElem? {M : Int} {l : List (ModInt M)}
    (h : ∀ (m : Nat) (x : ModInt M), l[m]? = some x → ModInt.Valid x) : ValidL l := by
  intro c hc
  obtain ⟨m, hm, rfl⟩ := List.getElem_of_mem hc
  exact h m _ (List.getElem?_eq_getElem hm)

namespace Polynomial

theorem sub_spec (hp : 0 < p) (hM : (p : Int) ≤ 2147483648)
    {f g : Polynomial (ModInt (p : Int))} (hf : ValidL f.coeffs) (hg : ValidL g.coeffs) :
    WF (sub f g) ∧ toPoly (sub f g) = toPoly f - toPoly g := by
  have hpos : (0 : Int) < p := by exact_mod_cast hp
  unfold sub
  simp only [scalar_ofInt_zero]
  set R := ((List.range (max f.coeffs.length g.coeffs.length)).foldl _ _) with hR
  have hget := addsub_loop_getElem? (⟨0⟩ : ModInt (p : Int)) (· - ·) (· + ·) f.coeffs g.coeffs
    (max f.coeffs.length g.coeffs.length)
  have hv0 := valid_zero hpos
  have hfv : ∀ m, ModInt.Valid (f.coeffs.getD m ⟨0⟩) := hf.getD hpos
  have hgv : ∀ m, ModInt.Valid (g.coeffs.getD m ⟨0⟩) := hg.getD hpos
  have key : ∀ m x, R[m]? = some x → ModInt.Valid x ∧
      ModInt.toZ x = ModInt.toZ (f.coeffs.getD m ⟨0⟩) - ModInt.toZ (g.coeffs.getD m ⟨0⟩) := by
    intro m x hx
    rw [hR, hget m] at hx
    by_cases hm : m < max f.coeffs.length g.coeffs.length
    · simp only [hm, if_true, Option.some.injEq] at hx
      subst hx
      by_cases h1 : m < f.coeffs.length <;> by_cases h2 : m < g.coeffs.length
      · simp only [h1, h2, if_true, scalar_add_def, scalar_sub_def,
          ModInt.zero_add (hfv m) hM]
        exact ⟨ModInt.sub_valid (hfv m) (hgv m) hM, ModInt.toZ_sub (hfv m) (hgv m) hM⟩
      · simp only [h1, h2, if_true, if_false, scalar_add_def, ModInt.zero_add (hfv m) hM]
        refine ⟨hfv m, ?_⟩
        rw [List.getD_eq_default _ _ (by omega : g.coeffs.length ≤ m), toZ_zero, sub_zero]
      · simp only [h1, h2, if_true, if_false, scalar_sub_def]
        refine ⟨ModInt.sub_valid hv0 (hgv m) hM, ?_⟩
        rw [ModInt.toZ_sub hv0 (hgv m) hM,
          List.getD_eq_default _ _ (by omega : f.coeffs.length ≤ m)]
      · omega
    · simp [hm] at hx
  refine ⟨ofCoeffs_wf (validL_of_getElem? (fun m x hx => (key m x hx).1)), ?_⟩
  rw [toPoly_ofCoeffs]
  ext m
  rw [Polynomial.coeff_sub]
  unfold toPoly
  rw [coeff_toPolyL, coeff_toPolyL, coeff_toPolyL]
  cases hx : R[m]? with
  | some x => rw [getD_of_getElem? hx]; exact (key m x hx).2
  | none =>
    rw [getD_of_getElem?_none hx]
    rw [hR, hget m] at hx
    have hm : ¬ m < max f.coeffs.length g.coeffs.length := by
      intro hm; simp [hm] at hx
    rw [List.getD_eq_default _ _ (by omega : f.coeffs.length ≤ m),
      List.getD_eq_default _ _ (by omega : g.coeffs.length ≤ m)]
    simp [toZ_zero]

end Polynomial
end Sub
end PolyCalc

namespace PolyCalc

theorem foldl_fixed {α β : Type} (F : β → α → β) (r : β) (xs : List α)
    (h : ∀ x ∈ xs, F r x = r) : xs.foldl F r = r := by
  induction xs with
  | nil => rfl
  | cons x xs ih =>
    rw [List.foldl_cons, h x (List.mem_cons_self _ _)]
    exact ih (fun y hy => h y (List.mem_cons_of_mem _ hy))

theorem ModInt.mul_zero_right {M : Int} (a : ModInt M) : ModInt.mul a ⟨0⟩ = ⟨0⟩ := by
  simp [ModInt.mul, wrap32]

section Monomial
variable {p : Nat}

theorem ModInt.Valid.small {M : Int} {a : ModInt M} (h : ModInt.Valid a) : ModInt.Small a :=
  ⟨by have := h.1; omega, h.2⟩

theorem ModInt.small_zero {M : Int} (hM : 0 < M) : ModInt.Small (⟨0⟩ : ModInt M) :=
  ⟨by norm_num, hM⟩

theorem ModInt.add_zero_small {M : Int} (hM' : M ≤ 2147483648) {a : ModInt M}
    (ha : ModInt.Small a) :
    ModInt.add a ⟨0⟩ = a := by
  obtain ⟨a⟩ := a
  simp only [ModInt.Small, ModInt.add] at *
  have := ha.2
  rw [wrap32_of_range (by omega) (by omega)]
  simp; omega

theorem ModInt.zero_add_small {M : Int} (hM' : M ≤ 2147483648) {a : ModInt M}
    (ha : ModInt.Small a) :
    ModInt.add ⟨0⟩ a = a := by
  obtain ⟨a⟩ := a
  simp only [ModInt.Small, ModInt.add] at *
  have := ha.2
  rw [wrap32_of_range (by omega) (by omega)]
  simp; omega

theorem tmod_abs_lt (a : Int) {M : Int} (hM : 0 < M) : -M < Int.tmod a M ∧ Int.tmod a M < M := by
  refine ⟨?_, Int.tmod_lt_of_pos a hM⟩
  by_cases ha : 0 ≤ a
  · have := Int.tmod_nonneg M ha
    omega
  · have h1 : Int.tmod (-a) M < M := Int.tmod_lt_of_pos (-a) hM
    have h2 : Int.tmod (-a) M = -Int.tmod a M := by
      rw [Int.tmod_def, Int.tmod_def, Int.neg_tdiv]
      ring
    omega

theorem ModInt.mul_value_raw {M : Int} (hM : 0 < M) (hM' : M ≤ 2147483648) (a b : ModInt M) :
    (ModInt.mul a b).value = Int.tmod (a.value * b.value) M := by
  unfold ModInt.mul
  have := tmod_abs_lt (a.value * b.value) hM
  exact wrap32_of_range (by omega) (by omega)

theorem ModInt.mul_small {M : Int} (hM : 0 < M) (hM' : M ≤ 2147483648) (a b : ModInt M) :
    ModInt.Small (ModInt.mul a b) := by
  unfold ModInt.Small
  rw [ModInt.mul_value_raw hM hM']
  have := tmod_abs_lt (a.value * b.value) hM
  constructor <;> omega

theorem small_getD {M : Int} (hM : 0 < M) {l : List (ModInt M)} (h : ∀ x ∈ l, ModInt.Small x)
    (k : Nat) : ModInt.Small (l.getD k ⟨0⟩) := by
  by_cases hk : k < l.length
  · rw [List.getD_eq_getElem _ _ hk]
    exact h _ (List.getElem_mem _)
  · rw [List.getD_eq_default _ _ (by omega)]
    exact ModInt.small_zero hM

/-- One row of the multiplication loop against the monomial `c * x^d`. -/
theorem mul_row_monomial {M : Int} (hM : 0 < M) (hM' : M ≤ 2147483648)
    {b : List (ModInt M)} {d : Nat} {c x : ModInt M}
    (hblen : b.length = d + 1) (hb0 : ∀ j, j < d → b.getD j ⟨0⟩ = ⟨0⟩) (hbd : b.getD d ⟨0⟩ = c)
    (i : Nat) {r : List (ModInt M)} (hr : ∀ y ∈ r, ModInt.Small y) :
    (List.range b.length).foldl (fun result j =>
      result.set (i + j) (result.getD (i + j) ⟨0⟩ + x * b.getD j ⟨0⟩)) r =
    r.set (i + d) (ModInt.add (r.getD (i + d) ⟨0⟩) (ModInt.mul x c)) := by
  rw [hblen, List.range_succ, List.foldl_append]
  rw [foldl_fixed _ r (List.range d)]
  · simp only [List.foldl_cons, List.foldl_nil, hbd, scalar_add_def, scalar_mul_def]
  · intro j hj
    have hj' : j < d := List.mem_range.mp hj
    simp only [hb0 j hj', scalar_add_def, scalar_mul_def, ModInt.mul_zero_right]
    rw [ModInt.add_zero_small hM' (small_getD hM hr _)]
    exact set_getD_self _ _ _

theorem mulLoop_monomial_getElem? {M : Int} (hM : 0 < M) (hM' : M ≤ 2147483648)
    {a b : List (ModInt M)} {d : Nat} {c : ModInt M}
    (hblen : b.length = d + 1) (hb0 : ∀ j, j < d → b.getD j ⟨0⟩ = ⟨0⟩) (hbd : b.getD d ⟨0⟩ = c)
    (k : Nat) (hk : k ≤ a.length) (m : Nat) :
    ((List.range k).foldl (fun result i =>
      (List.range b.length).foldl (fun result j =>
        result.set (i + j) (result.getD (i + j) ⟨0⟩ + a.getD i ⟨0⟩ * b.getD j ⟨0⟩)) result)
      (List.replicate (a.length + b.length - 1) ⟨0⟩))[m]? =
    if m < a.length + d then
      some (if d ≤ m ∧ m < d + k then ModInt.mul (a.getD (m - d) ⟨0⟩) c else ⟨0⟩)
    else none := by
  induction k generalizing m with
  | zero =>
    simp only [List.range_zero, List.foldl_nil, List.getElem?_replicate, hblen]
    have : a.length + (d + 1) - 1 = a.length + d := by omega
    rw [this]
    by_cases hm : m < a.length + d
    · simp only [hm, if_true]
      have : ¬ (d ≤ m ∧ m < d + 0) := by omega
      rw [if_neg this]
    · simp [hm]
  | succ k ih =>
    have ih' := ih (by omega)
    rw [List.range_succ, List.foldl_append]
    simp only [List.foldl_cons, List.foldl_nil]
    set S := (List.range k).foldl (fun result i =>
      (List.range b.length).foldl (fun result j =>
        result.set (i + j) (result.getD (i + j) ⟨0⟩ + a.getD i ⟨0⟩ * b.getD j ⟨0⟩)) result)
      (List.replicate (a.length + b.length - 1) ⟨0⟩) with hS
    have hSv : ∀ y ∈ S, ModInt.Small y := by
      intro y hy
      obtain ⟨m, hm, rfl⟩ := List.getElem_of_mem hy
      have hx := List.getElem?_eq_getElem hm
      rw [ih' m] at hx
      by_cases hm' : m < a.length + d
      · simp only [hm', if_true, Option.some.injEq] at hx
        rw [← hx]
        split
        · exact ModInt.mul_small hM hM' _ _
        · exact ModInt.small_zero hM
      · simp [hm'] at hx
    rw [mul_row_monomial hM hM' hblen hb0 hbd k hSv]
    have hSk : S.getD (k + d) ⟨0⟩ = ⟨0⟩ := by
      cases hx : S[k + d]? with
      | none => exact getD_of_getElem?_none hx
      | some x =>
        rw [getD_of_getElem? hx]
        rw [ih' (k + d)] at hx
        have : ¬ (d ≤ k + d ∧ k + d < d + k) := by omega
        simp only [this, if_false] at hx
        split at hx
        · exact (Option.some.inj hx).symm
        · simp at hx
    rw [hSk, ModInt.zero_add_small hM' (ModInt.mul_small hM hM' _ _)]
    rw [List.getElem?_set]
    by_cases hkm : k + d = m
    · subst hkm
      have hlen : k + d < S.length := by
        by_contra hge
        have h1 := List.getElem?_eq_none (Nat.le_of_not_lt hge)
        rw [ih' (k + d)] at h1
        have : k + d < a.length + d := by omega
        simp [this] at h1
      have h2 : k + d < a.length + d := by omega
      have h3 : d ≤ k + d ∧ k + d < d + (k + 1) := by omega
      simp [hlen, h2, h3]
    · simp only [hkm, if_false]
      rw [ih' m]
      by_cases hm : m < a.length + d
      · simp only [hm, if_true]
        have : (d ≤ m ∧ m < d + (k + 1)) ↔ (d ≤ m ∧ m < d + k) := by omega
        simp only [this]
      · simp [hm]

namespace Polynomial

theorem mulLoop_monomial (hp : 0 < p) (hM : (p : Int) ≤ 2147483648)
    {a b : List (ModInt (p : Int))} {d : Nat} {c : ModInt (p : Int)}
    (ha : ValidL a) (hc : ModInt.Valid c)
    (hblen : b.length = d + 1) (hb0 : ∀ j, j < d → b.getD j ⟨0⟩ = ⟨0⟩) (hbd : b.getD d ⟨0⟩ = c) :
    ValidL (mulLoop a b) ∧
    toPolyL (mulLoop a b) =
      toPolyL a * (Polynomial.C (ModInt.toZ c) * Polynomial.X ^ d) := by
  have hpos : (0 : Int) < p := by exact_mod_cast hp
  have hget := mulLoop_monomial_getElem? (a := a) hpos hM hblen hb0 hbd a.length le_rfl
  have hdef : mulLoop a b = (List.range a.length).foldl (fun result i =>
      (List.range b.length).foldl (fun result j =>
        result.set (i + j) (result.getD (i + j) ⟨0⟩ + a.getD i ⟨0⟩ * b.getD j ⟨0⟩)) result)
      (List.replicate (a.length + b.length - 1) ⟨0⟩) := by
    unfold mulLoop
    simp only [scalar_ofInt_zero]
  rw [hdef]
  constructor
  · apply validL_of_getElem?
    intro m x hx
    rw [hget m] at hx
    by_cases hm : m < a.length + d
    · simp only [hm, if_true, Option.some.injEq] at hx
      subst hx
      split
      · exact ModInt.mul_valid (ha.getD hpos _) hc hM
      · exact valid_zero hpos
    · simp [hm] at hx
  · ext m
    rw [coeff_toPolyL, ← mul_assoc, Polynomial.coeff_mul_X_pow', Polynomial.coeff_mul_C,
      coeff_toPolyL]
    by_cases hm : m < a.length + d
    · have hx := hget m
      simp only [hm, if_true] at hx
      rw [getD_of_getElem? hx]
      by_cases hdm : d ≤ m
      · have : d ≤ m ∧ m < d + a.length := by omega
        simp only [this, hdm, and_self, if_true]
        exact ModInt.toZ_mul (ha.getD hpos _) hc hM
      · have : ¬ (d ≤ m ∧ m < d + a.length) := by omega
        simp only [this, hdm, if_false]
        exact toZ_zero
    · have hx := hget m
      simp only [hm, if_false] at hx
      rw [getD_of_getElem?_none hx, toZ_zero]
      have hdm : d ≤ m := by omega
      simp only [hdm, if_true]
      rw [List.getD_eq_default _ _ (by omega : a.length ≤ m - d), toZ_zero, zero_mul]

end Polynomial
end Monomial
end PolyCalc

namespace PolyCalc

section DivLemmas
variable {p : Nat}

theorem toPolyL_set {l : List (ModInt (p : Int))} {k : Nat} (hk : k < l.length)
    (v : ModInt (p : Int)) :
    toPolyL (l.set k v) =
      toPolyL l + Polynomial.C (ModInt.toZ v - ModInt.toZ (l.getD k ⟨0⟩)) * Polynomial.X ^ k := by
  ext m
  rw [Polynomial.coeff_add, Polynomial.coeff_C_mul_X_pow, coeff_toPolyL, coeff_toPolyL]
  rw [List.getD_eq_getElem?_getD, List.getElem?_set]
  by_cases hkm : k = m
  · subst hkm
    simp [hk]
  · have : ¬ m = k := fun h => hkm h.symm
    simp [hkm, this]

theorem term_length {M : Int} (d : Nat) (c : ModInt M) :
    ((List.replicate (d + 1) (⟨0⟩ : ModInt M)).set d c).length = d + 1 := by simp

theorem term_getD_lt {M : Int} (d : Nat) (c : ModInt M) (j : Nat) (hj : j < d) :
    ((List.replicate (d + 1) (⟨0⟩ : ModInt M)).set d c).getD j ⟨0⟩ = ⟨0⟩ := by
  rw [List.getD_eq_getElem?_getD, List.getElem?_set_ne (by omega),
    List.getElem?_replicate_of_lt (by omega)]
  rfl

theorem term_getD_self {M : Int} (d : Nat) (c : ModInt M) :
    ((List.replicate (d + 1) (⟨0⟩ : ModInt M)).set d c).getD d ⟨0⟩ = c := by
  rw [List.getD_eq_getElem?_getD, List.getElem?_set_self (by simp)]
  rfl

theorem term_valid {M : Int} (hM : 0 < M) (d : Nat) {c : ModInt M} (hc : ModInt.Valid c) :
    ValidL ((List.replicate (d + 1) (⟨0⟩ : ModInt M)).set d c) := by
  intro x hx
  rcases List.mem_or_eq_of_mem_set hx with h | h
  · rw [List.eq_of_mem_replicate h]; exact valid_zero hM
  · rw [h]; exact hc

namespace Polynomial

theorem mul_monomial_spec (hp : 0 < p) (hM : (p : Int) ≤ 2147483648)
    {f : Polynomial (ModInt (p : Int))} (hf : ValidL f.coeffs) {c : ModInt (p : Int)}
    (hc : ModInt.Valid c) (d : Nat) :
    WF (mul f (ofCoeffs ((List.replicate (d + 1) (Scalar.ofInt 0 : ModInt (p : Int))).set d c))) ∧
    toPoly (mul f (ofCoeffs ((List.replicate (d + 1) (Scalar.ofInt 0 : ModInt (p : Int))).set d c)))
      = toPoly f * (Polynomial.C (ModInt.toZ c) * Polynomial.X ^ d) := by
  have hpos : (0 : Int) < p := by exact_mod_cast hp
  rw [scalar_ofInt_zero]
  set term := (List.replicate (d + 1) (⟨0⟩ : ModInt (p : Int))).set d c with hterm
  by_cases hc0 : c = ⟨0⟩
  · have hnil : (ofCoeffs term).coeffs = [] := by
      unfold ofCoeffs
      rw [normalize_coeffs, List.rdropWhile_eq_nil_iff]
      intro x hx
      rcases List.mem_or_eq_of_mem_set hx with h | h
      · simp [List.eq_of_mem_replicate h]
      · simp [h, hc0]
    have hmul : mul f (ofCoeffs term) = empty := by
      unfold mul
      simp [hnil]
    rw [hmul]
    refine ⟨wf_empty, ?_⟩
    rw [toPoly_empty, hc0, toZ_zero]
    simp
  · have hne : term ≠ [] := by
      intro h
      have := term_length d c
      rw [← hterm, h] at this
      simp at this
    have hwf : WF (⟨term⟩ : Polynomial (ModInt (p : Int))) := by
      refine ⟨term_valid hpos d hc, ?_⟩
      rw [normalizedL_iff]
      intro hl
      show term.getLast hl ≠ _
      rw [getLast_eq_getD term hl ⟨0⟩, hterm, term_length, Nat.add_sub_cancel, term_getD_self]
      exact hc0
    have hof : ofCoeffs term = ⟨term⟩ := normalize_of_wf hwf
    rw [hof]
    by_cases hfe : f.coeffs = []
    · have hmul : mul f ⟨term⟩ = empty := by
        unfold mul
        simp [hfe]
      rw [hmul]
      refine ⟨wf_empty, ?_⟩
      rw [toPoly_empty]
      unfold toPoly
      rw [hfe]
      simp [toPolyL]
    · have hmul : mul f ⟨term⟩ = ofCoeffs (mulLoop f.coeffs term) := by
        unfold mul
        have h1 : f.coeffs.isEmpty = false := by
          cases hcc : f.coeffs with
          | nil => exact absurd hcc hfe
          | cons a l => rfl
        have h2 : term.isEmpty = false := by
          cases hcc : term with
          | nil => exact absurd hcc hne
          | cons a l => rfl
        simp [h1, h2]
      rw [hmul]
      obtain ⟨h1, h2⟩ := mulLoop_monomial hp hM hf hc (term_length d c)
        (term_getD_lt d c) (term_getD_self d c)
      refine ⟨ofCoeffs_wf h1, ?_⟩
      rw [toPoly_ofCoeffs, h2]
      rfl

end Polynomial

theorem fp_divmod_unique [Fact p.Prime] {B q r q' r' : FpPoly p}
    (h : B * q + r = B * q' + r') (hr : r.degree < B.degree) (hr' : r'.degree < B.degree) :
    q = q' ∧ r = r' := by
  have hq : q = q' := by
    by_contra hne
    have hsub : q - q' ≠ 0 := sub_ne_zero.mpr hne
    have hB : B ≠ 0 := by
      intro h0
      rw [h0] at hr
      simp at hr
    have h1 : B * (q - q') = r' - r := by linear_combination h
    have h2 : (B * (q - q')).degree = B.degree + (q - q').degree := Polynomial.degree_mul
    have h3 : (r' - r).degree < B.degree :=
      lt_of_le_of_lt (Polynomial.degree_sub_le _ _) (max_lt hr' hr)
    rw [← h1, h2] at h3
    have h4 : (0 : WithBot Nat) ≤ (q - q').degree := Polynomial.zero_le_degree_iff.mpr hsub
    have h5 : B.degree ≤ B.degree + (q - q').degree := le_add_of_nonneg_right h4
    exact absurd h3 (not_lt.mpr h5)
  refine ⟨hq, ?_⟩
  rw [hq] at h
  exact add_left_cancel h

end DivLemmas
end PolyCalc

namespace PolyCalc
namespace Polynomial

section DivLoop
variable {p : Nat}

theorem loop_cond_iff {T : Type} {D divisor : Polynomial T} (hdne : divisor.coeffs ≠ []) :
    (D.degree ≥ divisor.degree ∧ D.degree ≥ 0) ↔
      (D.coeffs ≠ [] ∧ divisor.coeffs.length ≤ D.coeffs.length) := by
  have h2 := List.length_pos.mpr hdne
  rw [degree_nonempty hdne]
  by_cases hD : D.coeffs = []
  · rw [degree_empty hD]
    simp [hD]
  · have h1 := List.length_pos.mpr hD
    rw [degree_nonempty hD]
    constructor
    · intro h; exact ⟨hD, by omega⟩
    · intro h; constructor <;> omega

/-- One round of the division loop: the leading term cancels. -/
theorem divmod_step (hp : p.Prime) (hM : (p : Int) ≤ 2147483648)
    {divisor D : Polynomial (ModInt (p : Int))} (hd : WF divisor) (hdne : divisor.coeffs ≠ [])
    (hD : WF D) (hDne : D.coeffs ≠ []) (hle : divisor.coeffs.length ≤ D.coeffs.length) :
    let diff := (D.degree - divisor.degree).toNat
    let factor := D.coeffs.getLastD (Scalar.ofInt 0) / divisor.coeffs.getLastD (Scalar.ofInt 0)
    let term := (List.replicate (diff + 1) (Scalar.ofInt 0 : ModInt (p : Int))).set diff factor
    let D' := normalize (sub D (mul divisor (ofCoeffs term)))
    diff = D.coeffs.length - divisor.coeffs.length ∧ ModInt.Valid factor ∧
    WF D' ∧ D'.coeffs.length < D.coeffs.length ∧
    toPoly D' = toPoly D -
      toPoly divisor * (Polynomial.C (ModInt.toZ factor) * Polynomial.X ^ diff) := by
  haveI := Fact.mk hp
  intro diff factor term D'
  have h1 := List.length_pos.mpr hdne
  have h2 := List.length_pos.mpr hDne
  have hdiff : diff = D.coeffs.length - divisor.coeffs.length := by
    show (D.degree - divisor.degree).toNat = _
    rw [degree_nonempty hdne, degree_nonempty hDne]
    omega
  obtain ⟨db1, db2, db3⟩ := toPolyL_lead hd.1 hd.2 hdne
  obtain ⟨dd1, dd2, dd3⟩ := toPolyL_lead hD.1 hD.2 hDne
  have hlastD : ModInt.Valid (D.coeffs.getLast hDne) := hD.1.getLast hDne
  have hlastd : ModInt.Valid (divisor.coeffs.getLast hdne) := hd.1.getLast hdne
  have hlcd : ModInt.toZ (divisor.coeffs.getLast hdne) ≠ 0 := by
    rw [← db2]; exact Polynomial.leadingCoeff_ne_zero.mpr db3
  have hfdef : factor = ModInt.div (D.coeffs.getLast hDne) (divisor.coeffs.getLast hdne) := by
    show D.coeffs.getLastD (Scalar.ofInt 0) / divisor.coeffs.getLastD (Scalar.ofInt 0) = _
    rw [getLastD_eq_getLast _ hDne, getLastD_eq_getLast _ hdne]
    rfl
  have hfv : ModInt.Valid factor := by
    rw [hfdef]; exact ModInt.div_valid hp.pos hM hlastD hlastd
  have hfz : ModInt.toZ factor = (toPoly D).leadingCoeff * ((toPoly divisor).leadingCoeff)⁻¹ := by
    rw [hfdef, ModInt.toZ_div hp hM hlastD hlastd hlcd]
    unfold toPoly
    rw [dd2, db2]
  obtain ⟨hm1, hm2⟩ := mul_monomial_spec hp.pos hM hd.1 hfv diff
  obtain ⟨hs1, hs2⟩ := sub_spec hp.pos hM hD.1 hm1.1
    (f := D) (g := mul divisor (ofCoeffs term))
  have hD'wf : WF D' := normalize_wf hs1.1
  have hD'eq : toPoly D' = toPoly D -
      toPoly divisor * (Polynomial.C (ModInt.toZ factor) * Polynomial.X ^ diff) := by
    show toPoly (normalize _) = _
    rw [toPoly_normalize, hs2, hm2]
  refine ⟨hdiff, hfv, hD'wf, ?_, hD'eq⟩
  -- the degree drops
  have hBne : toPoly divisor ≠ 0 := db3
  have hDne' : toPoly D ≠ 0 := dd3
  have hlcB : (toPoly divisor).leadingCoeff ≠ 0 := Polynomial.leadingCoeff_ne_zero.mpr hBne
  have hlcD : (toPoly D).leadingCoeff ≠ 0 := Polynomial.leadingCoeff_ne_zero.mpr hDne'
  have hfne : ModInt.toZ factor ≠ 0 := by
    rw [hfz]; exact mul_ne_zero hlcD (inv_ne_zero hlcB)
  have hmono_lc : (Polynomial.C (ModInt.toZ factor) * Polynomial.X ^ diff : FpPoly p).leadingCoeff
      = ModInt.toZ factor := by
    rw [Polynomial.leadingCoeff_mul, Polynomial.leadingCoeff_C, Polynomial.leadingCoeff_X_pow,
      mul_one]
  have hmono_deg : (Polynomial.C (ModInt.toZ factor) * Polynomial.X ^ diff : FpPoly p).natDegree
      = diff := Polynomial.natDegree_C_mul_X_pow diff _ hfne
  have hmono_ne : (Polynomial.C (ModInt.toZ factor) * Polynomial.X ^ diff : FpPoly p) ≠ 0 := by
    intro h0
    rw [h0] at hmono_lc
    simp at hmono_lc
    exact hfne hmono_lc.symm
  have hprod_ne : toPoly divisor *
      (Polynomial.C (ModInt.toZ factor) * Polynomial.X ^ diff) ≠ 0 := mul_ne_zero hBne hmono_ne
  have hdeg_eq : (toPoly D).degree = (toPoly divisor *
      (Polynomial.C (ModInt.toZ factor) * Polynomial.X ^ diff)).degree := by
    rw [Polynomial.degree_eq_natDegree hDne', Polynomial.degree_eq_natDegree hprod_ne,
      Polynomial.natDegree_mul hBne hmono_ne, hmono_deg]
    unfold toPoly
    rw [dd1, db1, hdiff]
    congr 1
    omega
  have hlc_eq : (toPoly D).leadingCoeff = (toPoly divisor *
      (Polynomial.C (ModInt.toZ factor) * Polynomial.X ^ diff)).leadingCoeff := by
    rw [Polynomial.leadingCoeff_mul, hmono_lc, hfz]
    field_simp
  have hlt := Polynomial.degree_sub_lt hdeg_eq hDne' hlc_eq
  rw [← hD'eq] at hlt
  by_cases hD'e : D'.coeffs = []
  · rw [hD'e]; exact h2
  · obtain ⟨e1, _, e3⟩ := toPolyL_lead hD'wf.1 hD'wf.2 hD'e
    have : (toPoly D').natDegree < (toPoly D).natDegree :=
      Polynomial.natDegree_lt_natDegree e3 hlt
    unfold toPoly at this
    rw [e1, dd1] at this
    omega

theorem divmodLoop_spec (hp : p.Prime) (hM : (p : Int) ≤ 2147483648)
    {divisor : Polynomial (ModInt (p : Int))} (hd : WF divisor) (hdne : divisor.coeffs ≠ []) :
    ∀ (fuel : Nat) (D : Polynomial (ModInt (p : Int))) (Q : List (ModInt (p : Int))),
      WF D → ValidL Q → D.coeffs.length < fuel →
      D.coeffs.length ≤ Q.length + divisor.coeffs.length - 1 →
      (∀ j, j + divisor.coeffs.length ≤ D.coeffs.length → Q.getD j ⟨0⟩ = ⟨0⟩) →
      ∃ q r, divmodLoop divisor fuel D ⟨Q⟩ = some (q, r) ∧ WF q ∧ WF r ∧
        toPoly divisor * toPoly q + toPoly r = toPoly divisor * toPolyL Q + toPoly D ∧
        r.coeffs.length < divisor.coeffs.length := by
  intro fuel
  induction fuel with
  | zero => intro D Q _ _ hfuel; exact absurd hfuel (Nat.not_lt_zero _)
  | succ fuel ih =>
    intro D Q hD hQ hfuel hlen hzero
    unfold divmodLoop
    by_cases hcond : D.degree ≥ divisor.degree ∧ D.degree ≥ 0
    · rw [if_pos hcond]
      obtain ⟨hDne, hle⟩ := (loop_cond_iff hdne).mp hcond
      obtain ⟨hdiff, hfv, hD'wf, hD'lt, hD'eq⟩ := divmod_step hp hM hd hdne hD hDne hle
      simp only []
      set diff := (D.degree - divisor.degree).toNat with hdiffdef
      set factor := D.coeffs.getLastD (Scalar.ofInt 0) /
        divisor.coeffs.getLastD (Scalar.ofInt 0) with hfdef
      set D' := normalize (sub D (mul divisor (ofCoeffs
        ((List.replicate (diff + 1) (Scalar.ofInt 0 : ModInt (p : Int))).set diff factor))))
        with hD'def
      have h1 := List.length_pos.mpr hdne
      have hdlt : diff < Q.length := by omega
      have hQ' : ValidL (Q.set diff factor) := by
        intro x hx
        rcases List.mem_or_eq_of_mem_set hx with h | h
        · exact hQ x h
        · rw [h]; exact hfv
      obtain ⟨q, r, hres, hq, hr, heq, hrlt⟩ := ih D' (Q.set diff factor) hD'wf hQ'
        (by omega) (by rw [List.length_set]; omega)
        (by
          intro j hj
          rw [List.getD_eq_getElem?_getD, List.getElem?_set_ne (by omega),
            ← List.getD_eq_getElem?_getD]
          exact hzero j (by omega))
      refine ⟨q, r, hres, hq, hr, ?_, hrlt⟩
      rw [heq, toPolyL_set hdlt, hzero diff (by omega), toZ_zero, hD'eq, sub_zero]
      ring
    · rw [if_neg hcond]
      refine ⟨normalize ⟨Q⟩, normalize D, rfl, normalize_wf hQ, normalize_wf hD.1, ?_, ?_⟩
      · rw [toPoly_normalize, toPoly_normalize]
        rfl
      · rw [normalize_of_wf hD]
        rw [loop_cond_iff hdne] at hcond
        by_cases hDe : D.coeffs = []
        · rw [hDe]; exact List.length_pos.mpr hdne
        · by_contra hge
          exact hcond ⟨hDe, by omega⟩

end DivLoop
end Polynomial
end PolyCalc

namespace PolyCalc
namespace Polynomial

section Divmod
variable {p : Nat}

theorem toPolyL_replicate_zero (n : Nat) :
    toPolyL (List.replicate n (⟨0⟩ : ModInt (p : Int))) = 0 := by
  ext m
  rw [coeff_toPolyL]
  by_cases hm : m < n
  · rw [List.getD_eq_getElem _ _ (by simpa using hm)]
    simp [toZ_zero]
  · rw [List.getD_eq_default _ _ (by simpa using hm)]
    simp [toZ_zero]

theorem quotient_size {T : Type} {f divisor : Polynomial T} (hdne : divisor.coeffs ≠ []) :
    f.coeffs.length ≤ (max 0 (f.degree - divisor.degree + 1)).toNat
      + divisor.coeffs.length - 1 := by
  have h1 := List.length_pos.mpr hdne
  rw [degree_nonempty hdne]
  by_cases hf : f.coeffs = []
  · rw [hf]; simp
  · rw [degree_nonempty hf]
    omega

theorem lt_of_length_lt [Fact p.Prime] {r b : Polynomial (ModInt (p : Int))} (hr : WF r)
    (hb : WF b) (h : r.coeffs.length < b.coeffs.length) :
    (toPoly r).degree < (toPoly b).degree := by
  have hbne : b.coeffs ≠ [] := by
    intro h0; rw [h0] at h; exact absurd h (Nat.not_lt_zero _)
  obtain ⟨b1, _, b3⟩ := toPolyL_lead hb.1 hb.2 hbne
  by_cases hre : r.coeffs = []
  · have : toPoly r = 0 := by unfold toPoly; rw [hre]; rfl
    rw [this, Polynomial.degree_zero]
    exact bot_lt_iff_ne_bot.mpr (Polynomial.degree_ne_bot.mpr b3)
  · obtain ⟨r1, _, r3⟩ := toPolyL_lead hr.1 hr.2 hre
    have hpos := List.length_pos.mpr hre
    apply Polynomial.degree_lt_degree
    unfold toPoly
    rw [r1, b1]
    omega

/-- Long division returns, for every fuel above the length of the dividend, the same
quotient and remainder, and these are the Euclidean quotient and remainder. -/
theorem divmod_ok (hp : p.Prime) (hM : (p : Int) ≤ 2147483648)
    {f divisor : Polynomial (ModInt (p : Int))} (hf : WF f) (hd : WF divisor)
    (hdne : divisor.coeffs ≠ []) :
    ∃ q r, (∀ fuel, f.coeffs.length < fuel → divmod fuel f divisor = some (.ok (q, r))) ∧
      WF q ∧ WF r ∧ toPoly divisor * toPoly q + toPoly r = toPoly f ∧
      r.coeffs.length < divisor.coeffs.length := by
  haveI := Fact.mk hp
  have hpos : (0 : Int) < p := by exact_mod_cast hp.pos
  have hempty : divisor.coeffs.isEmpty = false := by
    cases hc : divisor.coeffs with
    | nil => exact absurd hc hdne
    | cons a l => rfl
  have hloop : ∀ fuel, f.coeffs.length < fuel → ∃ q r,
      divmod fuel f divisor = some (.ok (q, r)) ∧ WF q ∧ WF r ∧
      toPoly divisor * toPoly q + toPoly r = toPoly f ∧
      r.coeffs.length < divisor.coeffs.length := by
    intro fuel hfuel
    obtain ⟨q, r, h1, h2, h3, h4, h5⟩ := divmodLoop_spec hp hM hd hdne fuel f
      (List.replicate (max 0 (f.degree - divisor.degree + 1)).toNat ⟨0⟩) hf
      (fun c hc => by rw [List.eq_of_mem_replicate hc]; exact valid_zero hpos) hfuel
      (by rw [List.length_replicate]; exact quotient_size hdne)
      (fun j _ => by
        by_cases hj : j < (max 0 (f.degree - divisor.degree + 1)).toNat
        · rw [List.getD_eq_getElem _ _ (by simpa using hj)]; simp
        · rw [List.getD_eq_default _ _ (by simpa using hj)])
    refine ⟨q, r, ?_, h2, h3, ?_, h5⟩
    · unfold divmod
      rw [hempty]
      simp only [Bool.false_eq_true, if_false, scalar_ofInt_zero]
      rw [h1]
      rfl
    · rw [h4, toPolyL_replicate_zero]
      simp
  obtain ⟨q, r, h1, h2, h3, h4, h5⟩ := hloop (f.coeffs.length + 1) (Nat.lt_succ_self _)
  refine ⟨q, r, ?_, h2, h3, h4, h5⟩
  intro fuel hfuel
  obtain ⟨q', r', g1, g2, g3, g4, g5⟩ := hloop fuel hfuel
  obtain ⟨e1, e2⟩ := fp_divmod_unique (h4.trans g4.symm) (lt_of_length_lt h3 hd h5)
    (lt_of_length_lt g3 hd g5)
  have hq : q = q' := by
    have := toPolyL_injective h2.1 h2.2 g2.1 g2.2 e1
    cases q; cases q'; simp_all
  have hr : r = r' := by
    have := toPolyL_injective h3.1 h3.2 g3.1 g3.2 e2
    cases r; cases r'; simp_all
  rw [g1, hq, hr]

end Divmod
end Polynomial
end PolyCalc

namespace PolyCalc
namespace Polynomial

section DivmodClaims
variable {p : Nat}

theorem eq_of_toPoly_eq {f g : Polynomial (ModInt (p : Int))} (hf : WF f) (hg : WF g)
    (h : toPoly f = toPoly g) : f = g := by
  have := toPolyL_injective hf.1 hf.2 hg.1 hg.2 h
  cases f; cases g; simp_all

theorem degree_lt_of_length_lt {T : Type} {r b : Polynomial T}
    (h : r.coeffs.length < b.coeffs.length) : r.degree < b.degree := by
  have hbne : b.coeffs ≠ [] := by
    intro h0; rw [h0] at h; exact absurd h (Nat.not_lt_zero _)
  rw [degree_nonempty hbne]
  by_cases hr : r.coeffs = []
  · rw [degree_empty hr]
    have := List.length_pos.mpr hbne
    omega
  · rw [degree_nonempty hr]
    omega

theorem divmod_error_iff {T : Type} [Scalar T] [DecidableEq T] (fuel : Nat)
    (f d : Polynomial T) :
    divmod fuel f d = some (.error .divisionByZeroPolynomial) ↔ d.coeffs = [] := by
  unfold divmod
  cases hd : d.coeffs with
  | nil => simp
  | cons a l =>
    simp only [List.isEmpty_cons, Bool.false_eq_true, if_false]
    cases divmodLoop d fuel f _ <;> simp

theorem wf_one (hp : 2 ≤ p) : WF (⟨[⟨1⟩]⟩ : Polynomial (ModInt (p : Int))) := by
  have h2 : (2 : Int) ≤ p := by exact_mod_cast hp
  constructor
  · intro c hc
    simp only [List.mem_singleton] at hc
    rw [hc]
    exact ⟨by norm_num, by show (1 : Int) < p; omega⟩
  · simp [NormalizedL]

theorem toPoly_one : toPoly (⟨[⟨1⟩]⟩ : Polynomial (ModInt (p : Int))) = 1 := by
  simp [toPoly, toPolyL, ModInt.toZ]

end DivmodClaims

end Polynomial
end PolyCalc

namespace PolyCalc

section GeneralOps
variable {p : Nat}

theorem addFits_of_small {M : Int} (hM : M ≤ 1073741824) {a b : ModInt M}
    (ha : ModInt.Valid a) (hb : ModInt.Valid b) : ModInt.AddFits a b := by
  unfold ModInt.AddFits
  have := ha.2
  have := hb.2
  omega

theorem toPolyL_take_succ (l : List (ModInt (p : Int))) (k : Nat) :
    toPolyL (l.take (k + 1)) =
      toPolyL (l.take k) + Polynomial.C (ModInt.toZ (l.getD k ⟨0⟩)) * Polynomial.X ^ k := by
  ext m
  rw [Polynomial.coeff_add, Polynomial.coeff_C_mul_X_pow, coeff_toPolyL, coeff_toPolyL]
  simp only [List.getD_eq_getElem?_getD, List.getElem?_take]
  by_cases h1 : m < k
  · have h2 : m < k + 1 := by omega
    have h3 : ¬ m = k := by omega
    simp [h1, h2, h3]
  · by_cases h2 : m = k
    · subst h2
      simp [toZ_zero]
    · have h3 : ¬ m < k + 1 := by omega
      simp [h1, h2, h3, toZ_zero]

theorem toPolyL_take_length (l : List (ModInt (p : Int))) : toPolyL (l.take l.length) = toPolyL l := by
  rw [List.take_length]

theorem validL_set {M : Int} {l : List (ModInt M)} (h : ValidL l) (k : Nat) {v : ModInt M}
    (hv : ModInt.Valid v) : ValidL (l.set k v) := by
  intro x hx
  rcases List.mem_or_eq_of_mem_set hx with h1 | h1
  · exact h x h1
  · rw [h1]; exact hv

/-- The inner loop of operator `*` when residue sums fit in an `int`. -/
theorem mul_inner_spec (hp : 0 < p) (hM : (p : Int) ≤ 1073741824)
    {x : ModInt (p : Int)} (hx : ModInt.Valid x) {b : List (ModInt (p : Int))}
    (hb : ValidL b) (i k : Nat) (hk : k ≤ b.length) {S : List (ModInt (p : Int))}
    (hS : ValidL S) (hlen : i + b.length ≤ S.length) :
    ValidL ((List.range k).foldl (fun result j =>
      result.set (i + j) (result.getD (i + j) ⟨0⟩ + x * b.getD j ⟨0⟩)) S) ∧
    ((List.range k).foldl (fun result j =>
      result.set (i + j) (result.getD (i + j) ⟨0⟩ + x * b.getD j ⟨0⟩)) S).length = S.length ∧
    toPolyL ((List.range k).foldl (fun result j =>
      result.set (i + j) (result.getD (i + j) ⟨0⟩ + x * b.getD j ⟨0⟩)) S) =
      toPolyL S + Polynomial.C (ModInt.toZ x) * Polynomial.X ^ i * toPolyL (b.take k) := by
  have hpos : (0 : Int) < p := by exact_mod_cast hp
  have hM' : (p : Int) ≤ 2147483648 := by omega
  induction k with
  | zero => simp [hS, toPolyL]
  | succ k ih =>
    obtain ⟨ih1, ih2, ih3⟩ := ih (by omega)
    rw [List.range_succ, List.foldl_append]
    simp only [List.foldl_cons, List.foldl_nil]
    set S' := (List.range k).foldl (fun result j =>
      result.set (i + j) (result.getD (i + j) ⟨0⟩ + x * b.getD j ⟨0⟩)) S with hS'
    have hprod : ModInt.Valid (ModInt.mul x (b.getD k ⟨0⟩)) :=
      ModInt.mul_valid hx (hb.getD hpos k) hM'
    have hold : ModInt.Valid (S'.getD (i + k) ⟨0⟩) := ih1.getD hpos _
    have hfit := addFits_of_small hM hold hprod
    have hnew : ModInt.Valid (S'.getD (i + k) ⟨0⟩ + x * b.getD k ⟨0⟩) :=
      ModInt.add_valid hold hprod hfit
    refine ⟨validL_set ih1 _ hnew, by rw [List.length_set, ih2], ?_⟩
    rw [toPolyL_set (by omega), ih3, toPolyL_take_succ, scalar_add_def, scalar_mul_def,
      ModInt.toZ_add hold hprod hfit, ModInt.toZ_mul hx (hb.getD hpos k) hM']
    simp only [add_sub_cancel_left, Polynomial.C_mul, pow_add]
    ring

theorem mul_outer_spec (hp : 0 < p) (hM : (p : Int) ≤ 1073741824)
    {a b : List (ModInt (p : Int))} (ha : ValidL a) (hb : ValidL b) (k : Nat)
    (hk : k ≤ a.length) :
    ValidL ((List.range k).foldl (fun result i =>
      (List.range b.length).foldl (fun result j =>
        result.set (i + j) (result.getD (i + j) ⟨0⟩ + a.getD i ⟨0⟩ * b.getD j ⟨0⟩)) result)
      (List.replicate (a.length + b.length - 1) ⟨0⟩)) ∧
    ((List.range k).foldl (fun result i =>
      (List.range b.length).foldl (fun result j =>
        result.set (i + j) (result.getD (i + j) ⟨0⟩ + a.getD i ⟨0⟩ * b.getD j ⟨0⟩)) result)
      (List.replicate (a.length + b.length - 1) ⟨0⟩)).length = a.length + b.length - 1 ∧
    toPolyL ((List.range k).foldl (fun result i =>
      (List.range b.length).foldl (fun result j =>
        result.set (i + j) (result.getD (i + j) ⟨0⟩ + a.getD i ⟨0⟩ * b.getD j ⟨0⟩)) result)
      (List.replicate (a.length + b.length - 1) ⟨0⟩)) = toPolyL (a.take k) * toPolyL b := by
  have hpos : (0 : Int) < p := by exact_mod_cast hp
  induction k with
  | zero =>
    refine ⟨?_, by simp, ?_⟩
    · intro c hc
      simp only [List.range_zero, List.foldl_nil] at hc
      rw [List.eq_of_mem_replicate hc]
      exact valid_zero hpos
    · simp only [List.range_zero, List.foldl_nil, List.take_zero]
      rw [Polynomial.toPolyL_replicate_zero]
      simp [toPolyL]
  | succ k ih =>
    obtain ⟨ih1, ih2, ih3⟩ := ih (by omega)
    rw [List.range_succ, List.foldl_append]
    simp only [List.foldl_cons, List.foldl_nil]
    obtain ⟨h1, h2, h3⟩ := mul_inner_spec hp hM (ha.getD hpos k) hb k b.length le_rfl ih1
      (by rw [ih2]; omega)
    refine ⟨h1, by rw [h2, ih2], ?_⟩
    rw [h3, ih3, toPolyL_take_length, toPolyL_take_succ]
    ring

namespace Polynomial

theorem isEmpty_eq_false {T : Type} {l : List T} (h : l ≠ []) : l.isEmpty = false := by
  cases l with
  | nil => exact absurd rfl h
  | cons a l => rfl

/-- Operator `*` computes the product in `Z_p[x]` when residue sums fit in an `int`. -/
theorem mul_spec (hp : 0 < p) (hM : (p : Int) ≤ 1073741824)
    {f g : Polynomial (ModInt (p : Int))} (hf : ValidL f.coeffs) (hg : ValidL g.coeffs) :
    WF (mul f g) ∧ toPoly (mul f g) = toPoly f * toPoly g := by
  by_cases hfe : f.coeffs = []
  · have : mul f g = empty := by unfold mul; simp [hfe]
    rw [this]
    refine ⟨wf_empty, ?_⟩
    unfold toPoly
    rw [hfe]
    simp [toPolyL, empty]
  by_cases hge : g.coeffs = []
  · have : mul f g = empty := by unfold mul; simp [hge]
    rw [this]
    refine ⟨wf_empty, ?_⟩
    unfold toPoly
    rw [hge]
    simp [toPolyL, empty]
  have hmul : mul f g = ofCoeffs (mulLoop f.coeffs g.coeffs) := by
    unfold mul
    simp [isEmpty_eq_false hfe, isEmpty_eq_false hge]
  obtain ⟨h1, _, h3⟩ := mul_outer_spec hp hM hf hg f.coeffs.length le_rfl
  have hdef : mulLoop f.coeffs g.coeffs = (List.range f.coeffs.length).foldl (fun result i =>
      (List.range g.coeffs.length).foldl (fun result j =>
        result.set (i + j) (result.getD (i + j) ⟨0⟩ + f.coeffs.getD i ⟨0⟩ * g.coeffs.getD j ⟨0⟩))
        result)
      (List.replicate (f.coeffs.length + g.coeffs.length - 1) ⟨0⟩) := by
    unfold mulLoop
    simp only [scalar_ofInt_zero]
  rw [hmul, hdef]
  refine ⟨ofCoeffs_wf h1, ?_⟩
  rw [toPoly_ofCoeffs, h3, toPolyL_take_length]
  rfl

/-- Operator `+` computes the sum in `Z_p[x]` when residue sums fit in an `int`. -/
theorem add_spec (hp : 0 < p) (hM : (p : Int) ≤ 1073741824)
    {f g : Polynomial (ModInt (p : Int))} (hf : ValidL f.coeffs) (hg : ValidL g.coeffs) :
    WF (add f g) ∧ toPoly (add f g) = toPoly f + toPoly g := by
  have hpos : (0 : Int) < p := by exact_mod_cast hp
  have hM' : (p : Int) ≤ 2147483648 := by omega
  unfold add
  simp only [scalar_ofInt_zero]
  set R := ((List.range (max f.coeffs.length g.coeffs.length)).foldl _ _) with hR
  have hget := addsub_loop_getElem? (⟨0⟩ : ModInt (p : Int)) (· + ·) (· + ·) f.coeffs g.coeffs
    (max f.coeffs.length g.coeffs.length)
  have hv0 := valid_zero hpos
  have hfv : ∀ m, ModInt.Valid (f.coeffs.getD m ⟨0⟩) := hf.getD hpos
  have hgv : ∀ m, ModInt.Valid (g.coeffs.getD m ⟨0⟩) := hg.getD hpos
  have key : ∀ m x, R[m]? = some x → ModInt.Valid x ∧
      ModInt.toZ x = ModInt.toZ (f.coeffs.getD m ⟨0⟩) + ModInt.toZ (g.coeffs.getD m ⟨0⟩) := by
    intro m x hx
    rw [hR, hget m] at hx
    by_cases hm : m < max f.coeffs.length g.coeffs.length
    · simp only [hm, if_true, Option.some.injEq] at hx
      subst hx
      by_cases h1 : m < f.coeffs.length <;> by_cases h2 : m < g.coeffs.length
      · simp only [h1, h2, if_true, scalar_add_def, ModInt.zero_add (hfv m) hM']
        have hfit := addFits_of_small hM (hfv m) (hgv m)
        exact ⟨ModInt.add_valid (hfv m) (hgv m) hfit, ModInt.toZ_add (hfv m) (hgv m) hfit⟩
      · simp only [h1, h2, if_true, if_false, scalar_add_def, ModInt.zero_add (hfv m) hM']
        refine ⟨hfv m, ?_⟩
        rw [List.getD_eq_default _ _ (by omega : g.coeffs.length ≤ m), toZ_zero, add_zero]
      · simp only [h1, h2, if_true, if_false, scalar_add_def, ModInt.zero_add (hgv m) hM']
        refine ⟨hgv m, ?_⟩
        rw [List.getD_eq_default _ _ (by omega : f.coeffs.length ≤ m), toZ_zero, zero_add]
      · omega
    · simp [hm] at hx
  refine ⟨ofCoeffs_wf (validL_of_getElem? (fun m x hx => (key m x hx).1)), ?_⟩
  rw [toPoly_ofCoeffs]
  ext m
  rw [Polynomial.coeff_add]
  unfold toPoly
  rw [coeff_toPolyL, coeff_toPolyL, coeff_toPolyL]
  cases hx : R[m]? with
  | some x => rw [getD_of_getElem? hx]; exact (key m x hx).2
  | none =>
    rw [getD_of_getElem?_none hx]
    rw [hR, hget m] at hx
    have hm : ¬ m < max f.coeffs.length g.coeffs.length := by
      intro hm; simp [hm] at hx
    rw [List.getD_eq_default _ _ (by omega : f.coeffs.length ≤ m),
      List.getD_eq_default _ _ (by omega : g.coeffs.length ≤ m)]
    simp [toZ_zero]

theorem const_spec {c : ModInt (p : Int)} (hc : ModInt.Valid c) :
    WF (const c) ∧ toPoly (const c) = Polynomial.C (ModInt.toZ c) := by
  refine ⟨normalize_wf (f := ⟨[c]⟩) (fun x hx => by
    simp only [List.mem_singleton] at hx; rw [hx]; exact hc), ?_⟩
  unfold const
  rw [toPoly_normalize]
  exact toPolyL_singleton c

end Polynomial
end GeneralOps
end PolyCalc

namespace PolyCalc

section Mono
variable {T : Type} [Scalar T] [DecidableEq T]

theorem Polynomial.divmodLoop_succ (d : Polynomial T) (fuel : Nat) :
    ∀ (D Q : Polynomial T) (v : Polynomial T × Polynomial T),
      Polynomial.divmodLoop d fuel D Q = some v →
      Polynomial.divmodLoop d (fuel + 1) D Q = some v := by
  induction fuel with
  | zero => intro D Q v h; simp [Polynomial.divmodLoop] at h
  | succ fuel ih =>
    intro D Q v h
    rw [Polynomial.divmodLoop] at h ⊢
    split
    · rename_i hc
      rw [if_pos hc] at h
      exact ih _ _ v h
    · rename_i hc
      rw [if_neg hc] at h
      exact h

theorem Polynomial.divmodLoop_mono (d : Polynomial T) {fuel fuel' : Nat} (hle : fuel ≤ fuel')
    {D Q : Polynomial T} {v : Polynomial T × Polynomial T}
    (h : Polynomial.divmodLoop d fuel D Q = some v) :
    Polynomial.divmodLoop d fuel' D Q = some v := by
  induction hle with
  | refl => exact h
  | step _ ih => exact Polynomial.divmodLoop_succ d _ D Q v ih

theorem Polynomial.divmod_mono {fuel fuel' : Nat} (hle : fuel ≤ fuel')
    {f d : Polynomial T} {v : Except Error (Polynomial T × Polynomial T)}
    (h : Polynomial.divmod fuel f d = some v) : Polynomial.divmod fuel' f d = some v := by
  unfold Polynomial.divmod at h ⊢
  split
  · rename_i hc
    rw [if_pos hc] at h
    exact h
  · rename_i hc
    rw [if_neg hc] at h
    simp only [Option.map_eq_some'] at h ⊢
    obtain ⟨w, hw, rfl⟩ := h
    exact ⟨w, Polynomial.divmodLoop_mono d hle hw, rfl⟩

end Mono

section MonoGcd
variable {T : Type} [FieldScalar T] [DecidableEq T]

theorem FactorRingElement.extended_gcd_succ (fuel : Nat) :
    ∀ (a b : Polynomial T) (v : Except Error (Polynomial T × Polynomial T × Polynomial T)),
      FactorRingElement.extended_gcd fuel a b = some v →
      FactorRingElement.extended_gcd (fuel + 1) a b = some v := by
  induction fuel with
  | zero => intro a b v h; simp [FactorRingElement.extended_gcd] at h
  | succ fuel ih =>
    intro a b v h
    rw [FactorRingElement.extended_gcd] at h ⊢
    split
    · rename_i hc
      rw [if_pos hc] at h
      exact h
    · rename_i hc
      rw [if_neg hc] at h
      cases hd : Polynomial.divmod fuel a b with
      | none => rw [hd] at h; simp at h
      | some w =>
        rw [Polynomial.divmod_mono (Nat.le_succ fuel) hd]
        rw [hd] at h
        cases w with
        | error e => exact h
        | ok qr =>
          obtain ⟨q, r⟩ := qr
          simp only at h ⊢
          cases hg : FactorRingElement.extended_gcd fuel b r with
          | none => rw [hg] at h; simp at h
          | some u =>
            rw [ih b r u hg]
            rw [hg] at h
            exact h

theorem FactorRingElement.extended_gcd_mono {fuel fuel' : Nat} (hle : fuel ≤ fuel')
    {a b : Polynomial T} {v : Except Error (Polynomial T × Polynomial T × Polynomial T)}
    (h : FactorRingElement.extended_gcd fuel a b = some v) :
    FactorRingElement.extended_gcd fuel' a b = some v := by
  induction hle with
  | refl => exact h
  | step _ ih => exact FactorRingElement.extended_gcd_succ _ a b v ih

end MonoGcd

section Gcd
variable {p : Nat}

theorem scalar_ofInt_one (hp : 2 ≤ p) : (Scalar.ofInt 1 : ModInt (p : Int)) = ⟨1⟩ :=
  ModInt.ofInt_one (by exact_mod_cast hp)

theorem valid_one (hp : 2 ≤ p) : ModInt.Valid (⟨1⟩ : ModInt (p : Int)) := by
  have h2 : (2 : Int) ≤ p := by exact_mod_cast hp
  exact ⟨by norm_num, by show (1 : Int) < p; omega⟩

theorem Polynomial.degree_neg_iff {T : Type} (b : Polynomial T) :
    b.degree < 0 ↔ b.coeffs = [] := by
  by_cases hb : b.coeffs = []
  · rw [Polynomial.degree_empty hb]; simp [hb]
  · rw [Polynomial.degree_nonempty hb]
    have := List.length_pos.mpr hb
    constructor
    · intro h; omega
    · intro h; exact absurd h hb

/-- The extended Euclidean recursion, for primes whose residue sums fit in an `int`. -/
theorem FactorRingElement.extended_gcd_spec (hp : p.Prime) (hM : (p : Int) ≤ 1073741824)
    (fuel : Nat) :
    ∀ (a b : Polynomial (ModInt (p : Int))), Polynomial.WF a → Polynomial.WF b →
      max a.coeffs.length b.coeffs.length + b.coeffs.length + 2 ≤ fuel →
      ∃ g x y, FactorRingElement.extended_gcd fuel a b = some (.ok (g, x, y)) ∧
        Polynomial.WF g ∧ Polynomial.WF x ∧ Polynomial.WF y ∧
        Polynomial.toPoly a * Polynomial.toPoly x + Polynomial.toPoly b * Polynomial.toPoly y
          = Polynomial.toPoly g ∧
        Polynomial.toPoly g ∣ Polynomial.toPoly a ∧
        Polynomial.toPoly g ∣ Polynomial.toPoly b := by
  have hM' : (p : Int) ≤ 2147483648 := by omega
  have hpos : (0 : Int) < p := by exact_mod_cast hp.pos
  induction fuel with
  | zero => intro a b _ _ h; omega
  | succ fuel ih =>
    intro a b ha hb hfuel
    rw [FactorRingElement.extended_gcd]
    by_cases hbe : b.coeffs = []
    · rw [if_pos ((Polynomial.degree_neg_iff b).mpr hbe)]
      obtain ⟨c1, c2⟩ := Polynomial.const_spec (valid_one hp.two_le)
      obtain ⟨z1, z2⟩ := Polynomial.const_spec (valid_zero hpos)
      rw [scalar_ofInt_one hp.two_le, scalar_ofInt_zero]
      refine ⟨a, _, _, rfl, ha, c1, z1, ?_, dvd_refl _, ?_⟩
      · rw [c2, z2]
        simp [ModInt.toZ]
      · have : Polynomial.toPoly b = 0 := by
          unfold Polynomial.toPoly; rw [hbe]; rfl
        rw [this]
        exact dvd_zero _
    · rw [if_neg (fun h => hbe ((Polynomial.degree_neg_iff b).mp h))]
      obtain ⟨q, r, d1, d2, d3, d4, d5⟩ := Polynomial.divmod_ok hp hM' ha hb hbe
      rw [d1 fuel (by omega)]
      simp only
      obtain ⟨g, x, y, e1, e2, e3, e4, e5, e6, e7⟩ := ih b r hb d3 (by
        have : max b.coeffs.length r.coeffs.length = b.coeffs.length := by omega
        omega)
      rw [e1]
      simp only
      obtain ⟨m1, m2⟩ := Polynomial.mul_spec hp.pos hM d2.1 e4.1
      obtain ⟨s1, s2⟩ := Polynomial.sub_spec hp.pos hM' e3.1 m1.1
        (f := x) (g := Polynomial.mul q y)
      refine ⟨g, y, _, rfl, e2, e4, s1, ?_, ?_, e6⟩
      · rw [s2, m2, ← e5, ← d4]
        ring
      · rw [← d4]
        exact dvd_add (Dvd.dvd.mul_right e6 _) e7

end Gcd
end PolyCalc

namespace PolyCalc
namespace FactorRingElement

section Ring
variable {p : Nat}

/-- The two-argument constructor stores the Euclidean remainder. -/
theorem construct_ok (hp : p.Prime) (hM : (p : Int) ≤ 2147483648)
    {u m : Polynomial (ModInt (p : Int))} (hu : Polynomial.WF u) (hm : Polynomial.WF m)
    (hmne : m.coeffs ≠ []) :
    ∃ r, (∀ fuel, u.coeffs.length < fuel → construct fuel u m = some (.ok ⟨r, m⟩)) ∧
      Polynomial.WF r ∧ r.coeffs.length < m.coeffs.length ∧
      ∃ q, Polynomial.toPoly m * q + Polynomial.toPoly r = Polynomial.toPoly u := by
  obtain ⟨q, r, h1, h2, h3, h4, h5⟩ := Polynomial.divmod_ok hp hM hu hm hmne
  refine ⟨r, ?_, h3, h5, Polynomial.toPoly q, h4⟩
  intro fuel hfuel
  unfold construct Polynomial.rem
  rw [h1 fuel hfuel]
  rfl

theorem getD_zero_of_length_one {T : Type} {l : List T} (h : l.length = 1) (d : T) :
    l = [l.getD 0 d] := by
  cases l with
  | nil => simp at h
  | cons a t =>
    cases t with
    | nil => rfl
    | cons b t => simp at h

theorem degree_eq_zero_iff {T : Type} (g : Polynomial T) :
    g.degree = 0 ↔ g.coeffs.length = 1 := by
  by_cases hg : g.coeffs = []
  · rw [Polynomial.degree_empty hg, hg]; simp
  · rw [Polynomial.degree_nonempty hg]
    omega

/-- The method `inv()` for primes whose residue sums fit in an `int`: from some fuel on it
either reports that no inverse exists or returns an element whose product with the argument
is the ring unit. -/
theorem inv_ok (hp : p.Prime) (hM : (p : Int) ≤ 1073741824)
    {a m : Polynomial (ModInt (p : Int))} (ha : Polynomial.WF a) (hm : Polynomial.WF m)
    (hmne : m.coeffs ≠ []) :
    ∃ N, ∀ fuel, N ≤ fuel →
      (inv fuel ⟨a, m⟩ = some (.error .noInverse) ∨
        ∃ i one, inv fuel ⟨a, m⟩ = some (.ok ⟨i, m⟩) ∧ Polynomial.WF i ∧
          i.coeffs.length < m.coeffs.length ∧
          mul fuel ⟨a, m⟩ ⟨i, m⟩ = some (.ok ⟨one, m⟩) ∧
          construct fuel (Polynomial.const (Scalar.ofInt 1)) m = some (.ok ⟨one, m⟩)) := by
  haveI := Fact.mk hp
  have hM' : (p : Int) ≤ 2147483648 := by omega
  have hpos : (0 : Int) < p := by exact_mod_cast hp.pos
  obtain ⟨g, x, y, e1, e2, e3, e4, e5, -, -⟩ :=
    extended_gcd_spec hp hM _ a m ha hm (le_refl (max a.coeffs.length m.coeffs.length
      + m.coeffs.length + 2))
  by_cases hdeg : g.degree ≠ 0
  · refine ⟨max a.coeffs.length m.coeffs.length + m.coeffs.length + 2, ?_⟩
    intro fuel hfuel
    left
    unfold inv
    simp only
    rw [extended_gcd_mono hfuel e1]
    simp only
    rw [if_pos hdeg]
  · have hlen : g.coeffs.length = 1 := (degree_eq_zero_iff g).mp (not_not.mp hdeg)
    set c := g.coeffs.getD 0 (Scalar.ofInt 0) with hc
    have hgc : g.coeffs = [c] := getD_zero_of_length_one hlen _
    have hcv : ModInt.Valid c := e2.1 c (by rw [hgc]; exact List.mem_singleton_self c)
    have hc0 : c ≠ ⟨0⟩ := by
      intro h0
      apply e2.2
      rw [hgc, h0]
      rfl
    have hcz : ModInt.toZ c ≠ 0 := fun h => hc0 ((ModInt.toZ_eq_zero_iff hcv).mp h)
    have hg : Polynomial.toPoly g = Polynomial.C (ModInt.toZ c) := by
      unfold Polynomial.toPoly
      rw [hgc, toPolyL_singleton]
    have hiv : ModInt.Valid (ModInt.inv c) := ModInt.inv_valid hp.pos hM' hcv
    have hiz : ModInt.toZ (ModInt.inv c) = (ModInt.toZ c)⁻¹ := ModInt.toZ_inv hp hM' hcv hcz
    obtain ⟨k1, k2⟩ := Polynomial.const_spec hiv
    obtain ⟨x1, x2⟩ := Polynomial.mul_spec hp.pos hM e3.1 k1.1
      (f := x) (g := Polynomial.const (ModInt.inv c))
    obtain ⟨i, i1, i2, i3, q1, i4⟩ := construct_ok hp hM' x1 hm hmne
    obtain ⟨m1, m2⟩ := Polynomial.mul_spec hp.pos hM ha.1 i2.1 (f := a) (g := i)
    obtain ⟨P, p1, p2, p3, q2, p4⟩ := construct_ok hp hM' m1 hm hmne
    obtain ⟨o1, o2⟩ := Polynomial.const_spec (valid_one hp.two_le)
    obtain ⟨U, u1, u2, u3, q3, u4⟩ := construct_ok hp hM' o1 hm hmne
    have hPU : P = U := by
      apply Polynomial.eq_of_toPoly_eq p2 u2
      have hone : (1 : FpPoly p) =
          Polynomial.toPoly m * (Polynomial.C (ModInt.toZ c)⁻¹ * Polynomial.toPoly y
            + Polynomial.toPoly a * q1 + q2) + Polynomial.toPoly P := by
        have hcc : (Polynomial.C (ModInt.toZ c) * Polynomial.C (ModInt.toZ c)⁻¹ : FpPoly p)
            = 1 := by
          rw [← Polynomial.C_mul, mul_inv_cancel₀ hcz, Polynomial.C_1]
        have hI : Polynomial.toPoly i = Polynomial.toPoly x * Polynomial.C (ModInt.toZ c)⁻¹
            - Polynomial.toPoly m * q1 := by
          rw [← hiz, ← k2, ← x2, ← i4]; ring
        have hPP : Polynomial.toPoly P = Polynomial.toPoly a * Polynomial.toPoly i
            - Polynomial.toPoly m * q2 := by
          rw [← m2, ← p4]; ring
        rw [hPP, hI, ← hcc, ← hg, ← e5]
        ring
      have hU : (1 : FpPoly p) = Polynomial.toPoly m * q3 + Polynomial.toPoly U := by
        rw [u4, o2]
        simp [ModInt.toZ]
      exact (fp_divmod_unique (hone.symm.trans hU) (Polynomial.lt_of_length_lt p2 hm p3)
        (Polynomial.lt_of_length_lt u2 hm u3)).2
    refine ⟨max (max a.coeffs.length m.coeffs.length + m.coeffs.length + 2)
      (max ((Polynomial.mul x (Polynomial.const (ModInt.inv c))).coeffs.length + 1)
        (max ((Polynomial.mul a i).coeffs.length + 1)
          ((Polynomial.const (⟨1⟩ : ModInt (p : Int))).coeffs.length + 1))), ?_⟩
    intro fuel hfuel
    right
    refine ⟨i, U, ?_, i2, i3, ?_, ?_⟩
    · unfold inv
      simp only
      rw [extended_gcd_mono (le_trans (le_max_left _ _) hfuel) e1]
      simp only
      rw [if_neg hdeg]
      exact i1 fuel (by
        have := le_trans (le_max_left _ _) (le_trans (le_max_right _ _) hfuel)
        omega)
    · unfold mul
      simp only [ne_eq, not_true_eq_false, if_false]
      rw [p1 fuel (by
        have := le_trans (le_max_left _ _) (le_trans (le_max_right _ _)
          (le_trans (le_max_right _ _) hfuel))
        omega), hPU]
    · rw [scalar_ofInt_one hp.two_le]
      exact u1 fuel (by
        have := le_trans (le_max_right _ _) (le_trans (le_max_right _ _)
          (le_trans (le_max_right _ _) hfuel))
        omega)

end Ring
end FactorRingElement
end PolyCalc

namespace PolyCalc

theorem firstTrue_spec {α : Type} (test : α → Option (Except Error Bool)) (Q : α → Prop)
    (xs : List α) (h : ∀ x ∈ xs, ∃ b, test x = some (.ok b) ∧ (b = true ↔ Q x)) :
    ∃ b, firstTrue test xs = some (.ok b) ∧ (b = true ↔ ∃ x ∈ xs, Q x) := by
  induction xs with
  | nil => exact ⟨false, rfl, by simp⟩
  | cons x xs ih =>
    obtain ⟨b, hb, hq⟩ := h x (List.mem_cons_self _ _)
    obtain ⟨b', hb', hq'⟩ := ih (fun y hy => h y (List.mem_cons_of_mem _ hy))
    cases b with
    | true =>
      refine ⟨true, ?_, ?_⟩
      · simp [firstTrue, hb]
      · simp only [true_iff]
        exact ⟨x, List.mem_cons_self _ _, hq.mp rfl⟩
    | false =>
      refine ⟨b', ?_, ?_⟩
      · simp [firstTrue, hb, hb']
      · rw [hq']
        constructor
        · rintro ⟨y, hy, hQ⟩
          exact ⟨y, List.mem_cons_of_mem _ hy, hQ⟩
        · rintro ⟨y, hy, hQ⟩
          rcases List.mem_cons.mp hy with rfl | hy'
          · exact absurd (hq.mpr hQ) (by simp)
          · exact ⟨y, hy', hQ⟩

section Candidates
variable {p : Nat}

theorem toZ_one : ModInt.toZ (⟨1⟩ : ModInt (p : Int)) = 1 := by
  simp [ModInt.toZ]

theorem one_ne_zero_modInt {M : Int} : (⟨1⟩ : ModInt M) ≠ ⟨0⟩ := by
  intro h
  have := congrArg ModInt.value h
  simp at this

/-- A monic candidate divisor: `d` canonical coefficients followed by `1`. -/
theorem candidate_spec (hp : 2 ≤ p) {c : List (ModInt (p : Int))} (hc : ValidL c) :
    Polynomial.WF (⟨c ++ [⟨1⟩]⟩ : Polynomial (ModInt (p : Int))) ∧
    Polynomial.ofCoeffs (c ++ [(Scalar.ofInt 1 : ModInt (p : Int))]) = ⟨c ++ [⟨1⟩]⟩ ∧
    (Polynomial.toPoly (⟨c ++ [⟨1⟩]⟩ : Polynomial (ModInt (p : Int)))).Monic ∧
    (Polynomial.toPoly (⟨c ++ [⟨1⟩]⟩ : Polynomial (ModInt (p : Int)))).natDegree = c.length := by
  have hwf : Polynomial.WF (⟨c ++ [⟨1⟩]⟩ : Polynomial (ModInt (p : Int))) := by
    constructor
    · intro x hx
      rcases List.mem_append.mp hx with h | h
      · exact hc x h
      · rw [List.mem_singleton.mp h]; exact valid_one hp
    · rw [normalizedL_iff]
      intro hl
      show (c ++ [(⟨1⟩ : ModInt (p : Int))]).getLast hl ≠ ⟨0⟩
      rw [List.getLast_append_singleton]
      exact one_ne_zero_modInt
  have hne : (c ++ [(⟨1⟩ : ModInt (p : Int))]) ≠ [] := by simp
  obtain ⟨h1, h2, _⟩ := toPolyL_lead hwf.1 hwf.2 hne
  refine ⟨hwf, ?_, ?_, ?_⟩
  · rw [scalar_ofInt_one hp]
    exact Polynomial.normalize_of_wf hwf
  · show (toPolyL (c ++ [⟨1⟩])).leadingCoeff = 1
    rw [h2, List.getLast_append_singleton, toZ_one]
  · show (toPolyL (c ++ [⟨1⟩])).natDegree = _
    rw [h1]
    simp

/-- Every monic polynomial of `Z_p[x]` is denoted by a candidate vector. -/
theorem exists_candidate [Fact p.Prime] {G : FpPoly p} (hG : G.Monic) :
    ∃ c : List (ModInt (p : Int)), c.length = G.natDegree ∧ ValidL c ∧
      Polynomial.toPoly (⟨c ++ [⟨1⟩]⟩ : Polynomial (ModInt (p : Int))) = G := by
  have hp : p.Prime := Fact.out
  haveI : NeZero p := ⟨hp.ne_zero⟩
  refine ⟨(List.range G.natDegree).map (fun i => ⟨((G.coeff i).val : Int)⟩), by simp, ?_, ?_⟩
  · intro x hx
    obtain ⟨i, _, rfl⟩ := List.mem_map.mp hx
    constructor
    · exact Int.natCast_nonneg _
    · show ((G.coeff i).val : Int) < (p : Int)
      exact_mod_cast ZMod.val_lt _
  · ext k
    show (toPolyL _).coeff k = _
    rw [coeff_toPolyL, List.getD_eq_getElem?_getD, List.getElem?_append]
    by_cases hk : k < G.natDegree
    · simp [hk, ModInt.toZ]
    · by_cases hk2 : k = G.natDegree
      · subst hk2
        have := hG.coeff_natDegree
        simp [this, ModInt.toZ]
      · have hlt : G.natDegree < k := by omega
        have hz : G.coeff k = 0 := Polynomial.coeff_eq_zero_of_natDegree_lt hlt
        have h3 : ([(⟨1⟩ : ModInt (p : Int))])[k - G.natDegree]? = none :=
          List.getElem?_eq_none (by simp; omega)
        simp [hk, hz, toZ_zero, h3]

theorem rem_empty_iff_dvd [Fact p.Prime] {f d q r : Polynomial (ModInt (p : Int))}
    (hr : Polynomial.WF r) (hd : Polynomial.WF d)
    (heq : Polynomial.toPoly d * Polynomial.toPoly q + Polynomial.toPoly r = Polynomial.toPoly f)
    (hlt : r.coeffs.length < d.coeffs.length) :
    r.coeffs = [] ↔ Polynomial.toPoly d ∣ Polynomial.toPoly f := by
  constructor
  · intro h
    have : Polynomial.toPoly r = 0 := by unfold Polynomial.toPoly; rw [h]; rfl
    rw [this, add_zero] at heq
    exact ⟨_, heq.symm⟩
  · intro h
    have hdr : Polynomial.toPoly d ∣ Polynomial.toPoly r := by
      have : Polynomial.toPoly r = Polynomial.toPoly f
          - Polynomial.toPoly d * Polynomial.toPoly q := by rw [← heq]; ring
      rw [this]
      exact dvd_sub h (dvd_mul_right _ _)
    have h0 := Polynomial.eq_zero_of_dvd_of_degree_lt hdr (Polynomial.lt_of_length_lt hr hd hlt)
    exact (toPolyL_eq_zero_iff hr.1 hr.2).mp h0

end Candidates
end PolyCalc

namespace PolyCalc

section GenSpec
variable {p : Nat}

theorem take_set_succ {α : Type} (l : List α) (pos : Nat) (v : α) (h : pos < l.length) :
    (l.set pos v).take (pos + 1) = l.take pos ++ [v] := by
  apply List.ext_getElem?
  intro m
  rw [List.getElem?_take, List.getElem?_set, List.getElem?_append, List.getElem?_take]
  have hlen : (l.take pos).length = pos := by rw [List.length_take]; omega
  rw [hlen]
  by_cases h1 : m < pos
  · have h2 : m < pos + 1 := by omega
    have h3 : ¬ pos = m := by omega
    simp [h1, h2, h3]
  · by_cases h2 : m = pos
    · subst h2
      simp [h]
    · have h3 : ¬ m < pos + 1 := by omega
      have h4 : ([v])[m - pos]? = none := List.getElem?_eq_none (by simp; omega)
      simp [h1, h3, h4]

theorem take_succ_getElem {α : Type} (l : List α) (pos : Nat) (h : pos < l.length) :
    l.take (pos + 1) = l.take pos ++ [l[pos]] := by
  rw [List.take_succ, List.getElem?_eq_getElem h]
  rfl

theorem take_of_take_succ {α : Type} {l l' : List α} {pos : Nat} {v : α}
    (hl' : pos ≤ l'.length) (h : l.take (pos + 1) = l'.take pos ++ [v]) :
    l.take pos = l'.take pos := by
  have h1 : (l.take (pos + 1)).take pos = (l'.take pos ++ [v]).take pos := by rw [h]
  rw [List.take_take, Nat.min_eq_left (Nat.le_succ pos)] at h1
  rw [h1, List.take_append_of_le_length (by rw [List.length_take]; omega), List.take_take]
  simp

theorem ofInt_natCast_valid (hp : 0 < p) {i : Nat} (hi : i < p) :
    (Scalar.ofInt (i : Int) : ModInt (p : Int)) = ⟨(i : Int)⟩ ∧
    ModInt.Valid (⟨(i : Int)⟩ : ModInt (p : Int)) := by
  have hpos : (0 : Int) < p := by exact_mod_cast hp
  have hi' : (i : Int) < p := by exact_mod_cast hi
  constructor
  · show ModInt.ofInt (p : Int) (i : Int) = _
    rw [ModInt.ofInt_of_nonneg (Int.natCast_nonneg i) hpos,
      Int.emod_eq_of_lt (Int.natCast_nonneg i) hi']
  · exact ⟨Int.natCast_nonneg i, hi'⟩

/-- The recursive enumeration `gen` finds a dividing candidate exactly when one extends the
coefficients fixed so far. -/
theorem gen_spec (hp : p.Prime) (hM : (p : Int) ≤ 2147483648)
    {f : Polynomial (ModInt (p : Int))} (hf : Polynomial.WF f) (fuel : Nat)
    (hfuel : f.coeffs.length < fuel) (k : Nat) :
    ∀ (pos : Nat) (coeffs : List (ModInt (p : Int))), coeffs.length = pos + k →
      ValidL (coeffs.take pos) →
      ∃ b, gen fuel f (p : Int) k pos coeffs = some (.ok b) ∧
        (b = true ↔ ∃ c : List (ModInt (p : Int)), c.length = pos + k ∧ ValidL c ∧
          c.take pos = coeffs.take pos ∧
          Polynomial.toPoly (⟨c ++ [⟨1⟩]⟩ : Polynomial (ModInt (p : Int)))
            ∣ Polynomial.toPoly f) := by
  haveI := Fact.mk hp
  induction k with
  | zero =>
    intro pos coeffs hlen hval
    have htake : coeffs.take pos = coeffs := by
      rw [List.take_of_length_le]; omega
    rw [htake] at hval
    obtain ⟨c1, c2, c3, c4⟩ := candidate_spec hp.two_le hval
    obtain ⟨q, r, d1, d2, d3, d4, d5⟩ := Polynomial.divmod_ok hp hM hf c1 (by simp)
    refine ⟨decide (r.degree < 0), ?_, ?_⟩
    · rw [gen, c2, d1 fuel hfuel]
    · rw [decide_eq_true_iff, Polynomial.degree_neg_iff, rem_empty_iff_dvd d3 c1 d4 d5]
      constructor
      · intro h
        exact ⟨coeffs, by omega, hval, by rw [htake], h⟩
      · rintro ⟨c, h1, _, h3, h4⟩
        have : c = coeffs := by
          rw [htake, List.take_of_length_le (by omega)] at h3
          exact h3
        rw [← this]
        exact h4
  | succ k ih =>
    intro pos coeffs hlen hval
    have hposlt : pos < coeffs.length := by omega
    rw [gen]
    have htn : ((p : Int)).toNat = p := Int.toNat_natCast p
    rw [htn]
    obtain ⟨b, hb, hq⟩ := firstTrue_spec
      (fun i : Nat => gen fuel f (p : Int) k (pos + 1) (coeffs.set pos (Scalar.ofInt (i : Int))))
      (fun i => ∃ c : List (ModInt (p : Int)), c.length = pos + 1 + k ∧ ValidL c ∧
          c.take (pos + 1) = (coeffs.set pos (Scalar.ofInt (i : Int))).take (pos + 1) ∧
          Polynomial.toPoly (⟨c ++ [⟨1⟩]⟩ : Polynomial (ModInt (p : Int)))
            ∣ Polynomial.toPoly f)
      (List.range p)
      (by
        intro i hi
        have hip : i < p := List.mem_range.mp hi
        obtain ⟨o1, o2⟩ := ofInt_natCast_valid hp.pos hip
        apply ih (pos + 1) (coeffs.set pos (Scalar.ofInt (i : Int)))
        · rw [List.length_set]; omega
        · rw [take_set_succ _ _ _ hposlt]
          intro x hx
          rcases List.mem_append.mp hx with h | h
          · exact hval x h
          · rw [List.mem_singleton.mp h, o1]; exact o2)
    refine ⟨b, hb, ?_⟩
    rw [hq]
    constructor
    · rintro ⟨i, _, c, h1, h2, h3, h4⟩
      refine ⟨c, by omega, h2, ?_, h4⟩
      rw [take_set_succ _ _ _ hposlt] at h3
      exact take_of_take_succ (by omega) h3
    · rintro ⟨cs, h1, h2, h3, h4⟩
      have hc : pos < cs.length := by omega
      have hv : ModInt.Valid (cs[pos]) := h2 _ (List.getElem_mem hc)
      have hi : ((cs[pos]).value.toNat) < p := by
        have := hv.1
        have := hv.2
        omega
      obtain ⟨o1, _⟩ := ofInt_natCast_valid hp.pos hi
      have hcast : (((cs[pos]).value.toNat : Nat) : Int) = (cs[pos]).value :=
        Int.toNat_of_nonneg hv.1
      refine ⟨(cs[pos]).value.toNat, List.mem_range.mpr hi, cs, by omega, h2, ?_, h4⟩
      rw [take_set_succ _ _ _ hposlt, take_succ_getElem cs pos hc, h3, o1, hcast]

end GenSpec
end PolyCalc

namespace PolyCalc

section IrreducibleSpec
variable {p : Nat}

theorem natDegree_of_degree_pos {g : Polynomial (ModInt (p : Int))} (hg : Polynomial.WF g)
    (h : 1 ≤ g.degree) :
    Polynomial.toPoly g ≠ 0 ∧ ((Polynomial.toPoly g).natDegree : Int) = g.degree := by
  have hne : g.coeffs ≠ [] := by
    intro h0
    rw [Polynomial.degree_empty h0] at h
    omega
  obtain ⟨h1, h2⟩ := Polynomial.degree_eq hg hne
  exact ⟨h2, h1.symm⟩

/-- A dividing monic candidate of degree between `1` and `n / 2` splits the polynomial. -/
theorem reducible_of_candidate (hp : p.Prime) (hM : (p : Int) ≤ 2147483648)
    {f : Polynomial (ModInt (p : Int))} (hf : Polynomial.WF f) (hdeg : 2 ≤ f.degree)
    {cs : List (ModInt (p : Int))} (hc : ValidL cs) (h1 : 1 ≤ cs.length)
    (h2 : (cs.length : Int) ≤ f.degree / 2)
    (hdvd : Polynomial.toPoly (⟨cs ++ [⟨1⟩]⟩ : Polynomial (ModInt (p : Int)))
      ∣ Polynomial.toPoly f) :
    ∃ g h : Polynomial (ModInt (p : Int)), Polynomial.WF g ∧ Polynomial.WF h ∧
      1 ≤ g.degree ∧ 1 ≤ h.degree ∧
      Polynomial.toPoly g * Polynomial.toPoly h = Polynomial.toPoly f := by
  haveI := Fact.mk hp
  obtain ⟨c1, _, c3, c4⟩ := candidate_spec hp.two_le hc
  obtain ⟨hF0, hFd⟩ := natDegree_of_degree_pos hf (by omega)
  obtain ⟨q, r, _, d2, d3, d4, d5⟩ := Polynomial.divmod_ok hp hM hf c1 (by simp)
  have hr : r.coeffs = [] := (rem_empty_iff_dvd d3 c1 d4 d5).mpr hdvd
  have hr0 : Polynomial.toPoly r = 0 := by unfold Polynomial.toPoly; rw [hr]; rfl
  rw [hr0, add_zero] at d4
  have hq0 : Polynomial.toPoly q ≠ 0 := by
    intro h0
    rw [h0, mul_zero] at d4
    exact hF0 d4.symm
  have hqne : q.coeffs ≠ [] := by
    intro h0
    apply hq0
    unfold Polynomial.toPoly; rw [h0]; rfl
  have hnat : (Polynomial.toPoly f).natDegree
      = cs.length + (Polynomial.toPoly q).natDegree := by
    rw [← d4, Polynomial.natDegree_mul c3.ne_zero hq0, c4]
  have hgdeg : (⟨cs ++ [⟨1⟩]⟩ : Polynomial (ModInt (p : Int))).degree = cs.length := by
    rw [Polynomial.degree_nonempty (by simp)]
    simp
  refine ⟨⟨cs ++ [⟨1⟩]⟩, q, c1, d2, ?_, ?_, d4⟩
  · rw [hgdeg]; exact_mod_cast h1
  · rw [(Polynomial.degree_eq d2 hqne).1]
    have : ((Polynomial.toPoly f).natDegree : Int)
        = (cs.length : Int) + ((Polynomial.toPoly q).natDegree : Int) := by
      exact_mod_cast hnat
    omega

/-- A splitting into two factors of degree at least `1` yields a dividing monic candidate
of degree between `1` and `n / 2`. -/
theorem candidate_of_reducible (hp : p.Prime)
    {f g h : Polynomial (ModInt (p : Int))} (hf : Polynomial.WF f)
    (hg : Polynomial.WF g) (hh : Polynomial.WF h) (hg1 : 1 ≤ g.degree) (hh1 : 1 ≤ h.degree)
    (heq : Polynomial.toPoly g * Polynomial.toPoly h = Polynomial.toPoly f) :
    ∃ cs : List (ModInt (p : Int)), 1 ≤ cs.length ∧ (cs.length : Int) ≤ f.degree / 2 ∧
      ValidL cs ∧
      Polynomial.toPoly (⟨cs ++ [⟨1⟩]⟩ : Polynomial (ModInt (p : Int)))
        ∣ Polynomial.toPoly f := by
  haveI := Fact.mk hp
  obtain ⟨hG0, hGd⟩ := natDegree_of_degree_pos hg hg1
  obtain ⟨hH0, hHd⟩ := natDegree_of_degree_pos hh hh1
  have hF0 : Polynomial.toPoly f ≠ 0 := by rw [← heq]; exact mul_ne_zero hG0 hH0
  have hfne : f.coeffs ≠ [] := by
    intro h0
    apply hF0
    unfold Polynomial.toPoly; rw [h0]; rfl
  have hFd := (Polynomial.degree_eq hf hfne).1
  have hnat : (Polynomial.toPoly f).natDegree
      = (Polynomial.toPoly g).natDegree + (Polynomial.toPoly h).natDegree := by
    rw [← heq, Polynomial.natDegree_mul hG0 hH0]
  have key : ∀ (G H : FpPoly p), G ≠ 0 → 1 ≤ G.natDegree → G.natDegree ≤ H.natDegree →
      (Polynomial.toPoly f).natDegree = G.natDegree + H.natDegree →
      G ∣ Polynomial.toPoly f →
      ∃ cs : List (ModInt (p : Int)), 1 ≤ cs.length ∧ (cs.length : Int) ≤ f.degree / 2 ∧
        ValidL cs ∧
        Polynomial.toPoly (⟨cs ++ [⟨1⟩]⟩ : Polynomial (ModInt (p : Int)))
          ∣ Polynomial.toPoly f := by
    intro G H hG hG1 hle hsum hdvd
    have hlc : G.leadingCoeff ≠ 0 := Polynomial.leadingCoeff_ne_zero.mpr hG
    have hmonic := Polynomial.monic_mul_leadingCoeff_inv hG
    have hnd : (G * Polynomial.C G.leadingCoeff⁻¹).natDegree = G.natDegree :=
      Polynomial.natDegree_mul_C (inv_ne_zero hlc)
    obtain ⟨cs, k1, k2, k3⟩ := exists_candidate hmonic
    refine ⟨cs, by omega, ?_, k2, ?_⟩
    · rw [hFd, k1, hnd]
      have : ((Polynomial.toPoly f).natDegree : Int)
          = (G.natDegree : Int) + (H.natDegree : Int) := by exact_mod_cast hsum
      have : (G.natDegree : Int) ≤ (H.natDegree : Int) := by exact_mod_cast hle
      omega
    · rw [k3]
      have hGG : G * Polynomial.C G.leadingCoeff⁻¹ ∣ G := by
        refine ⟨Polynomial.C G.leadingCoeff, ?_⟩
        rw [mul_assoc, ← Polynomial.C_mul, inv_mul_cancel₀ hlc, Polynomial.C_1, mul_one]
      exact dvd_trans hGG hdvd
  have hGn : 1 ≤ (Polynomial.toPoly g).natDegree := by
    have : (1 : Int) ≤ ((Polynomial.toPoly g).natDegree : Int) := by rw [hGd]; exact hg1
    exact_mod_cast this
  have hHn : 1 ≤ (Polynomial.toPoly h).natDegree := by
    have : (1 : Int) ≤ ((Polynomial.toPoly h).natDegree : Int) := by rw [hHd]; exact hh1
    exact_mod_cast this
  by_cases hle : (Polynomial.toPoly g).natDegree ≤ (Polynomial.toPoly h).natDegree
  · exact key (Polynomial.toPoly g) (Polynomial.toPoly h) hG0 hGn hle hnat ⟨_, heq.symm⟩
  · exact key (Polynomial.toPoly h) (Polynomial.toPoly g) hH0 hHn (by omega) (by omega)
      ⟨_, by rw [← heq]; ring⟩

theorem mem_range_map_succ {n d : Nat} :
    d ∈ (List.range n).map (· + 1) ↔ 1 ≤ d ∧ d ≤ n := by
  simp only [List.mem_map, List.mem_range]
  constructor
  · rintro ⟨a, ha, rfl⟩; omega
  · rintro ⟨h1, h2⟩; exact ⟨d - 1, by omega, by omega⟩

/-- The brute-force search decides irreducibility over `Z_p`. -/
theorem is_irreducible_spec (hp : p.Prime) (hM : (p : Int) ≤ 2147483648)
    {f : Polynomial (ModInt (p : Int))} (hf : Polynomial.WF f) (fuel : Nat)
    (hfuel : f.coeffs.length < fuel) :
    ∃ b, is_irreducible fuel f = some (.ok b) ∧
      (b = true ↔ (1 ≤ f.degree ∧
        ¬ ∃ g h : Polynomial (ModInt (p : Int)), Polynomial.WF g ∧ Polynomial.WF h ∧
          1 ≤ g.degree ∧ 1 ≤ h.degree ∧
          Polynomial.toPoly g * Polynomial.toPoly h = Polynomial.toPoly f)) := by
  haveI := Fact.mk hp
  unfold is_irreducible
  simp only
  by_cases h0 : f.degree ≤ 0
  · rw [if_pos h0]
    refine ⟨false, rfl, ?_⟩
    simp only [Bool.false_eq_true, false_iff, not_and, not_not]
    intro h1
    omega
  rw [if_neg h0]
  by_cases h1 : f.degree = 1
  · rw [if_pos h1]
    refine ⟨true, rfl, ?_⟩
    simp only [true_iff]
    refine ⟨by omega, ?_⟩
    rintro ⟨g, h, hg, hh, hg1, hh1, heq⟩
    obtain ⟨hG0, hGd⟩ := natDegree_of_degree_pos hg hg1
    obtain ⟨hH0, hHd⟩ := natDegree_of_degree_pos hh hh1
    obtain ⟨_, hFd⟩ := natDegree_of_degree_pos hf (by omega)
    have hnat : ((Polynomial.toPoly f).natDegree : Int)
        = ((Polynomial.toPoly g).natDegree : Int) + ((Polynomial.toPoly h).natDegree : Int) := by
      rw [← heq, Polynomial.natDegree_mul hG0 hH0]
      push_cast
      rfl
    omega
  rw [if_neg h1]
  have h2 : 2 ≤ f.degree := by omega
  obtain ⟨b, hb, hq⟩ := firstTrue_spec
    (fun d : Nat => gen fuel f (FieldScalar.MOD_VALUE (ModInt (p : Int))) d 0
      (List.replicate d (Scalar.ofInt 0)))
    (fun d => ∃ cs : List (ModInt (p : Int)), cs.length = 0 + d ∧ ValidL cs ∧
      cs.take 0 = (List.replicate d (Scalar.ofInt 0 : ModInt (p : Int))).take 0 ∧
      Polynomial.toPoly (⟨cs ++ [⟨1⟩]⟩ : Polynomial (ModInt (p : Int)))
        ∣ Polynomial.toPoly f)
    ((List.range (f.degree / 2).toNat).map (· + 1))
    (fun d _ => gen_spec hp hM hf fuel hfuel d 0 _ (by simp) (by
      intro x hx; simp at hx))
  rw [hb]
  refine ⟨!b, rfl, ?_⟩
  rw [Bool.not_eq_true', ← Bool.not_eq_true, hq]
  constructor
  · intro hnone
    refine ⟨by omega, ?_⟩
    rintro ⟨g, h, hg, hh, hg1, hh1, heq⟩
    obtain ⟨cs, k1, k2, k3, k4⟩ := candidate_of_reducible hp hf hg hh hg1 hh1 heq
    apply hnone
    refine ⟨cs.length, mem_range_map_succ.mpr ⟨k1, ?_⟩, cs, by omega, k3, by simp, k4⟩
    omega
  · rintro ⟨_, hirr⟩ ⟨d, hd, cs, k1, k2, _, k4⟩
    obtain ⟨d1, d2⟩ := mem_range_map_succ.mp hd
    apply hirr
    exact reducible_of_candidate hp hM hf h2 k2 (by omega) (by omega) k4

end IrreducibleSpec
end PolyCalc

namespace PolyCalc

section Lengths
variable {T : Type} [Scalar T] [DecidableEq T]

theorem Polynomial.normalize_length_le (f : Polynomial T) :
    (Polynomial.normalize f).coeffs.length ≤ f.coeffs.length :=
  length_rdropWhile_le _ _

omit [Scalar T] [DecidableEq T] in
theorem addsub_loop_length (d : T) (op plus : T → T → T) (f g : List T) (n : Nat) :
    ((List.range n).foldl (fun result i =>
      let result := if i < f.length then
          result.set i (plus (result.getD i d) (f.getD i d))
        else result
      if i < g.length then
        result.set i (op (result.getD i d) (g.getD i d))
      else result) (List.replicate n d)).length = n := by
  have hbody : (fun (result : List T) (i : Nat) =>
      let result := if i < f.length then
          result.set i (plus (result.getD i d) (f.getD i d))
        else result
      if i < g.length then
        result.set i (op (result.getD i d) (g.getD i d))
      else result) =
      (fun r i => r.set i ((fun i r => (fun x => if i < g.length then
        op (if i < f.length then plus x (f.getD i d) else x) (g.getD i d)
        else (if i < f.length then plus x (f.getD i d) else x)) (r.getD i d)) i r)) := by
    funext r i
    exact two_step_set d r i (i < f.length) (i < g.length) (fun x => plus x (f.getD i d))
      (fun x => op x (g.getD i d))
  rw [hbody, foldl_set_length]
  simp

theorem Polynomial.add_length_le (f g : Polynomial T) :
    (Polynomial.add f g).coeffs.length ≤ max f.coeffs.length g.coeffs.length := by
  unfold Polynomial.add Polynomial.ofCoeffs
  refine le_trans (Polynomial.normalize_length_le _) ?_
  simp only
  rw [addsub_loop_length]

theorem Polynomial.sub_length_le (f g : Polynomial T) :
    (Polynomial.sub f g).coeffs.length ≤ max f.coeffs.length g.coeffs.length := by
  unfold Polynomial.sub Polynomial.ofCoeffs
  refine le_trans (Polynomial.normalize_length_le _) ?_
  simp only
  rw [addsub_loop_length]

/-- A dividend shorter than the divisor leaves the division loop at once. -/
theorem Polynomial.divmod_short {f d : Polynomial T} (h : f.coeffs.length < d.coeffs.length)
    (fuel : Nat) (hfuel : 1 ≤ fuel) :
    ∃ q r, Polynomial.divmod fuel f d = some (.ok (q, r)) := by
  have hdne : d.coeffs ≠ [] := by
    intro h0; rw [h0] at h; exact absurd h (Nat.not_lt_zero _)
  obtain ⟨n, rfl⟩ : ∃ n, fuel = n + 1 := ⟨fuel - 1, by omega⟩
  unfold Polynomial.divmod
  rw [Polynomial.isEmpty_eq_false hdne]
  simp only [Bool.false_eq_true, if_false]
  rw [Polynomial.divmodLoop]
  have hcond : ¬ (f.degree ≥ d.degree ∧ f.degree ≥ 0) := by
    rw [Polynomial.loop_cond_iff hdne]
    intro hc
    omega
  rw [if_neg hcond]
  exact ⟨_, _, rfl⟩

end Lengths

namespace FactorRingElement

section ModulusCheck
variable {T : Type} [FieldScalar T] [DecidableEq T]

theorem construct_not_mismatch (fuel : Nat) (x m : Polynomial T) :
    construct fuel x m ≠ some (.error .differentModuli) := by
  unfold construct Polynomial.rem Polynomial.divmod
  split
  · simp [Except.map]
  · simp only
    generalize Polynomial.divmodLoop m fuel x _ = res
    cases res <;> simp [Except.map]

theorem construct_mod_poly {fuel : Nat} {x m : Polynomial T} {e : FactorRingElement T}
    (h : construct fuel x m = some (.ok e)) : e.mod_poly = m := by
  unfold construct at h
  cases hr : Polynomial.rem fuel x m with
  | none => rw [hr] at h; simp at h
  | some v =>
    rw [hr] at h
    cases v with
    | error err => simp [Except.map] at h
    | ok q =>
      simp only [Option.map_some', Except.map, Option.some.injEq, Except.ok.injEq] at h
      rw [← h]

theorem construct_of_divmod {fuel : Nat} {x m q r : Polynomial T}
    (h : Polynomial.divmod fuel x m = some (.ok (q, r))) :
    construct fuel x m = some (.ok ⟨r, m⟩) := by
  unfold construct Polynomial.rem
  rw [h]
  rfl

theorem add_mismatch_iff (fuel : Nat) (a b : FactorRingElement T) :
    add fuel a b = some (.error .differentModuli) ↔ a.mod_poly.coeffs ≠ b.mod_poly.coeffs := by
  unfold add
  constructor
  · intro h
    by_cases hne : a.mod_poly.coeffs ≠ b.mod_poly.coeffs
    · exact hne
    · rw [if_neg hne] at h
      exact absurd h (construct_not_mismatch _ _ _)
  · intro h
    rw [if_pos h]

theorem sub_mismatch_iff (fuel : Nat) (a b : FactorRingElement T) :
    sub fuel a b = some (.error .differentModuli) ↔ a.mod_poly.coeffs ≠ b.mod_poly.coeffs := by
  unfold sub
  constructor
  · intro h
    by_cases hne : a.mod_poly.coeffs ≠ b.mod_poly.coeffs
    · exact hne
    · rw [if_neg hne] at h
      exact absurd h (construct_not_mismatch _ _ _)
  · intro h
    rw [if_pos h]

theorem mul_mismatch_iff (fuel : Nat) (a b : FactorRingElement T) :
    mul fuel a b = some (.error .differentModuli) ↔ a.mod_poly.coeffs ≠ b.mod_poly.coeffs := by
  unfold mul
  constructor
  · intro h
    by_cases hne : a.mod_poly.coeffs ≠ b.mod_poly.coeffs
    · exact hne
    · rw [if_neg hne] at h
      exact absurd h (construct_not_mismatch _ _ _)
  · intro h
    rw [if_pos h]

/-- Sum and difference of two reduced representatives need no division round. -/
theorem add_sub_return {ra rb m : Polynomial T} (ha : ra.coeffs.length < m.coeffs.length)
    (hb : rb.coeffs.length < m.coeffs.length) (fuel : Nat) (hfuel : 1 ≤ fuel) :
    (∃ e, add fuel ⟨ra, m⟩ ⟨rb, m⟩ = some (.ok e) ∧ e.mod_poly = m) ∧
    (∃ e, sub fuel ⟨ra, m⟩ ⟨rb, m⟩ = some (.ok e) ∧ e.mod_poly = m) := by
  constructor
  · obtain ⟨q, r, h⟩ := Polynomial.divmod_short (f := Polynomial.add ra rb) (d := m)
      (lt_of_le_of_lt (Polynomial.add_length_le ra rb) (max_lt ha hb)) fuel hfuel
    refine ⟨⟨r, m⟩, ?_, rfl⟩
    unfold add
    simp only [ne_eq, not_true_eq_false, if_false]
    exact construct_of_divmod h
  · obtain ⟨q, r, h⟩ := Polynomial.divmod_short (f := Polynomial.sub ra rb) (d := m)
      (lt_of_le_of_lt (Polynomial.sub_length_le ra rb) (max_lt ha hb)) fuel hfuel
    refine ⟨⟨r, m⟩, ?_, rfl⟩
    unfold sub
    simp only [ne_eq, not_true_eq_false, if_false]
    exact construct_of_divmod h

end ModulusCheck
end FactorRingElement
end PolyCalc

namespace PolyCalc
namespace FactorRingElement

section MonoRing
variable {T : Type} [FieldScalar T] [DecidableEq T]

theorem construct_mono {fuel fuel' : Nat} (hle : fuel ≤ fuel') {x m : Polynomial T}
    {v : Except Error (FactorRingElement T)} (h : construct fuel x m = some v) :
    construct fuel' x m = some v := by
  unfold construct Polynomial.rem at h ⊢
  cases hd : Polynomial.divmod fuel x m with
  | none => rw [hd] at h; simp at h
  | some w =>
    rw [Polynomial.divmod_mono hle hd]
    rw [hd] at h
    exact h

theorem mul_mono {fuel fuel' : Nat} (hle : fuel ≤ fuel') {a b : FactorRingElement T}
    {v : Except Error (FactorRingElement T)} (h : mul fuel a b = some v) :
    mul fuel' a b = some v := by
  unfold mul at h ⊢
  split
  · rename_i hc
    rw [if_pos hc] at h
    exact h
  · rename_i hc
    rw [if_neg hc] at h
    exact construct_mono hle h

theorem inv_mono {fuel fuel' : Nat} (hle : fuel ≤ fuel') {a : FactorRingElement T}
    {v : Except Error (FactorRingElement T)} (h : inv fuel a = some v) :
    inv fuel' a = some v := by
  unfold inv at h ⊢
  cases hg : extended_gcd fuel a.poly a.mod_poly with
  | none => rw [hg] at h; simp at h
  | some w =>
    rw [extended_gcd_mono hle hg]
    rw [hg] at h
    cases w with
    | error e => exact h
    | ok t =>
      obtain ⟨g, x, y⟩ := t
      simp only at h ⊢
      split
      · rename_i hc
        rw [if_pos hc] at h
        exact h
      · rename_i hc
        rw [if_neg hc] at h
        exact construct_mono hle h

end MonoRing
end FactorRingElement
end PolyCalc

namespace PolyCalc

section TameArith
variable {p : Nat}

theorem tmod_neg_left (a M : Int) : Int.tmod (-a) M = -Int.tmod a M := by
  rw [Int.tmod_def, Int.tmod_def, Int.neg_tdiv]
  ring

theorem wrap32_range (x : Int) : -2147483648 ≤ wrap32 x ∧ wrap32 x < 2147483648 := by
  unfold wrap32
  constructor <;> omega

/-- Operator `-=` leaves a value above `-M` when `M` exceeds `2^30`. -/
theorem ModInt.sub_tame {M : Int} (hM : 1073741824 < M) (hM' : M ≤ 2147483648)
    (a b : ModInt M) : ModInt.Tame (ModInt.sub a b) := by
  unfold ModInt.sub ModInt.Tame
  have h := wrap32_range (a.value - b.value)
  simp only
  split
  · rw [wrap32_of_range (by omega) (by omega)]
    simp only
    constructor <;> omega
  · simp only
    constructor <;> omega

theorem ModInt.zero_add_tame {M : Int} (hM : 0 < M) (hM' : M ≤ 2147483648) {a : ModInt M}
    (ha : ModInt.Tame a) : ModInt.Tame (ModInt.add ⟨0⟩ a) := by
  obtain ⟨a⟩ := a
  simp only [ModInt.Tame, ModInt.add, Int.zero_add] at *
  rw [wrap32_of_range (by omega) (by omega)]
  split
  · rw [wrap32_of_range (by omega) (by omega)]
    simp only
    constructor <;> omega
  · simp only
    constructor <;> omega

/-- Multiplying back by the leading coefficient undoes the division by it. -/
theorem emod_mul_inv_cancel (hp : p.Prime) (hM : (p : Int) ≤ 2147483648)
    {ml : ModInt (p : Int)} (hml : ModInt.Valid ml) (hml0 : ml ≠ ⟨0⟩) (e : Int) :
    (ml.value * ((e * (ModInt.inv ml).value) % (p : Int))) % (p : Int) = e % (p : Int) := by
  haveI := Fact.mk hp
  have hpos : (0 : Int) < p := by exact_mod_cast hp.pos
  have hz : ModInt.toZ ml ≠ 0 := fun h => hml0 ((ModInt.toZ_eq_zero_iff hml).mp h)
  have hinv := ModInt.toZ_inv hp hM hml hz
  have hcast : (((ml.value * ((e * (ModInt.inv ml).value) % (p : Int))) % (p : Int) : Int)
      : ZMod p) = ((e % (p : Int) : Int) : ZMod p) := by
    simp only [ZMod.intCast_mod, Int.cast_mul]
    have h1 : ((ModInt.inv ml).value : ZMod p) = ((ml.value : Int) : ZMod p)⁻¹ := hinv
    rw [h1]
    have h2 : ((ml.value : Int) : ZMod p) ≠ 0 := hz
    field_simp
  rw [ZMod.intCast_eq_intCast_iff] at hcast
  have := Int.ModEq.eq hcast
  rwa [Int.emod_emod_of_dvd _ (dvd_refl _), Int.emod_emod_of_dvd _ (dvd_refl _)] at this

/-- The value of `lead_divisor * (c / lead_divisor)` for an arbitrary stored `c`. -/
theorem mul_div_value (hp : p.Prime) (hM : (p : Int) ≤ 2147483648)
    {ml : ModInt (p : Int)} (hml : ModInt.Valid ml) (hml0 : ml ≠ ⟨0⟩) (c : ModInt (p : Int)) :
    (ModInt.mul ml (ModInt.div c ml)).value =
      if 0 ≤ c.value then c.value % (p : Int) else -((-c.value) % (p : Int)) := by
  have hpos : (0 : Int) < p := by exact_mod_cast hp.pos
  have hiv := ModInt.inv_valid hp.pos hM hml
  rw [ModInt.mul_value_raw hpos hM]
  unfold ModInt.div
  rw [ModInt.mul_value_raw hpos hM]
  by_cases hc : 0 ≤ c.value
  · rw [if_pos hc]
    have h1 : 0 ≤ c.value * (ModInt.inv ml).value := mul_nonneg hc hiv.1
    rw [Int.tmod_eq_emod h1 hpos.le]
    have h2 : 0 ≤ ml.value * (c.value * (ModInt.inv ml).value % (p : Int)) :=
      mul_nonneg hml.1 (Int.emod_nonneg _ hpos.ne')
    rw [Int.tmod_eq_emod h2 hpos.le]
    exact emod_mul_inv_cancel hp hM hml hml0 c.value
  · rw [if_neg hc]
    have he : 0 ≤ -c.value := by omega
    have h0 : c.value * (ModInt.inv ml).value = -((-c.value) * (ModInt.inv ml).value) := by ring
    have h1 : 0 ≤ (-c.value) * (ModInt.inv ml).value := mul_nonneg he hiv.1
    rw [h0, tmod_neg_left, Int.tmod_eq_emod h1 hpos.le]
    have h3 : ml.value * -((-c.value) * (ModInt.inv ml).value % (p : Int))
        = -(ml.value * ((-c.value) * (ModInt.inv ml).value % (p : Int))) := by ring
    have h2 : 0 ≤ ml.value * ((-c.value) * (ModInt.inv ml).value % (p : Int)) :=
      mul_nonneg hml.1 (Int.emod_nonneg _ hpos.ne')
    rw [h3, tmod_neg_left, Int.tmod_eq_emod h2 hpos.le,
      emod_mul_inv_cancel hp hM hml hml0 (-c.value)]

/-- The leading coefficient cancels exactly, also when it is not a canonical residue. -/
theorem lead_cancel (hp : p.Prime) (hlow : (1073741824 : Int) ≤ p) (hM : (p : Int) ≤ 2147483648)
    {ml : ModInt (p : Int)} (hml : ModInt.Valid ml) (hml0 : ml ≠ ⟨0⟩)
    {c : ModInt (p : Int)} (hc : ModInt.Tame c) :
    ModInt.sub (ModInt.add ⟨0⟩ c) (ModInt.mul ml (ModInt.div c ml)) = ⟨0⟩ := by
  have hpos : (0 : Int) < p := by exact_mod_cast hp.pos
  have hv := mul_div_value hp hM hml hml0 c
  obtain ⟨cv⟩ := c
  simp only [ModInt.Tame] at hc
  simp only at hv
  have hadd : (ModInt.add (⟨0⟩ : ModInt (p : Int)) ⟨cv⟩).value
      = if 0 ≤ cv then cv % (p : Int) else -((-cv) % (p : Int)) := by
    simp only [ModInt.add, zero_add]
    rw [ModInt.wrap32_of_range (by omega) (by omega)]
    by_cases h1 : cv ≥ (p : Int)
    · rw [if_pos h1, if_pos (by omega)]
      rw [ModInt.wrap32_of_range (by omega) (by omega)]
      simp only
      have : cv % (p : Int) = (cv - p) % (p : Int) := by
        rw [Int.sub_emod, Int.emod_self, sub_zero, Int.emod_emod_of_dvd _ (dvd_refl _)]
      rw [this, Int.emod_eq_of_lt (by omega) (by omega)]
    · rw [if_neg h1]
      simp only
      by_cases h2 : 0 ≤ cv
      · rw [if_pos h2, Int.emod_eq_of_lt h2 (by omega)]
      · rw [if_neg h2, Int.emod_eq_of_lt (by omega) (by omega)]
        ring
  have heq : ModInt.add (⟨0⟩ : ModInt (p : Int)) ⟨cv⟩
      = ModInt.mul ml (ModInt.div ⟨cv⟩ ml) := by
    cases h1 : ModInt.add (⟨0⟩ : ModInt (p : Int)) ⟨cv⟩
    cases h2 : ModInt.mul ml (ModInt.div ⟨cv⟩ ml)
    rw [h1] at hadd
    rw [h2] at hv
    simp only at hadd hv
    rw [hadd, hv]
  rw [heq]
  unfold ModInt.sub
  simp [wrap32]

end TameArith
end PolyCalc

namespace PolyCalc

section TameStep
variable {p : Nat}

theorem length_of_getElem? {α : Type} {l : List α} {n : Nat} {g : Nat → α}
    (h : ∀ m : Nat, l[m]? = if m < n then some (g m) else none) : l.length = n := by
  have h1 : ¬ l.length < n := by
    intro hlt
    have := h l.length
    rw [if_pos hlt, List.getElem?_eq_none (le_refl _)] at this
    simp at this
  have h2 : ¬ n < l.length := by
    intro hlt
    have := h n
    rw [if_neg (lt_irrefl _), List.getElem?_eq_getElem hlt] at this
    simp at this
  omega

/-- The raw vector built by operator `-` before normalization. -/
theorem sub_raw {M : Int} (f g : Polynomial (ModInt M)) :
    ∃ R : List (ModInt M), Polynomial.sub f g = Polynomial.ofCoeffs R ∧
      R.length = max f.coeffs.length g.coeffs.length ∧
      ∀ m : Nat, m < max f.coeffs.length g.coeffs.length →
        R.getD m ⟨0⟩ =
          if m < g.coeffs.length then
            ModInt.sub (if m < f.coeffs.length then ModInt.add ⟨0⟩ (f.coeffs.getD m ⟨0⟩)
              else ⟨0⟩) (g.coeffs.getD m ⟨0⟩)
          else (if m < f.coeffs.length then ModInt.add ⟨0⟩ (f.coeffs.getD m ⟨0⟩) else ⟨0⟩) := by
  have hget := addsub_loop_getElem? (⟨0⟩ : ModInt M) (· - ·) (· + ·) f.coeffs g.coeffs
    (max f.coeffs.length g.coeffs.length)
  refine ⟨_, ?_, length_of_getElem? hget, ?_⟩
  · unfold Polynomial.sub
    simp only [scalar_ofInt_zero]
  · intro m hm
    have := hget m
    rw [if_pos hm] at this
    rw [getD_of_getElem? this]
    rfl

/-- Normalizing a vector whose last entry is zero shortens it. -/
theorem normalize_drop_last {M : Int} {R : List (ModInt M)} (hne : R ≠ [])
    (hlast : R.getD (R.length - 1) ⟨0⟩ = ⟨0⟩) :
    (Polynomial.normalize (Polynomial.ofCoeffs R)).coeffs.length < R.length ∧
    (∀ x ∈ (Polynomial.normalize (Polynomial.ofCoeffs R)).coeffs, x ∈ R) ∧
    NormalizedL (Polynomial.normalize (Polynomial.ofCoeffs R)).coeffs := by
  have hcoeffs : (Polynomial.normalize (Polynomial.ofCoeffs R)).coeffs
      = R.rdropWhile (fun c => decide (c = ⟨0⟩)) := by
    rw [normalize_coeffs]
    unfold Polynomial.ofCoeffs
    rw [normalize_coeffs, List.rdropWhile_idempotent]
  rw [hcoeffs]
  refine ⟨?_, fun x hx => ( List.rdropWhile_prefix _ R).subset hx, normalizedL_rdropWhile R⟩
  have hsplit : R = R.dropLast ++ [R.getLast hne] := (List.dropLast_append_getLast hne).symm
  have hl : R.getLast hne = ⟨0⟩ := by rw [getLast_eq_getD R hne ⟨0⟩]; exact hlast
  have hlen : R.dropLast.length < R.length := by
    rw [List.length_dropLast]
    have := List.length_pos.mpr hne
    omega
  calc (R.rdropWhile (fun c => decide (c = ⟨0⟩))).length
      = ((R.dropLast ++ [R.getLast hne]).rdropWhile (fun c => decide (c = ⟨0⟩))).length := by
        rw [← hsplit]
    _ = (R.dropLast.rdropWhile (fun c => decide (c = ⟨0⟩))).length := by
        rw [List.rdropWhile_concat_pos _ _ _ (by simp [hl])]
    _ ≤ R.dropLast.length := length_rdropWhile_le _ _
    _ < R.length := hlen

theorem monomial_zero_empty {M : Int} (d : Nat) :
    Polynomial.ofCoeffs ((List.replicate (d + 1) (⟨0⟩ : ModInt M)).set d ⟨0⟩)
      = Polynomial.empty := by
  have hnil : (Polynomial.ofCoeffs ((List.replicate (d + 1) (⟨0⟩ : ModInt M)).set d
      ⟨0⟩)).coeffs = [] := by
    unfold Polynomial.ofCoeffs
    rw [normalize_coeffs, List.rdropWhile_eq_nil_iff]
    intro x hx
    rcases List.mem_or_eq_of_mem_set hx with h | h
    · simp [List.eq_of_mem_replicate h]
    · simp [h]
  cases hq : Polynomial.ofCoeffs ((List.replicate (d + 1) (⟨0⟩ : ModInt M)).set d ⟨0⟩)
  rw [hq] at hnil
  simp only at hnil
  rw [hnil]
  rfl

theorem mul_ne_zero_modInt (hp : p.Prime) (hM : (p : Int) ≤ 2147483648)
    {a b : ModInt (p : Int)} (ha : ModInt.Valid a) (ha0 : a ≠ ⟨0⟩) (hb0 : b ≠ ⟨0⟩)
    (hb : -(p : Int) < b.value ∧ b.value < p) : ModInt.mul a b ≠ ⟨0⟩ := by
  have hpos : (0 : Int) < p := by exact_mod_cast hp.pos
  intro h
  have hv := congrArg ModInt.value h
  rw [ModInt.mul_value_raw hpos hM] at hv
  simp only at hv
  have hdvd : (p : Int) ∣ a.value * b.value := Int.dvd_of_tmod_eq_zero hv
  have hpp : Prime (p : Int) := Nat.prime_iff_prime_int.mp hp
  rcases hpp.dvd_or_dvd hdvd with h1 | h1
  · have := Int.eq_zero_of_abs_lt_dvd h1 (by rw [abs_lt]; constructor <;> [have := ha.1; skip] <;> [omega; exact ha.2])
    apply ha0
    cases a
    simp_all
  · have := Int.eq_zero_of_abs_lt_dvd h1 (by rw [abs_lt]; exact hb)
    apply hb0
    cases b
    simp_all

end TameStep
end PolyCalc

namespace PolyCalc

section TameLoop
variable {p : Nat}

theorem sub_zero_eq_zero {M : Int} (hM : 0 < M) (hM' : M ≤ 2147483648) {x : ModInt M}
    (hx : ModInt.Tame x) (h : ModInt.sub x ⟨0⟩ = ⟨0⟩) : x = ⟨0⟩ := by
  obtain ⟨x⟩ := x
  simp only [ModInt.Tame] at hx
  simp only [ModInt.sub, sub_zero] at h
  rw [ModInt.wrap32_of_range (by omega) (by omega)] at h
  by_cases hneg : x < 0
  · rw [if_pos hneg, ModInt.wrap32_of_range (by omega) (by omega)] at h
    have := congrArg ModInt.value h
    simp only at this
    omega
  · rw [if_neg hneg] at h
    exact h

theorem mem_of_getD_tame {M : Int} {R : List (ModInt M)}
    (h : ∀ m : Nat, m < R.length → ModInt.Tame (R.getD m ⟨0⟩)) : ∀ x ∈ R, ModInt.Tame x := by
  intro x hx
  obtain ⟨m, hm, rfl⟩ := List.getElem_of_mem hx
  have := h m hm
  rwa [List.getD_eq_getElem _ _ hm] at this

/-- One round of the division loop on a dividend whose coefficients need not be canonical
residues, for a modulus above `2^30`: the leading term still cancels. -/
theorem divmod_step_tame (hp : p.Prime) (hlow : (1073741824 : Int) < p)
    (hM : (p : Int) ≤ 2147483648)
    {m D : Polynomial (ModInt (p : Int))} (hm : Polynomial.WF m) (hmne : m.coeffs ≠ [])
    (hDne : D.coeffs ≠ []) (hle : m.coeffs.length ≤ D.coeffs.length)
    (hDn : NormalizedL D.coeffs) (hlead : ModInt.Tame (D.coeffs.getLast hDne))
    (hrest : ModInt.Valid (D.coeffs.getLast hDne) ∨ ∀ x ∈ D.coeffs, ModInt.Tame x) :
    let diff := (D.degree - m.degree).toNat
    let factor := D.coeffs.getLastD (Scalar.ofInt 0) / m.coeffs.getLastD (Scalar.ofInt 0)
    let term := (List.replicate (diff + 1) (Scalar.ofInt 0 : ModInt (p : Int))).set diff factor
    let D' := Polynomial.normalize (Polynomial.sub D (Polynomial.mul m (Polynomial.ofCoeffs term)))
    D'.coeffs.length < D.coeffs.length ∧ (∀ x ∈ D'.coeffs, ModInt.Tame x) ∧
      NormalizedL D'.coeffs := by
  haveI := Fact.mk hp
  intro diff factor term D'
  have hpos : (0 : Int) < p := by exact_mod_cast hp.pos
  have h1 := List.length_pos.mpr hmne
  have h2 := List.length_pos.mpr hDne
  have hdiff : diff = D.coeffs.length - m.coeffs.length := by
    show (D.degree - m.degree).toNat = _
    rw [Polynomial.degree_nonempty hmne, Polynomial.degree_nonempty hDne]
    omega
  have hmlv : ModInt.Valid (m.coeffs.getLast hmne) := hm.1.getLast hmne
  have hml0 : m.coeffs.getLast hmne ≠ ⟨0⟩ := hm.2.last_ne hmne
  have hc0 : D.coeffs.getLast hDne ≠ ⟨0⟩ := hDn.last_ne hDne
  have hfdef : factor = ModInt.div (D.coeffs.getLast hDne) (m.coeffs.getLast hmne) := by
    show D.coeffs.getLastD (Scalar.ofInt 0) / m.coeffs.getLastD (Scalar.ofInt 0) = _
    rw [getLastD_eq_getLast _ hDne, getLastD_eq_getLast _ hmne]
    rfl
  have hterm : term = (List.replicate (diff + 1) (⟨0⟩ : ModInt (p : Int))).set diff factor := by
    show (List.replicate (diff + 1) (Scalar.ofInt 0 : ModInt (p : Int))).set diff factor = _
    rw [scalar_ofInt_zero]
  have hcancel := lead_cancel hp hlow.le hM hmlv hml0 hlead
  rw [← hfdef] at hcancel
  have hDlast : D.coeffs.getD (D.coeffs.length - 1) ⟨0⟩ = D.coeffs.getLast hDne :=
    (getLast_eq_getD _ hDne _).symm
  obtain ⟨R, hsub, hRlen, hRget⟩ := sub_raw D (Polynomial.mul m (Polynomial.ofCoeffs term))
  -- the three facts about the raw difference
  suffices hR : R.length = D.coeffs.length ∧ R.getD (R.length - 1) ⟨0⟩ = ⟨0⟩ ∧
      ∀ x ∈ R, ModInt.Tame x by
    obtain ⟨r1, r2, r3⟩ := hR
    have hRne : R ≠ [] := by
      intro h0; rw [h0] at r1; simp at r1; omega
    obtain ⟨n1, n2, n3⟩ := normalize_drop_last hRne r2
    have hD' : D' = Polynomial.normalize (Polynomial.ofCoeffs R) := by
      show Polynomial.normalize (Polynomial.sub D _) = _
      rw [hsub]
    rw [hD']
    exact ⟨by omega, fun x hx => r3 x (n2 x hx), n3⟩
  by_cases hf0 : factor = ⟨0⟩
  · -- the leading coefficient is the modulus itself
    have hX : Polynomial.mul m (Polynomial.ofCoeffs term) = Polynomial.empty := by
      rw [hterm, hf0, monomial_zero_empty]
      unfold Polynomial.mul
      simp [Polynomial.empty]
    rw [hX] at hRlen hRget
    have hlen : R.length = D.coeffs.length := by
      rw [hRlen]; simp [Polynomial.empty]
    have hall : ∀ x ∈ D.coeffs, ModInt.Tame x := by
      rcases hrest with hv | hall
      · exfalso
        have hz : ModInt.toZ (D.coeffs.getLast hDne) ≠ 0 :=
          fun h => hc0 ((ModInt.toZ_eq_zero_iff hv).mp h)
        have hzl : ModInt.toZ (m.coeffs.getLast hmne) ≠ 0 :=
          fun h => hml0 ((ModInt.toZ_eq_zero_iff hmlv).mp h)
        have := ModInt.toZ_div hp hM hv hmlv hzl
        rw [← hfdef, hf0, toZ_zero] at this
        exact mul_ne_zero hz (inv_ne_zero hzl) this.symm
      · exact hall
    have hget : ∀ k : Nat, k < D.coeffs.length →
        R.getD k ⟨0⟩ = ModInt.add ⟨0⟩ (D.coeffs.getD k ⟨0⟩) := by
      intro k hk
      rw [hRget k (by simp [Polynomial.empty]; exact hk)]
      simp [Polynomial.empty, hk]
    refine ⟨hlen, ?_, ?_⟩
    · rw [hlen, hget _ (by omega), hDlast]
      rw [hf0, ModInt.mul_zero_right] at hcancel
      exact sub_zero_eq_zero hpos hM (ModInt.zero_add_tame hpos hM hlead) hcancel
    · apply mem_of_getD_tame
      intro k hk
      rw [hlen] at hk
      rw [hget k hk]
      apply ModInt.zero_add_tame hpos hM
      rw [List.getD_eq_getElem _ _ hk]
      exact hall _ (List.getElem_mem _)
  · -- the generic round
    have htne : term ≠ [] := by
      intro h
      have := term_length diff factor
      rw [← hterm, h] at this
      simp at this
    have htn : NormalizedL term := by
      rw [normalizedL_iff]
      intro hl
      rw [getLast_eq_getD term hl ⟨0⟩]
      have : term.length - 1 = diff := by rw [hterm, term_length]; omega
      rw [this, hterm, term_getD_self]
      exact hf0
    have hof : Polynomial.ofCoeffs term = ⟨term⟩ := by
      cases hq : Polynomial.ofCoeffs term with
      | mk cs =>
        have := normalize_coeffs (⟨term⟩ : Polynomial (ModInt (p : Int)))
        rw [rdropWhile_of_normalizedL htn] at this
        unfold Polynomial.ofCoeffs at hq
        rw [hq] at this
        simp only at this
        rw [this]
    have hmul : Polynomial.mul m ⟨term⟩ = Polynomial.ofCoeffs (Polynomial.mulLoop m.coeffs term) := by
      unfold Polynomial.mul
      simp [Polynomial.isEmpty_eq_false hmne, Polynomial.isEmpty_eq_false htne]
    have hLget := mulLoop_monomial_getElem? (a := m.coeffs) (b := term) (d := diff)
      (c := factor) hpos hM (by rw [hterm, term_length])
      (by rw [hterm]; exact term_getD_lt diff factor) (by rw [hterm, term_getD_self])
      m.coeffs.length le_rfl
    have hLdef : Polynomial.mulLoop m.coeffs term = (List.range m.coeffs.length).foldl
        (fun result i => (List.range term.length).foldl (fun result j =>
          result.set (i + j) (result.getD (i + j) ⟨0⟩
            + m.coeffs.getD i ⟨0⟩ * term.getD j ⟨0⟩)) result)
        (List.replicate (m.coeffs.length + term.length - 1) ⟨0⟩) := by
      unfold Polynomial.mulLoop
      simp only [scalar_ofInt_zero]
    rw [← hLdef] at hLget
    set L := Polynomial.mulLoop m.coeffs term with hL
    have hLlen : L.length = m.coeffs.length + diff := length_of_getElem? hLget
    have hLD : L.length = D.coeffs.length := by omega
    have hLlast : L.getD (D.coeffs.length - 1) ⟨0⟩
        = ModInt.mul (m.coeffs.getLast hmne) factor := by
      have := hLget (D.coeffs.length - 1)
      rw [if_pos (by omega), if_pos (by omega)] at this
      rw [getD_of_getElem? this]
      have : D.coeffs.length - 1 - diff = m.coeffs.length - 1 := by omega
      rw [this, ← getLast_eq_getD _ hmne]
    have hfrange : -(p : Int) < factor.value ∧ factor.value < p := by
      rw [hfdef]
      unfold ModInt.div
      rw [ModInt.mul_value_raw hpos hM]
      exact tmod_abs_lt _ hpos
    have hLne : L ≠ [] := by
      intro h0; rw [h0] at hLD; simp at hLD; omega
    have hLn : NormalizedL L := by
      rw [normalizedL_iff]
      intro hl
      rw [getLast_eq_getD L hl ⟨0⟩, hLD, hLlast]
      exact mul_ne_zero_modInt hp hM hmlv hml0 hf0 hfrange
    have hX : Polynomial.mul m (Polynomial.ofCoeffs term) = ⟨L⟩ := by
      rw [hof, hmul]
      cases hq : Polynomial.ofCoeffs L with
      | mk cs =>
        have := normalize_coeffs (⟨L⟩ : Polynomial (ModInt (p : Int)))
        rw [rdropWhile_of_normalizedL hLn] at this
        unfold Polynomial.ofCoeffs at hq
        rw [hq] at this
        simp only at this
        rw [this]
    rw [hX] at hRlen hRget
    simp only at hRlen hRget
    have hlen : R.length = D.coeffs.length := by
      rw [hRlen, hLD]; simp
    have hget : ∀ k : Nat, k < D.coeffs.length →
        R.getD k ⟨0⟩ = ModInt.sub (ModInt.add ⟨0⟩ (D.coeffs.getD k ⟨0⟩)) (L.getD k ⟨0⟩) := by
      intro k hk
      rw [hRget k (by rw [hLD]; simpa using hk)]
      rw [if_pos (by omega), if_pos hk]
    refine ⟨hlen, ?_, ?_⟩
    · rw [hlen, hget _ (by omega), hDlast, hLlast]
      exact hcancel
    · apply mem_of_getD_tame
      intro k hk
      rw [hlen] at hk
      rw [hget k hk]
      exact ModInt.sub_tame hlow hM _ _

end TameLoop
end PolyCalc

namespace PolyCalc

section TameTermination
variable {p : Nat}

/-- The division loop ends on every normalized dividend whose leading coefficient is a
canonical residue or whose coefficients all lie above `-p`, for a modulus above `2^30`. -/
theorem divmodLoop_tame (hp : p.Prime) (hlow : (1073741824 : Int) < p)
    (hM : (p : Int) ≤ 2147483648)
    {m : Polynomial (ModInt (p : Int))} (hm : Polynomial.WF m) (hmne : m.coeffs ≠ []) :
    ∀ (fuel : Nat) (D Q : Polynomial (ModInt (p : Int))), NormalizedL D.coeffs →
      (∀ h : D.coeffs ≠ [], ModInt.Tame (D.coeffs.getLast h) ∧
        (ModInt.Valid (D.coeffs.getLast h) ∨ ∀ x ∈ D.coeffs, ModInt.Tame x)) →
      D.coeffs.length < fuel →
      ∃ q r, Polynomial.divmodLoop m fuel D Q = some (q, r) := by
  intro fuel
  induction fuel with
  | zero => intro D Q _ _ hfuel; exact absurd hfuel (Nat.not_lt_zero _)
  | succ fuel ih =>
    intro D Q hDn hpre hfuel
    unfold Polynomial.divmodLoop
    by_cases hcond : D.degree ≥ m.degree ∧ D.degree ≥ 0
    · rw [if_pos hcond]
      obtain ⟨hDne, hle⟩ := (Polynomial.loop_cond_iff hmne).mp hcond
      obtain ⟨hl, hr⟩ := hpre hDne
      obtain ⟨s1, s2, s3⟩ := divmod_step_tame hp hlow hM hm hmne hDne hle hDn hl hr
      simp only
      exact ih _ _ s3 (fun h => ⟨s2 _ (List.getLast_mem h), Or.inr s2⟩) (by omega)
    · rw [if_neg hcond]
      exact ⟨_, _, rfl⟩

theorem foldl_invariant {α β : Type} (P : β → Prop) (F : β → α → β) (xs : List α) (r : β)
    (h0 : P r) (hstep : ∀ r x, x ∈ xs → P r → P (F r x)) : P (xs.foldl F r) := by
  induction xs generalizing r with
  | nil => exact h0
  | cons x xs ih =>
    rw [List.foldl_cons]
    exact ih _ (hstep r x (List.mem_cons_self _ _) h0)
      (fun r y hy => hstep r y (List.mem_cons_of_mem _ hy))

theorem set_keeps {M : Int} {S : List (ModInt M)} {n k : Nat} (v : ModInt M)
    (h : S.length = n ∧ S.getD (n - 1) ⟨0⟩ = ⟨0⟩) (hk : k ≠ n - 1) :
    (S.set k v).length = n ∧ (S.set k v).getD (n - 1) ⟨0⟩ = ⟨0⟩ := by
  refine ⟨by rw [List.length_set]; exact h.1, ?_⟩
  rw [List.getD_eq_getElem?_getD, List.getElem?_set_ne hk, ← List.getD_eq_getElem?_getD]
  exact h.2

/-- The top coefficient of a product is written once, by the last step of the two loops. -/
theorem mulLoop_last {M : Int} (hM : 0 < M) (hM' : M ≤ 2147483648)
    {a b : List (ModInt M)} (ha : a ≠ []) (hb : b ≠ []) :
    (Polynomial.mulLoop a b).length = a.length + b.length - 1 ∧
    (Polynomial.mulLoop a b).getD (a.length + b.length - 1 - 1) ⟨0⟩ =
      ModInt.mul (a.getD (a.length - 1) ⟨0⟩) (b.getD (b.length - 1) ⟨0⟩) := by
  have hla := List.length_pos.mpr ha
  have hlb := List.length_pos.mpr hb
  unfold Polynomial.mulLoop
  simp only [scalar_ofInt_zero]
  obtain ⟨na, hna⟩ : ∃ na, a.length = na + 1 := ⟨a.length - 1, by omega⟩
  obtain ⟨nb, hnb⟩ : ∃ nb, b.length = nb + 1 := ⟨b.length - 1, by omega⟩
  rw [hna, hnb]
  have hn : na + 1 + (nb + 1) - 1 = na + nb + 1 := by omega
  rw [hn]
  simp only [Nat.add_sub_cancel]
  rw [List.range_succ (n := na), List.foldl_append]
  simp only [List.foldl_cons, List.foldl_nil]
  set S1 := (List.range na).foldl (fun result i =>
    (List.range (nb + 1)).foldl (fun result j =>
      result.set (i + j) (result.getD (i + j) ⟨0⟩ + a.getD i ⟨0⟩ * b.getD j ⟨0⟩)) result)
    (List.replicate (na + nb + 1) (⟨0⟩ : ModInt M)) with hS1
  have hP1 : S1.length = na + nb + 1 ∧ S1.getD (na + nb + 1 - 1) ⟨0⟩ = ⟨0⟩ := by
    apply foldl_invariant (fun S : List (ModInt M) =>
      S.length = na + nb + 1 ∧ S.getD (na + nb + 1 - 1) ⟨0⟩ = ⟨0⟩)
    · refine ⟨by simp, ?_⟩
      rw [List.getD_eq_getElem _ _ (by simp)]
      simp
    · intro r i hi hr
      have hi' : i < na := List.mem_range.mp hi
      apply foldl_invariant (fun S : List (ModInt M) =>
        S.length = na + nb + 1 ∧ S.getD (na + nb + 1 - 1) ⟨0⟩ = ⟨0⟩)
      · exact hr
      · intro r' j hj hr'
        have hj' : j < nb + 1 := List.mem_range.mp hj
        exact set_keeps _ hr' (by omega)
  rw [List.range_succ (n := nb), List.foldl_append]
  simp only [List.foldl_cons, List.foldl_nil]
  set S2 := (List.range nb).foldl (fun result j =>
      result.set (na + j) (result.getD (na + j) ⟨0⟩ + a.getD na ⟨0⟩ * b.getD j ⟨0⟩)) S1
    with hS2
  have hP2 : S2.length = na + nb + 1 ∧ S2.getD (na + nb + 1 - 1) ⟨0⟩ = ⟨0⟩ := by
    apply foldl_invariant (fun S : List (ModInt M) =>
      S.length = na + nb + 1 ∧ S.getD (na + nb + 1 - 1) ⟨0⟩ = ⟨0⟩)
    · exact hP1
    · intro r' j hj hr'
      have hj' : j < nb := List.mem_range.mp hj
      exact set_keeps _ hr' (by omega)
  have hidx : na + nb + 1 - 1 = na + nb := by omega
  rw [hidx] at hP2
  refine ⟨by rw [List.length_set]; exact hP2.1, ?_⟩
  rw [List.getD_eq_getElem?_getD, List.getElem?_set_self (by omega), hP2.2,
    scalar_add_def, scalar_mul_def, ModInt.zero_add_small hM' (ModInt.mul_small hM hM' _ _)]
  rfl

/-- The product of two nonzero polynomials is stored with all its coefficients and a
canonical leading coefficient, whatever happens to the sums below it. -/
theorem mul_lead_valid (hp : p.Prime) (hM : (p : Int) ≤ 2147483648)
    {f g : Polynomial (ModInt (p : Int))} (hf : Polynomial.WF f) (hg : Polynomial.WF g) :
    NormalizedL (Polynomial.mul f g).coeffs ∧
    ∀ h : (Polynomial.mul f g).coeffs ≠ [],
      ModInt.Valid ((Polynomial.mul f g).coeffs.getLast h) := by
  haveI := Fact.mk hp
  have hpos : (0 : Int) < p := by exact_mod_cast hp.pos
  by_cases hfe : f.coeffs = []
  · have : Polynomial.mul f g = Polynomial.empty := by unfold Polynomial.mul; simp [hfe]
    rw [this]
    exact ⟨by simp [NormalizedL, Polynomial.empty], fun h => absurd rfl h⟩
  by_cases hge : g.coeffs = []
  · have : Polynomial.mul f g = Polynomial.empty := by unfold Polynomial.mul; simp [hge]
    rw [this]
    exact ⟨by simp [NormalizedL, Polynomial.empty], fun h => absurd rfl h⟩
  have hmul : Polynomial.mul f g = Polynomial.ofCoeffs (Polynomial.mulLoop f.coeffs g.coeffs) := by
    unfold Polynomial.mul
    simp [Polynomial.isEmpty_eq_false hfe, Polynomial.isEmpty_eq_false hge]
  obtain ⟨l1, l2⟩ := mulLoop_last hpos hM hfe hge
  have hla := List.length_pos.mpr hfe
  have hlb := List.length_pos.mpr hge
  set L := Polynomial.mulLoop f.coeffs g.coeffs with hL
  have hLne : L ≠ [] := by
    intro h0; rw [h0] at l1; simp at l1; omega
  have hfl : ModInt.Valid (f.coeffs.getLast hfe) := hf.1.getLast hfe
  have hgl : ModInt.Valid (g.coeffs.getLast hge) := hg.1.getLast hge
  have hlast : L.getLast hLne = ModInt.mul (f.coeffs.getLast hfe) (g.coeffs.getLast hge) := by
    rw [getLast_eq_getD L hLne ⟨0⟩, l1, l2, ← getLast_eq_getD _ hfe, ← getLast_eq_getD _ hge]
  have hprodv : ModInt.Valid (ModInt.mul (f.coeffs.getLast hfe) (g.coeffs.getLast hge)) :=
    ModInt.mul_valid hfl hgl hM
  have hprod0 : ModInt.mul (f.coeffs.getLast hfe) (g.coeffs.getLast hge) ≠ ⟨0⟩ := by
    intro h0
    have hz := ModInt.toZ_mul hfl hgl hM
    rw [h0, toZ_zero] at hz
    rcases mul_eq_zero.mp hz.symm with h | h
    · exact hf.2.last_ne hfe ((ModInt.toZ_eq_zero_iff hfl).mp h)
    · exact hg.2.last_ne hge ((ModInt.toZ_eq_zero_iff hgl).mp h)
  have hLn : NormalizedL L := by
    rw [normalizedL_iff]
    intro hl
    rw [hlast]
    exact hprod0
  have hcoeffs : (Polynomial.mul f g).coeffs = L := by
    rw [hmul]
    unfold Polynomial.ofCoeffs
    rw [normalize_coeffs, rdropWhile_of_normalizedL hLn]
  rw [hcoeffs]
  refine ⟨hLn, fun h => ?_⟩
  rw [hlast]
  exact hprodv

/-- Dividing a product of two polynomials by a nonzero modulus returns, for every prime that
fits in an `int`. -/
theorem divmod_mul_returns (hp : p.Prime) (hM : (p : Int) ≤ 2147483648)
    {f g m : Polynomial (ModInt (p : Int))} (hf : Polynomial.WF f) (hg : Polynomial.WF g)
    (hm : Polynomial.WF m) (hmne : m.coeffs ≠ []) (fuel : Nat)
    (hfuel : (Polynomial.mul f g).coeffs.length < fuel) :
    ∃ q r, Polynomial.divmod fuel (Polynomial.mul f g) m = some (.ok (q, r)) := by
  by_cases hsmall : (p : Int) ≤ 1073741824
  · obtain ⟨w, _⟩ := Polynomial.mul_spec hp.pos hsmall hf.1 hg.1
    obtain ⟨q, r, h1, -⟩ := Polynomial.divmod_ok hp hM w hm hmne
    exact ⟨q, r, h1 fuel hfuel⟩
  · obtain ⟨n1, n2⟩ := mul_lead_valid hp hM hf hg
    obtain ⟨q, r, h⟩ := divmodLoop_tame hp (by omega) hM hm hmne fuel (Polynomial.mul f g)
      ⟨List.replicate (max 0 ((Polynomial.mul f g).degree - m.degree + 1)).toNat
        (Scalar.ofInt 0)⟩ n1
      (fun h => ⟨⟨by have := (n2 h).1; have : (0 : Int) < p := by exact_mod_cast hp.pos
                     omega, by have := (n2 h).2; omega⟩, Or.inl (n2 h)⟩) hfuel
    refine ⟨q, r, ?_⟩
    unfold Polynomial.divmod
    rw [Polynomial.isEmpty_eq_false hmne]
    simp only [Bool.false_eq_true, if_false]
    rw [h]
    rfl

end TameTermination
end PolyCalc

namespace PolyCalc

section ScalarClaims

theorem int_bound {p : Nat} (h31 : p ≤ 2147483647) : (p : Int) ≤ 2147483648 := by
  have : (p : Int) ≤ 2147483647 := by exact_mod_cast h31
  omega

theorem ModInt.pow_value {p : Nat} (hp : 0 < p) (hM : (p : Int) ≤ 2147483648)
    {a : ModInt (p : Int)} (ha : ModInt.Valid a) (e : Nat) :
    (ModInt.pow a (e : Int)).value = a.value ^ e % (p : Int) := by
  have hpos : (0 : Int) < p := by exact_mod_cast hp
  have hv := ModInt.pow_valid hp hM ha (e : Int)
  have hz := ModInt.toZ_pow hp hM ha (e : Int)
  simp only [ModInt.toZ, Int.toNat_ofNat] at hz
  rw [← Int.cast_pow, ZMod.intCast_eq_intCast_iff] at hz
  have := Int.ModEq.eq hz
  rw [Int.emod_eq_of_lt hv.1 hv.2] at this
  exact this

end ScalarClaims

/-- C7: for every modulus `M >= 2` that fits in an `int` and every canonical `a`,
`a.pow(e1 + e2) == a.pow(e1) * a.pow(e2)`, `a.pow(e)` has the value `a^e mod M`, and
`a.pow(0)` is `1`. -/
theorem ModInt.pow_add_mul (M : Nat) (hM : 2 ≤ M) (h31 : M ≤ 2147483647)
    (a : ModInt (M : Int)) (ha : ModInt.Valid a) (e1 e2 : Nat) :
    ModInt.pow a ((e1 + e2 : Nat) : Int) = ModInt.mul (ModInt.pow a e1) (ModInt.pow a e2) ∧
    (∀ e : Nat, (ModInt.pow a (e : Int)).value = a.value ^ e % (M : Int)) ∧
    ModInt.pow a 0 = ⟨1⟩ := by
  have hM' := int_bound h31
  have hp : 0 < M := by omega
  refine ⟨?_, fun e => ModInt.pow_value hp hM' ha e, ?_⟩
  · apply ModInt.Valid.eq_of_toZ (ModInt.pow_valid hp hM' ha _)
      (ModInt.mul_valid (ModInt.pow_valid hp hM' ha _) (ModInt.pow_valid hp hM' ha _) hM')
    rw [ModInt.toZ_mul (ModInt.pow_valid hp hM' ha _) (ModInt.pow_valid hp hM' ha _) hM',
      ModInt.toZ_pow hp hM' ha, ModInt.toZ_pow hp hM' ha, ModInt.toZ_pow hp hM' ha]
    simp only [Int.toNat_ofNat]
    exact pow_add _ _ _
  · have h2 : (2 : Int) ≤ M := by exact_mod_cast hM
    show ModInt.powLoop _ a (ModInt.ofInt (M : Int) 1) 0 = _
    rw [ModInt.ofInt_one h2]
    rfl

theorem ModInt.pow_add_mul_witness :
    (2 ≤ 7 ∧ 7 ≤ 2147483647 ∧ ModInt.Valid (⟨3⟩ : ModInt ((7 : Nat) : Int))) ∧
    (ModInt.pow (⟨3⟩ : ModInt ((7 : Nat) : Int)) ((2 + 3 : Nat) : Int)
        = ModInt.mul (ModInt.pow ⟨3⟩ (2 : Nat)) (ModInt.pow ⟨3⟩ (3 : Nat)) ∧
      (∀ e : Nat, (ModInt.pow (⟨3⟩ : ModInt ((7 : Nat) : Int)) (e : Int)).value
        = (3 : Int) ^ e % ((7 : Nat) : Int)) ∧
      ModInt.pow (⟨3⟩ : ModInt ((7 : Nat) : Int)) 0 = ⟨1⟩) :=
  ⟨⟨by decide, by decide, by decide⟩,
    ModInt.pow_add_mul 7 (by decide) (by decide) ⟨3⟩ (by decide) 2 3⟩

/-- C6: for every prime `p` that fits in an `int` and all canonical `a`, `b` with `b` not
the zero element, `(a / b) * b == a`. -/
theorem ModInt.div_mul_cancel (p : Nat) (hp : p.Prime) (h31 : p ≤ 2147483647)
    (a b : ModInt (p : Int)) (ha : ModInt.Valid a) (hb : ModInt.Valid b)
    (hb0 : b ≠ ModInt.ofInt (p : Int) 0) :
    ModInt.mul (ModInt.div a b) b = a := by
  haveI := Fact.mk hp
  have hM := int_bound h31
  have hbz : ModInt.toZ b ≠ 0 := by
    intro h
    apply hb0
    rw [ModInt.ofInt_zero]
    exact (ModInt.toZ_eq_zero_iff hb).mp h
  have hd := ModInt.div_valid hp.pos hM ha hb
  apply ModInt.Valid.eq_of_toZ (ModInt.mul_valid hd hb hM) ha
  rw [ModInt.toZ_mul hd hb hM, ModInt.toZ_div hp hM ha hb hbz]
  field_simp

theorem ModInt.div_mul_cancel_witness :
    (Nat.Prime 7 ∧ 7 ≤ 2147483647 ∧ ModInt.Valid (⟨3⟩ : ModInt ((7 : Nat) : Int)) ∧
      ModInt.Valid (⟨5⟩ : ModInt ((7 : Nat) : Int)) ∧
      (⟨5⟩ : ModInt ((7 : Nat) : Int)) ≠ ModInt.ofInt ((7 : Nat) : Int) 0) ∧
    ModInt.mul (ModInt.div (⟨3⟩ : ModInt ((7 : Nat) : Int)) ⟨5⟩) ⟨5⟩ = ⟨3⟩ :=
  ⟨⟨by norm_num, by decide, by decide, by decide, by decide⟩,
    ModInt.div_mul_cancel 7 (by norm_num) (by decide) ⟨3⟩ ⟨5⟩ (by decide) (by decide)
      (by decide)⟩

/-- C5, refuted as stated: `2` is prime and `ModInt<2>(0).inv()` has the value `1`. -/
theorem ModInt.inv_zero_mod_two :
    Nat.Prime 2 ∧ (ModInt.inv (ModInt.ofInt ((2 : Nat) : Int) 0)).value = 1 :=
  ⟨Nat.prime_two, by decide⟩

/-- C5, amended: for every modulus `M >= 3` that fits in an `int` (so for every odd prime),
`ModInt<M>(0).inv()` is returned and has the value `0`. -/
theorem ModInt.inv_zero (M : Nat) (hM : 3 ≤ M) (h31 : M ≤ 2147483647) :
    (ModInt.inv (ModInt.ofInt (M : Int) 0)).value = 0 := by
  have hM' := int_bound h31
  have hp : 0 < M := by omega
  have hpos : (0 : Int) < M := by exact_mod_cast hp
  rw [ModInt.ofInt_zero]
  have hv0 : ModInt.Valid (⟨0⟩ : ModInt (M : Int)) := valid_zero hpos
  have hz := ModInt.toZ_inv_raw hp hM' hv0
  rw [toZ_zero, zero_pow (by omega)] at hz
  have := (ModInt.toZ_eq_zero_iff (ModInt.inv_valid hp hM' hv0)).mp hz
  rw [this]

theorem ModInt.inv_zero_witness :
    (3 ≤ 3 ∧ 3 ≤ 2147483647) ∧ (ModInt.inv (ModInt.ofInt ((3 : Nat) : Int) 0)).value = 0 :=
  ⟨⟨by decide, by decide⟩, ModInt.inv_zero 3 (by decide) (by decide)⟩

end PolyCalc

namespace PolyCalc
namespace Polynomial

/-- C1: for every prime `p` that fits in an `int` and all polynomials `a`, `b` over
`ModInt<p>` with `b` nonzero, `a.divmod(b)` returns a pair `(q, r)`, the same for every
sufficient fuel, with `b*q + r = a` in `Z_p[x]` and `r` zero or `degree(r) < degree(b)`. -/
theorem divmod_contract (p : Nat) (hp : p.Prime) (h31 : p ≤ 2147483647)
    (a b : Polynomial (ModInt (p : Int))) (ha : WF a) (hb : WF b) (hb0 : b.coeffs ≠ []) :
    ∃ q r, (∀ fuel, a.coeffs.length < fuel → divmod fuel a b = some (.ok (q, r))) ∧
      WF q ∧ WF r ∧ toPoly b * toPoly q + toPoly r = toPoly a ∧
      (r.coeffs = [] ∨ r.degree < b.degree) := by
  obtain ⟨q, r, h1, h2, h3, h4, h5⟩ := divmod_ok hp (int_bound h31) ha hb hb0
  exact ⟨q, r, h1, h2, h3, h4, Or.inr (degree_lt_of_length_lt h5)⟩

theorem divmod_contract_witness :
    (Nat.Prime 5 ∧ 5 ≤ 2147483647 ∧
      WF (⟨[⟨3⟩, ⟨2⟩, ⟨1⟩]⟩ : Polynomial (ModInt ((5 : Nat) : Int))) ∧
      WF (⟨[⟨1⟩, ⟨1⟩]⟩ : Polynomial (ModInt ((5 : Nat) : Int))) ∧
      (⟨[⟨1⟩, ⟨1⟩]⟩ : Polynomial (ModInt ((5 : Nat) : Int))).coeffs ≠ []) ∧
    ∃ q r, (∀ fuel, (⟨[⟨3⟩, ⟨2⟩, ⟨1⟩]⟩ : Polynomial (ModInt ((5 : Nat) : Int))).coeffs.length
          < fuel →
        divmod fuel (⟨[⟨3⟩, ⟨2⟩, ⟨1⟩]⟩ : Polynomial (ModInt ((5 : Nat) : Int))) ⟨[⟨1⟩, ⟨1⟩]⟩
          = some (.ok (q, r))) ∧
      WF q ∧ WF r ∧
      toPoly (⟨[⟨1⟩, ⟨1⟩]⟩ : Polynomial (ModInt ((5 : Nat) : Int))) * toPoly q + toPoly r
        = toPoly ⟨[⟨3⟩, ⟨2⟩, ⟨1⟩]⟩ ∧
      (r.coeffs = [] ∨ r.degree
        < (⟨[⟨1⟩, ⟨1⟩]⟩ : Polynomial (ModInt ((5 : Nat) : Int))).degree) :=
  ⟨⟨by norm_num, by decide, by decide, by decide, by decide⟩,
    divmod_contract 5 (by norm_num) (by decide) ⟨[⟨3⟩, ⟨2⟩, ⟨1⟩]⟩ ⟨[⟨1⟩, ⟨1⟩]⟩
      (by decide) (by decide) (by decide)⟩

/-- C9: for every prime `p` that fits in an `int` and all polynomials `a`, `d` over
`ModInt<p>`, `a.divmod(d)`, `a / d` and `a % d` fail with the division-by-zero-polynomial
error if and only if `d` has no coefficients; for every other `d` they return. -/
theorem divmod_fails_iff_zero (p : Nat) (hp : p.Prime) (h31 : p ≤ 2147483647)
    (a d : Polynomial (ModInt (p : Int))) (ha : WF a) (hd : WF d) (fuel : Nat)
    (hfuel : a.coeffs.length < fuel) :
    (divmod fuel a d = some (.error .divisionByZeroPolynomial) ↔ d.coeffs = []) ∧
    (quot fuel a d = some (.error .divisionByZeroPolynomial) ↔ d.coeffs = []) ∧
    (rem fuel a d = some (.error .divisionByZeroPolynomial) ↔ d.coeffs = []) ∧
    (d.coeffs ≠ [] → ∃ q r, divmod fuel a d = some (.ok (q, r)) ∧
      quot fuel a d = some (.ok q) ∧ rem fuel a d = some (.ok r)) := by
  have hret : d.coeffs ≠ [] → ∃ q r, divmod fuel a d = some (.ok (q, r)) ∧
      quot fuel a d = some (.ok q) ∧ rem fuel a d = some (.ok r) := by
    intro hne
    obtain ⟨q, r, h1, -⟩ := divmod_ok hp (int_bound h31) ha hd hne
    have h := h1 fuel hfuel
    refine ⟨q, r, h, ?_, ?_⟩
    · unfold quot; rw [h]; rfl
    · unfold rem; rw [h]; rfl
  refine ⟨divmod_error_iff fuel a d, ?_, ?_, hret⟩
  · constructor
    · intro h
      by_contra hne
      obtain ⟨q, r, -, h2, -⟩ := hret hne
      rw [h2] at h
      simp at h
    · intro h
      unfold quot
      rw [(divmod_error_iff fuel a d).mpr h]
      rfl
  · constructor
    · intro h
      by_contra hne
      obtain ⟨q, r, -, -, h3⟩ := hret hne
      rw [h3] at h
      simp at h
    · intro h
      unfold rem
      rw [(divmod_error_iff fuel a d).mpr h]
      rfl

theorem divmod_fails_iff_zero_witness :
    (Nat.Prime 2 ∧ 2 ≤ 2147483647 ∧
      WF (⟨[⟨1⟩, ⟨0⟩, ⟨1⟩]⟩ : Polynomial (ModInt ((2 : Nat) : Int))) ∧
      WF (⟨[]⟩ : Polynomial (ModInt ((2 : Nat) : Int))) ∧
      (⟨[⟨1⟩, ⟨0⟩, ⟨1⟩]⟩ : Polynomial (ModInt ((2 : Nat) : Int))).coeffs.length < 4) ∧
    ((divmod 4 (⟨[⟨1⟩, ⟨0⟩, ⟨1⟩]⟩ : Polynomial (ModInt ((2 : Nat) : Int))) ⟨[]⟩
        = some (.error .divisionByZeroPolynomial)
        ↔ (⟨[]⟩ : Polynomial (ModInt ((2 : Nat) : Int))).coeffs = []) ∧
      (quot 4 (⟨[⟨1⟩, ⟨0⟩, ⟨1⟩]⟩ : Polynomial (ModInt ((2 : Nat) : Int))) ⟨[]⟩
        = some (.error .divisionByZeroPolynomial)
        ↔ (⟨[]⟩ : Polynomial (ModInt ((2 : Nat) : Int))).coeffs = []) ∧
      (rem 4 (⟨[⟨1⟩, ⟨0⟩, ⟨1⟩]⟩ : Polynomial (ModInt ((2 : Nat) : Int))) ⟨[]⟩
        = some (.error .divisionByZeroPolynomial)
        ↔ (⟨[]⟩ : Polynomial (ModInt ((2 : Nat) : Int))).coeffs = []) ∧
      ((⟨[]⟩ : Polynomial (ModInt ((2 : Nat) : Int))).coeffs ≠ [] →
        ∃ q r, divmod 4 (⟨[⟨1⟩, ⟨0⟩, ⟨1⟩]⟩ : Polynomial (ModInt ((2 : Nat) : Int))) ⟨[]⟩
            = some (.ok (q, r)) ∧
          quot 4 (⟨[⟨1⟩, ⟨0⟩, ⟨1⟩]⟩ : Polynomial (ModInt ((2 : Nat) : Int))) ⟨[]⟩
            = some (.ok q) ∧
          rem 4 (⟨[⟨1⟩, ⟨0⟩, ⟨1⟩]⟩ : Polynomial (ModInt ((2 : Nat) : Int))) ⟨[]⟩
            = some (.ok r))) :=
  ⟨⟨Nat.prime_two, by decide, by decide, by decide, by decide⟩,
    divmod_fails_iff_zero 2 Nat.prime_two (by decide) ⟨[⟨1⟩, ⟨0⟩, ⟨1⟩]⟩ ⟨[]⟩ (by decide)
      (by decide) 4 (by decide)⟩

/-- C10: for every prime `p` that fits in an `int` and every nonzero polynomial `f` over
`ModInt<p>`, `f.divmod(f)` returns the constant-1 polynomial `[1]` and the zero polynomial
`[]`. -/
theorem divmod_self (p : Nat) (hp : p.Prime) (h31 : p ≤ 2147483647)
    (f : Polynomial (ModInt (p : Int))) (hf : WF f) (hne : f.coeffs ≠ []) (fuel : Nat)
    (hfuel : f.coeffs.length < fuel) :
    divmod fuel f f = some (.ok (⟨[⟨1⟩]⟩, ⟨[]⟩)) := by
  haveI := Fact.mk hp
  obtain ⟨q, r, h1, h2, h3, h4, h5⟩ := divmod_ok hp (int_bound h31) hf hf hne
  have hzero : ((0 : FpPoly p)).degree < (toPoly f).degree := by
    rw [Polynomial.degree_zero]
    exact bot_lt_iff_ne_bot.mpr (Polynomial.degree_ne_bot.mpr (degree_eq hf hne).2)
  have huniq := @fp_divmod_unique p _ (toPoly f) (toPoly q) (toPoly r) 1 0
    (by rw [h4]; ring) (lt_of_length_lt h3 hf h5) hzero
  have hq : q = ⟨[⟨1⟩]⟩ := eq_of_toPoly_eq h2 (wf_one hp.two_le) (by rw [huniq.1, toPoly_one])
  have hr : r = ⟨[]⟩ := eq_of_toPoly_eq h3 wf_empty (by rw [huniq.2]; rfl)
  rw [h1 fuel hfuel, hq, hr]

theorem divmod_self_witness :
    (Nat.Prime 3 ∧ 3 ≤ 2147483647 ∧
      WF (⟨[⟨2⟩, ⟨0⟩, ⟨1⟩]⟩ : Polynomial (ModInt ((3 : Nat) : Int))) ∧
      (⟨[⟨2⟩, ⟨0⟩, ⟨1⟩]⟩ : Polynomial (ModInt ((3 : Nat) : Int))).coeffs ≠ [] ∧
      (⟨[⟨2⟩, ⟨0⟩, ⟨1⟩]⟩ : Polynomial (ModInt ((3 : Nat) : Int))).coeffs.length < 4) ∧
    divmod 4 (⟨[⟨2⟩, ⟨0⟩, ⟨1⟩]⟩ : Polynomial (ModInt ((3 : Nat) : Int))) ⟨[⟨2⟩, ⟨0⟩, ⟨1⟩]⟩
      = some (.ok (⟨[⟨1⟩]⟩, ⟨[]⟩)) :=
  ⟨⟨by norm_num, by decide, by decide, by decide, by decide⟩,
    divmod_self 3 (by norm_num) (by decide) ⟨[⟨2⟩, ⟨0⟩, ⟨1⟩]⟩ (by decide) (by decide) 4
      (by decide)⟩

end Polynomial
end PolyCalc

namespace PolyCalc

section Helpers

theorem small_bound {p : Nat} (h30 : p ≤ 1073741824) : (p : Int) ≤ 1073741824 := by
  exact_mod_cast h30

theorem prime_mersenne31 : Nat.Prime 2147483647 := by
  have h : (mersenne 31).Prime := lucas_lehmer_sufficiency 31 (by norm_num) (by norm_num)
  have e : mersenne 31 = 2147483647 := by norm_num [mersenne]
  rwa [e] at h

theorem eval_one_toPolyL {p : Nat} (l : List (ModInt (p : Int))) :
    Polynomial.eval 1 (toPolyL l) = (((l.map (fun c => c.value)).sum : Int) : ZMod p) := by
  induction l with
  | nil => simp [toPolyL]
  | cons c l ih =>
    rw [toPolyL_cons, Polynomial.eval_add, Polynomial.eval_C, Polynomial.eval_mul,
      Polynomial.eval_X, ih]
    simp [ModInt.toZ]

end Helpers

/-- C2: for every prime `p` that fits in an `int` and every polynomial `f` over `ModInt<p>`,
`is_irreducible(f)` returns, and returns true exactly when `degree(f) >= 1` and no two
polynomials of degree at least `1` over `ModInt<p>` have the product `f` in `Z_p[x]`; over
`Z_2` it returns true for `[1,1,1]` and false for `[1,0,1]`. -/
theorem is_irreducible_iff (p : Nat) (hp : p.Prime) (h31 : p ≤ 2147483647)
    (f : Polynomial (ModInt (p : Int))) (hf : Polynomial.WF f) (fuel : Nat)
    (hfuel : f.coeffs.length < fuel) :
    (∃ b, is_irreducible fuel f = some (.ok b) ∧
      (b = true ↔ (1 ≤ f.degree ∧
        ¬ ∃ g h : Polynomial (ModInt (p : Int)), Polynomial.WF g ∧ Polynomial.WF h ∧
          1 ≤ g.degree ∧ 1 ≤ h.degree ∧
          Polynomial.toPoly g * Polynomial.toPoly h = Polynomial.toPoly f))) ∧
    is_irreducible 8 (⟨[⟨1⟩, ⟨1⟩, ⟨1⟩]⟩ : Polynomial (ModInt 2)) = some (.ok true) ∧
    is_irreducible 8 (⟨[⟨1⟩, ⟨0⟩, ⟨1⟩]⟩ : Polynomial (ModInt 2)) = some (.ok false) :=
  ⟨is_irreducible_spec hp (int_bound h31) hf fuel hfuel, rfl, rfl⟩

theorem is_irreducible_iff_witness :
    (Nat.Prime 3 ∧ 3 ≤ 2147483647 ∧
      Polynomial.WF (⟨[⟨1⟩, ⟨0⟩, ⟨1⟩]⟩ : Polynomial (ModInt ((3 : Nat) : Int))) ∧
      (⟨[⟨1⟩, ⟨0⟩, ⟨1⟩]⟩ : Polynomial (ModInt ((3 : Nat) : Int))).coeffs.length < 8) ∧
    ((∃ b, is_irreducible 8 (⟨[⟨1⟩, ⟨0⟩, ⟨1⟩]⟩ : Polynomial (ModInt ((3 : Nat) : Int)))
        = some (.ok b) ∧
      (b = true ↔
        (1 ≤ (⟨[⟨1⟩, ⟨0⟩, ⟨1⟩]⟩ : Polynomial (ModInt ((3 : Nat) : Int))).degree ∧
        ¬ ∃ g h : Polynomial (ModInt ((3 : Nat) : Int)), Polynomial.WF g ∧ Polynomial.WF h ∧
          1 ≤ g.degree ∧ 1 ≤ h.degree ∧
          Polynomial.toPoly g * Polynomial.toPoly h
            = Polynomial.toPoly
              (⟨[⟨1⟩, ⟨0⟩, ⟨1⟩]⟩ : Polynomial (ModInt ((3 : Nat) : Int)))))) ∧
      is_irreducible 8 (⟨[⟨1⟩, ⟨1⟩, ⟨1⟩]⟩ : Polynomial (ModInt 2)) = some (.ok true) ∧
      is_irreducible 8 (⟨[⟨1⟩, ⟨0⟩, ⟨1⟩]⟩ : Polynomial (ModInt 2)) = some (.ok false)) :=
  ⟨⟨by norm_num, by decide, by decide, by decide⟩,
    is_irreducible_iff 3 (by norm_num) (by decide) ⟨[⟨1⟩, ⟨0⟩, ⟨1⟩]⟩ (by decide) 8
      (by decide)⟩

namespace FactorRingElement

set_option maxRecDepth 1000000 in
/-- C4, defect of the code: over the prime `p = 2^31 - 1`, for `a = x^3` and
`b = x^2 + x + 2`, `extended_gcd(a, b)` returns `g = 8`, `x = x + 3` and
`y = [4, 2147483647, 2147483646]`, and `a*x + b*y` differs from `g` in `Z_p[x]`, against the
comment of `extended_gcd` and the claim: the sum `2147483646 + 3` inside `q * y` goes through
`ModInt::operator+=`, which adds in `int` without widening and leaves its range. -/
theorem extended_gcd_overflow :
    Nat.Prime 2147483647 ∧
    Polynomial.WF (⟨[⟨0⟩, ⟨0⟩, ⟨0⟩, ⟨1⟩]⟩ : Polynomial (ModInt ((2147483647 : Nat) : Int))) ∧
    Polynomial.WF (⟨[⟨2⟩, ⟨1⟩, ⟨1⟩]⟩ : Polynomial (ModInt ((2147483647 : Nat) : Int))) ∧
    (∀ fuel, 10 ≤ fuel →
      extended_gcd fuel
        (⟨[⟨0⟩, ⟨0⟩, ⟨0⟩, ⟨1⟩]⟩ : Polynomial (ModInt ((2147483647 : Nat) : Int)))
        ⟨[⟨2⟩, ⟨1⟩, ⟨1⟩]⟩
      = some (.ok (⟨[⟨8⟩]⟩, ⟨[⟨3⟩, ⟨1⟩]⟩, ⟨[⟨4⟩, ⟨2147483647⟩, ⟨2147483646⟩]⟩))) ∧
    Polynomial.toPoly
        (⟨[⟨0⟩, ⟨0⟩, ⟨0⟩, ⟨1⟩]⟩ : Polynomial (ModInt ((2147483647 : Nat) : Int)))
        * Polynomial.toPoly
          (⟨[⟨3⟩, ⟨1⟩]⟩ : Polynomial (ModInt ((2147483647 : Nat) : Int)))
      + Polynomial.toPoly
          (⟨[⟨2⟩, ⟨1⟩, ⟨1⟩]⟩ : Polynomial (ModInt ((2147483647 : Nat) : Int)))
        * Polynomial.toPoly
          (⟨[⟨4⟩, ⟨2147483647⟩, ⟨2147483646⟩]⟩ :
            Polynomial (ModInt ((2147483647 : Nat) : Int)))
      ≠ Polynomial.toPoly
          (⟨[⟨8⟩]⟩ : Polynomial (ModInt ((2147483647 : Nat) : Int))) := by
  refine ⟨prime_mersenne31, by decide, by decide, ?_, ?_⟩
  · intro fuel hfuel
    exact extended_gcd_mono hfuel (by rfl)
  · intro h
    have h1 := congrArg (Polynomial.eval 1) h
    simp only [Polynomial.toPoly, Polynomial.eval_add, Polynomial.eval_mul,
      eval_one_toPolyL] at h1
    rw [← Int.cast_mul, ← Int.cast_mul, ← Int.cast_add, ZMod.intCast_eq_intCast_iff] at h1
    exact absurd h1 (by decide)

/-- Where operator `+=` cannot overflow: for every prime `p <= 2^30` and all polynomials
`a`, `b` over `ModInt<p>`, `extended_gcd(a, b)` returns a triple `(g, x, y)` with
`a*x + b*y = g` in `Z_p[x]`, `g` divides `a` and `b`, and every common divisor of `a` and `b`
divides `g`. -/
theorem extended_gcd_bezout (p : Nat) (hp : p.Prime) (h30 : p ≤ 1073741824)
    (a b : Polynomial (ModInt (p : Int))) (ha : Polynomial.WF a) (hb : Polynomial.WF b) :
    ∃ g x y,
      (∀ fuel, max a.coeffs.length b.coeffs.length + b.coeffs.length + 2 ≤ fuel →
        extended_gcd fuel a b = some (.ok (g, x, y))) ∧
      Polynomial.WF g ∧ Polynomial.WF x ∧ Polynomial.WF y ∧
      Polynomial.toPoly a * Polynomial.toPoly x + Polynomial.toPoly b * Polynomial.toPoly y
        = Polynomial.toPoly g ∧
      Polynomial.toPoly g ∣ Polynomial.toPoly a ∧
      Polynomial.toPoly g ∣ Polynomial.toPoly b ∧
      (∀ d : FpPoly p, d ∣ Polynomial.toPoly a → d ∣ Polynomial.toPoly b →
        d ∣ Polynomial.toPoly g) := by
  obtain ⟨g, x, y, h1, h2, h3, h4, h5, h6, h7⟩ :=
    extended_gcd_spec hp (small_bound h30) _ a b ha hb (le_refl _)
  refine ⟨g, x, y, fun fuel hfuel => extended_gcd_mono hfuel h1, h2, h3, h4, h5, h6, h7, ?_⟩
  intro d hda hdb
  rw [← h5]
  exact dvd_add (Dvd.dvd.mul_right hda _) (Dvd.dvd.mul_right hdb _)

theorem extended_gcd_bezout_witness :
    (Nat.Prime 5 ∧ 5 ≤ 1073741824 ∧
      Polynomial.WF (⟨[⟨0⟩, ⟨0⟩, ⟨0⟩, ⟨1⟩]⟩ : Polynomial (ModInt ((5 : Nat) : Int))) ∧
      Polynomial.WF (⟨[⟨2⟩, ⟨1⟩, ⟨1⟩]⟩ : Polynomial (ModInt ((5 : Nat) : Int)))) ∧
    ∃ g x y,
      (∀ fuel, max (⟨[⟨0⟩, ⟨0⟩, ⟨0⟩, ⟨1⟩]⟩ : Polynomial (ModInt ((5 : Nat) : Int))).coeffs.length
            (⟨[⟨2⟩, ⟨1⟩, ⟨1⟩]⟩ : Polynomial (ModInt ((5 : Nat) : Int))).coeffs.length
          + (⟨[⟨2⟩, ⟨1⟩, ⟨1⟩]⟩ : Polynomial (ModInt ((5 : Nat) : Int))).coeffs.length + 2
          ≤ fuel →
        extended_gcd fuel (⟨[⟨0⟩, ⟨0⟩, ⟨0⟩, ⟨1⟩]⟩ : Polynomial (ModInt ((5 : Nat) : Int)))
          ⟨[⟨2⟩, ⟨1⟩, ⟨1⟩]⟩ = some (.ok (g, x, y))) ∧
      Polynomial.WF g ∧ Polynomial.WF x ∧ Polynomial.WF y ∧
      Polynomial.toPoly (⟨[⟨0⟩, ⟨0⟩, ⟨0⟩, ⟨1⟩]⟩ : Polynomial (ModInt ((5 : Nat) : Int)))
          * Polynomial.toPoly x
        + Polynomial.toPoly (⟨[⟨2⟩, ⟨1⟩, ⟨1⟩]⟩ : Polynomial (ModInt ((5 : Nat) : Int)))
          * Polynomial.toPoly y
        = Polynomial.toPoly g ∧
      Polynomial.toPoly g
        ∣ Polynomial.toPoly (⟨[⟨0⟩, ⟨0⟩, ⟨0⟩, ⟨1⟩]⟩ : Polynomial (ModInt ((5 : Nat) : Int))) ∧
      Polynomial.toPoly g
        ∣ Polynomial.toPoly (⟨[⟨2⟩, ⟨1⟩, ⟨1⟩]⟩ : Polynomial (ModInt ((5 : Nat) : Int))) ∧
      (∀ d : FpPoly 5,
        d ∣ Polynomial.toPoly
          (⟨[⟨0⟩, ⟨0⟩, ⟨0⟩, ⟨1⟩]⟩ : Polynomial (ModInt ((5 : Nat) : Int))) →
        d ∣ Polynomial.toPoly (⟨[⟨2⟩, ⟨1⟩, ⟨1⟩]⟩ : Polynomial (ModInt ((5 : Nat) : Int))) →
        d ∣ Polynomial.toPoly g) :=
  ⟨⟨by norm_num, by decide, by decide, by decide⟩,
    extended_gcd_bezout 5 (by norm_num) (by decide) ⟨[⟨0⟩, ⟨0⟩, ⟨0⟩, ⟨1⟩]⟩ ⟨[⟨2⟩, ⟨1⟩, ⟨1⟩]⟩
      (by decide) (by decide)⟩

end FactorRingElement
end PolyCalc

namespace PolyCalc
namespace FactorRingElement

set_option maxRecDepth 1000000 in
/-- C3, defect of the code: over the prime `p = 2^31 - 1` and the modulus
`x^3 + x^2 + 3x + 1`, the element `x^2` is built, `inv()` returns `3x^2 + 20x + 8` without
error, and the product of the two has the representative
`[2147483630, 2147483593, 2147483629]`, not the representative `[1]` of the ring unit that
the claim and the comment of `inv()` promise: a sum inside `extended_gcd` goes through
`ModInt::operator+=`, which adds in `int` without widening and leaves its range. -/
theorem inv_mul_overflow :
    Nat.Prime 2147483647 ∧
    Polynomial.WF (⟨[⟨1⟩, ⟨3⟩, ⟨1⟩, ⟨1⟩]⟩ : Polynomial (ModInt ((2147483647 : Nat) : Int))) ∧
    Polynomial.WF (⟨[⟨0⟩, ⟨0⟩, ⟨1⟩]⟩ : Polynomial (ModInt ((2147483647 : Nat) : Int))) ∧
    (⟨[⟨2147483630⟩, ⟨2147483593⟩, ⟨2147483629⟩]⟩ :
      Polynomial (ModInt ((2147483647 : Nat) : Int))) ≠ ⟨[⟨1⟩]⟩ ∧
    ∀ fuel, 10 ≤ fuel →
      construct fuel (⟨[⟨0⟩, ⟨0⟩, ⟨1⟩]⟩ : Polynomial (ModInt ((2147483647 : Nat) : Int)))
          ⟨[⟨1⟩, ⟨3⟩, ⟨1⟩, ⟨1⟩]⟩
        = some (.ok ⟨⟨[⟨0⟩, ⟨0⟩, ⟨1⟩]⟩, ⟨[⟨1⟩, ⟨3⟩, ⟨1⟩, ⟨1⟩]⟩⟩) ∧
      inv fuel (⟨⟨[⟨0⟩, ⟨0⟩, ⟨1⟩]⟩, ⟨[⟨1⟩, ⟨3⟩, ⟨1⟩, ⟨1⟩]⟩⟩ :
          FactorRingElement (ModInt ((2147483647 : Nat) : Int)))
        = some (.ok ⟨⟨[⟨8⟩, ⟨20⟩, ⟨3⟩]⟩, ⟨[⟨1⟩, ⟨3⟩, ⟨1⟩, ⟨1⟩]⟩⟩) ∧
      mul fuel (⟨⟨[⟨0⟩, ⟨0⟩, ⟨1⟩]⟩, ⟨[⟨1⟩, ⟨3⟩, ⟨1⟩, ⟨1⟩]⟩⟩ :
          FactorRingElement (ModInt ((2147483647 : Nat) : Int)))
          ⟨⟨[⟨8⟩, ⟨20⟩, ⟨3⟩]⟩, ⟨[⟨1⟩, ⟨3⟩, ⟨1⟩, ⟨1⟩]⟩⟩
        = some (.ok ⟨⟨[⟨2147483630⟩, ⟨2147483593⟩, ⟨2147483629⟩]⟩,
            ⟨[⟨1⟩, ⟨3⟩, ⟨1⟩, ⟨1⟩]⟩⟩) ∧
      construct fuel (Polynomial.const (Scalar.ofInt 1))
          (⟨[⟨1⟩, ⟨3⟩, ⟨1⟩, ⟨1⟩]⟩ : Polynomial (ModInt ((2147483647 : Nat) : Int)))
        = some (.ok ⟨⟨[⟨1⟩]⟩, ⟨[⟨1⟩, ⟨3⟩, ⟨1⟩, ⟨1⟩]⟩⟩) := by
  refine ⟨prime_mersenne31, by decide, by decide, by decide, ?_⟩
  intro fuel hfuel
  exact ⟨construct_mono hfuel (by rfl), inv_mono hfuel (by rfl), mul_mono hfuel (by rfl),
    construct_mono hfuel (by rfl)⟩

/-- Where operator `+=` cannot overflow: for every prime `p <= 2^30`, every nonzero modulus
`m` and every element
`a` built over `m`, from some fuel on `a.inv()` either fails with the no-inverse error or
returns an element `i` such that `a * i` has the same representative as the ring unit
`FactorRingElement(Polynomial(1), m)`; over `Z_2` with modulus `x^2+x+1` the inverse of `x`
is `x+1`. -/
theorem inv_mul_unit (p : Nat) (hp : p.Prime) (h30 : p ≤ 1073741824)
    (u m : Polynomial (ModInt (p : Int))) (hu : Polynomial.WF u) (hm : Polynomial.WF m)
    (hmne : m.coeffs ≠ []) :
    (∃ N, ∀ fuel, N ≤ fuel →
      ∃ a, construct fuel u m = some (.ok a) ∧
        (inv fuel a = some (.error .noInverse) ∨
          ∃ i e one, inv fuel a = some (.ok i) ∧ mul fuel a i = some (.ok e) ∧
            construct fuel (Polynomial.const (Scalar.ofInt 1)) m = some (.ok one) ∧
            e.poly = one.poly)) ∧
    (∃ a, construct 8 (⟨[⟨0⟩, ⟨1⟩]⟩ : Polynomial (ModInt 2)) ⟨[⟨1⟩, ⟨1⟩, ⟨1⟩]⟩ = some (.ok a) ∧
      inv 8 a = some (.ok ⟨⟨[⟨1⟩, ⟨1⟩]⟩, ⟨[⟨1⟩, ⟨1⟩, ⟨1⟩]⟩⟩)) := by
  refine ⟨?_, ⟨_, rfl, rfl⟩⟩
  have hM := small_bound h30
  have hM' : (p : Int) ≤ 2147483648 := by omega
  obtain ⟨r, r1, r2, _, _⟩ := construct_ok hp hM' hu hm hmne
  obtain ⟨N, hN⟩ := inv_ok hp hM r2 hm hmne
  refine ⟨max N (u.coeffs.length + 1), ?_⟩
  intro fuel hfuel
  refine ⟨⟨r, m⟩, r1 fuel (by have := le_trans (le_max_right _ _) hfuel; omega), ?_⟩
  rcases hN fuel (le_trans (le_max_left _ _) hfuel) with h | ⟨i, one, h1, _, _, h4, h5⟩
  · exact Or.inl h
  · exact Or.inr ⟨⟨i, m⟩, ⟨one, m⟩, ⟨one, m⟩, h1, h4, h5, rfl⟩

theorem inv_mul_unit_witness :
    (Nat.Prime 3 ∧ 3 ≤ 1073741824 ∧
      Polynomial.WF (⟨[⟨2⟩, ⟨1⟩]⟩ : Polynomial (ModInt ((3 : Nat) : Int))) ∧
      Polynomial.WF (⟨[⟨1⟩, ⟨0⟩, ⟨1⟩]⟩ : Polynomial (ModInt ((3 : Nat) : Int))) ∧
      (⟨[⟨1⟩, ⟨0⟩, ⟨1⟩]⟩ : Polynomial (ModInt ((3 : Nat) : Int))).coeffs ≠ []) ∧
    ((∃ N, ∀ fuel, N ≤ fuel →
      ∃ a, construct fuel (⟨[⟨2⟩, ⟨1⟩]⟩ : Polynomial (ModInt ((3 : Nat) : Int)))
          ⟨[⟨1⟩, ⟨0⟩, ⟨1⟩]⟩ = some (.ok a) ∧
        (inv fuel a = some (.error .noInverse) ∨
          ∃ i e one, inv fuel a = some (.ok i) ∧ mul fuel a i = some (.ok e) ∧
            construct fuel (Polynomial.const (Scalar.ofInt 1))
              (⟨[⟨1⟩, ⟨0⟩, ⟨1⟩]⟩ : Polynomial (ModInt ((3 : Nat) : Int))) = some (.ok one) ∧
            e.poly = one.poly)) ∧
    (∃ a, construct 8 (⟨[⟨0⟩, ⟨1⟩]⟩ : Polynomial (ModInt 2)) ⟨[⟨1⟩, ⟨1⟩, ⟨1⟩]⟩ = some (.ok a) ∧
      inv 8 a = some (.ok ⟨⟨[⟨1⟩, ⟨1⟩]⟩, ⟨[⟨1⟩, ⟨1⟩, ⟨1⟩]⟩⟩))) :=
  ⟨⟨by norm_num, by decide, by decide, by decide, by decide⟩,
    inv_mul_unit 3 (by norm_num) (by decide) ⟨[⟨2⟩, ⟨1⟩]⟩ ⟨[⟨1⟩, ⟨0⟩, ⟨1⟩]⟩ (by decide)
      (by decide) (by decide)⟩

/-- C8: for every prime `p` that fits in an `int` and two elements built by the two-argument
constructor over nonzero moduli `m` and `m'`, each of `+`, `-`, `*` fails with the
mismatched-modulus error exactly when the coefficient vectors of `m` and `m'` differ, and
returns an element over `m` when they are equal; adding an element over `x+1` to an element
over `x^2+1` fails. -/
theorem ring_ops_modulus_check (p : Nat) (hp : p.Prime) (h31 : p ≤ 2147483647)
    (u v m m' : Polynomial (ModInt (p : Int))) (hu : Polynomial.WF u) (hv : Polynomial.WF v)
    (hm : Polynomial.WF m) (hm' : Polynomial.WF m') (hmne : m.coeffs ≠ [])
    (hmne' : m'.coeffs ≠ []) :
    (∃ N, ∀ fuel, N ≤ fuel →
      ∃ a b, construct fuel u m = some (.ok a) ∧ construct fuel v m' = some (.ok b) ∧
        (add fuel a b = some (.error .differentModuli) ↔ m.coeffs ≠ m'.coeffs) ∧
        (sub fuel a b = some (.error .differentModuli) ↔ m.coeffs ≠ m'.coeffs) ∧
        (mul fuel a b = some (.error .differentModuli) ↔ m.coeffs ≠ m'.coeffs) ∧
        (m.coeffs = m'.coeffs →
          (∃ e, add fuel a b = some (.ok e) ∧ e.mod_poly = m) ∧
          (∃ e, sub fuel a b = some (.ok e) ∧ e.mod_poly = m) ∧
          (∃ e, mul fuel a b = some (.ok e) ∧ e.mod_poly = m))) ∧
    (∃ a b, construct 8 (⟨[⟨1⟩]⟩ : Polynomial (ModInt 3)) ⟨[⟨1⟩, ⟨1⟩]⟩ = some (.ok a) ∧
      construct 8 (⟨[⟨1⟩]⟩ : Polynomial (ModInt 3)) ⟨[⟨1⟩, ⟨0⟩, ⟨1⟩]⟩ = some (.ok b) ∧
      add 8 a b = some (.error .differentModuli)) := by
  refine ⟨?_, ⟨_, _, rfl, rfl, rfl⟩⟩
  have hM := int_bound h31
  obtain ⟨ra, a1, a2, a3, _⟩ := construct_ok hp hM hu hm hmne
  obtain ⟨rb, b1, b2, b3, _⟩ := construct_ok hp hM hv hm' hmne'
  refine ⟨max (max (u.coeffs.length + 1) (v.coeffs.length + 1))
    ((Polynomial.mul ra rb).coeffs.length + 1), ?_⟩
  intro fuel hfuel
  have f1 : u.coeffs.length < fuel := by
    have := le_trans (le_max_left _ _) (le_trans (le_max_left _ _) hfuel); omega
  have f2 : v.coeffs.length < fuel := by
    have := le_trans (le_max_right _ _) (le_trans (le_max_left _ _) hfuel); omega
  have f3 : (Polynomial.mul ra rb).coeffs.length < fuel := by
    have := le_trans (le_max_right _ _) hfuel; omega
  refine ⟨⟨ra, m⟩, ⟨rb, m'⟩, a1 fuel f1, b1 fuel f2, add_mismatch_iff _ _ _,
    sub_mismatch_iff _ _ _, mul_mismatch_iff _ _ _, ?_⟩
  intro heq
  have hmm : m' = m := by
    cases m; cases m'; simp only at heq; rw [heq]
  subst hmm
  obtain ⟨h1, h2⟩ := add_sub_return a3 b3 fuel (by omega)
  refine ⟨h1, h2, ?_⟩
  obtain ⟨q, r, h⟩ := divmod_mul_returns hp hM a2 b2 hm' hmne' fuel f3
  refine ⟨⟨r, m'⟩, ?_, rfl⟩
  unfold mul
  simp only [ne_eq, not_true_eq_false, if_false]
  exact construct_of_divmod h

theorem ring_ops_modulus_check_witness :
    (Nat.Prime 3 ∧ 3 ≤ 2147483647 ∧
      Polynomial.WF (⟨[⟨2⟩, ⟨1⟩, ⟨1⟩]⟩ : Polynomial (ModInt ((3 : Nat) : Int))) ∧
      Polynomial.WF (⟨[⟨1⟩, ⟨2⟩]⟩ : Polynomial (ModInt ((3 : Nat) : Int))) ∧
      Polynomial.WF (⟨[⟨1⟩, ⟨0⟩, ⟨1⟩]⟩ : Polynomial (ModInt ((3 : Nat) : Int))) ∧
      Polynomial.WF (⟨[⟨1⟩, ⟨1⟩]⟩ : Polynomial (ModInt ((3 : Nat) : Int))) ∧
      (⟨[⟨1⟩, ⟨0⟩, ⟨1⟩]⟩ : Polynomial (ModInt ((3 : Nat) : Int))).coeffs ≠ [] ∧
      (⟨[⟨1⟩, ⟨1⟩]⟩ : Polynomial (ModInt ((3 : Nat) : Int))).coeffs ≠ []) ∧
    ((∃ N, ∀ fuel, N ≤ fuel →
      ∃ a b,
        construct fuel (⟨[⟨2⟩, ⟨1⟩, ⟨1⟩]⟩ : Polynomial (ModInt ((3 : Nat) : Int)))
          ⟨[⟨1⟩, ⟨0⟩, ⟨1⟩]⟩ = some (.ok a) ∧
        construct fuel (⟨[⟨1⟩, ⟨2⟩]⟩ : Polynomial (ModInt ((3 : Nat) : Int)))
          ⟨[⟨1⟩, ⟨1⟩]⟩ = some (.ok b) ∧
        (add fuel a b = some (.error .differentModuli) ↔
          (⟨[⟨1⟩, ⟨0⟩, ⟨1⟩]⟩ : Polynomial (ModInt ((3 : Nat) : Int))).coeffs
            ≠ (⟨[⟨1⟩, ⟨1⟩]⟩ : Polynomial (ModInt ((3 : Nat) : Int))).coeffs) ∧
        (sub fuel a b = some (.error .differentModuli) ↔
          (⟨[⟨1⟩, ⟨0⟩, ⟨1⟩]⟩ : Polynomial (ModInt ((3 : Nat) : Int))).coeffs
            ≠ (⟨[⟨1⟩, ⟨1⟩]⟩ : Polynomial (ModInt ((3 : Nat) : Int))).coeffs) ∧
        (mul fuel a b = some (.error .differentModuli) ↔
          (⟨[⟨1⟩, ⟨0⟩, ⟨1⟩]⟩ : Polynomial (ModInt ((3 : Nat) : Int))).coeffs
            ≠ (⟨[⟨1⟩, ⟨1⟩]⟩ : Polynomial (ModInt ((3 : Nat) : Int))).coeffs) ∧
        ((⟨[⟨1⟩, ⟨0⟩, ⟨1⟩]⟩ : Polynomial (ModInt ((3 : Nat) : Int))).coeffs
            = (⟨[⟨1⟩, ⟨1⟩]⟩ : Polynomial (ModInt ((3 : Nat) : Int))).coeffs →
          (∃ e, add fuel a b = some (.ok e) ∧ e.mod_poly = ⟨[⟨1⟩, ⟨0⟩, ⟨1⟩]⟩) ∧
          (∃ e, sub fuel a b = some (.ok e) ∧ e.mod_poly = ⟨[⟨1⟩, ⟨0⟩, ⟨1⟩]⟩) ∧
          (∃ e, mul fuel a b = some (.ok e) ∧ e.mod_poly = ⟨[⟨1⟩, ⟨0⟩, ⟨1⟩]⟩))) ∧
    (∃ a b, construct 8 (⟨[⟨1⟩]⟩ : Polynomial (ModInt 3)) ⟨[⟨1⟩, ⟨1⟩]⟩ = some (.ok a) ∧
      construct 8 (⟨[⟨1⟩]⟩ : Polynomial (ModInt 3)) ⟨[⟨1⟩, ⟨0⟩, ⟨1⟩]⟩ = some (.ok b) ∧
      add 8 a b = some (.error .differentModuli))) :=
  ⟨⟨by norm_num, by decide, by decide, by decide, by decide, by decide, by decide, by decide⟩,
    ring_ops_modulus_check 3 (by norm_num) (by decide) ⟨[⟨2⟩, ⟨1⟩, ⟨1⟩]⟩ ⟨[⟨1⟩, ⟨2⟩]⟩
      ⟨[⟨1⟩, ⟨0⟩, ⟨1⟩]⟩ ⟨[⟨1⟩, ⟨1⟩]⟩ (by decide) (by decide) (by decide) (by decide)
      (by decide) (by decide)⟩

end FactorRingElement
end PolyCalc

namespace PolyCalc
namespace ModInt

/-! ## The constructor and the three operators on residues -/

theorem ofInt_value {M : Int} (v : Int) (h1 : 1 ≤ M) (h2 : M ≤ 2147483647) :
    (ofInt M v).value = v % M := by
  unfold ofInt
  obtain ⟨hgt, hlt⟩ := tmod_abs_lt v (show 0 < M by omega)
  have hmod : (Int.tmod v M) % M = v % M := by
    have h := Int.tmod_add_tdiv v M
    have e : v = Int.tmod v M + M * v.tdiv M := by omega
    conv_rhs => rw [e]
    simp
  by_cases hneg : Int.tmod v M < 0
  · simp only [hneg, if_true]
    rw [wrap32_of_range (by omega) (by omega), ← hmod]
    have e2 : Int.tmod v M % M = (Int.tmod v M + M) % M := by simp
    rw [e2, Int.emod_eq_of_lt (by omega) (by omega)]
  · simp only [hneg, if_false]
    rw [← hmod, Int.emod_eq_of_lt (by omega) hlt]

theorem add_value {M : Int} {a b : ModInt M} (ha : Valid a) (hb : Valid b)
    (hf : a.value + b.value < 2147483648) : (add a b).value = (a.value + b.value) % M := by
  obtain ⟨a⟩ := a
  obtain ⟨b⟩ := b
  simp only [Valid, add] at *
  rw [wrap32_of_range (by omega) (by omega)]
  split
  · rw [wrap32_of_range (by omega) (by omega)]
    have e : (a + b) % M = (a + b - M) % M := by simp
    rw [e, Int.emod_eq_of_lt (by omega) (by omega)]
  · rw [Int.emod_eq_of_lt (by omega) (by omega)]

theorem sub_value {M : Int} {a b : ModInt M} (ha : Valid a) (hb : Valid b)
    (hM : M ≤ 2147483648) : (sub a b).value = (a.value - b.value) % M := by
  obtain ⟨a⟩ := a
  obtain ⟨b⟩ := b
  simp only [Valid, sub] at *
  rw [wrap32_of_range (by omega) (by omega)]
  split
  · rw [wrap32_of_range (by omega) (by omega)]
    have e : (a - b) % M = (a - b + M) % M := by simp
    rw [e, Int.emod_eq_of_lt (by omega) (by omega)]
  · rw [Int.emod_eq_of_lt (by omega) (by omega)]

end ModInt
end PolyCalc

namespace PolyCalc
namespace Polynomial

/-! ## Every operation ends in `normalize` -/

variable {T : Type} [Scalar T] [DecidableEq T]

theorem normalized_normalize (f : Polynomial T) : Normalized (normalize f) := by
  unfold Normalized normalize
  intro h
  have hne : f.coeffs.rdropWhile (fun c => decide (c = Scalar.ofInt 0)) ≠ [] := by
    intro h0
    rw [h0] at h
    simp at h
  have := List.rdropWhile_last_not (fun c : T => decide (c = Scalar.ofInt 0)) f.coeffs hne
  rw [List.getLast?_eq_getLast _ hne] at h
  simp only [Option.some.injEq] at h
  simp [h] at this

omit [DecidableEq T] in
theorem normalized_empty : Normalized (empty : Polynomial T) := by
  simp [Normalized, empty]

theorem normalized_ofCoeffs (l : List T) : Normalized (ofCoeffs l) := normalized_normalize _

theorem normalized_const (c : T) : Normalized (const c) := normalized_normalize _

theorem normalized_add (f g : Polynomial T) : Normalized (add f g) := normalized_normalize _

theorem normalized_sub (f g : Polynomial T) : Normalized (sub f g) := normalized_normalize _

theorem normalized_mul (f g : Polynomial T) : Normalized (mul f g) := by
  unfold mul
  split
  · exact normalized_empty
  · exact normalized_normalize _

theorem normalized_divmodLoop (divisor : Polynomial T) :
    ∀ (fuel : Nat) (D Q q r : Polynomial T), divmodLoop divisor fuel D Q = some (q, r) →
      Normalized q ∧ Normalized r := by
  intro fuel
  induction fuel with
  | zero => intro D Q q r h; simp [divmodLoop] at h
  | succ n ih =>
    intro D Q q r h
    unfold divmodLoop at h
    split at h
    · exact ih _ _ _ _ h
    · simp only [Option.some.injEq, Prod.mk.injEq] at h
      rw [← h.1, ← h.2]
      exact ⟨normalized_normalize _, normalized_normalize _⟩

theorem normalized_divmod {fuel : Nat} {f g q r : Polynomial T}
    (h : divmod fuel f g = some (.ok (q, r))) : Normalized q ∧ Normalized r := by
  unfold divmod at h
  split at h
  · simp at h
  · simp only at h
    cases hl : divmodLoop g fuel f
        ⟨List.replicate (max 0 (f.degree - g.degree + 1)).toNat (Scalar.ofInt 0)⟩ with
    | none => rw [hl] at h; simp at h
    | some qr =>
      rw [hl] at h
      simp only [Option.map_some', Option.some.injEq, Except.ok.injEq] at h
      subst h
      exact normalized_divmodLoop g fuel _ _ _ _ hl

theorem divmod_of_quot {fuel : Nat} {f g q : Polynomial T}
    (h : quot fuel f g = some (.ok q)) : ∃ r, divmod fuel f g = some (.ok (q, r)) := by
  unfold quot at h
  cases hd : divmod fuel f g with
  | none => rw [hd] at h; simp at h
  | some e =>
    rw [hd] at h
    cases e with
    | error e => simp [Except.map] at h
    | ok qr =>
      obtain ⟨q', r'⟩ := qr
      simp only [Option.map_some', Except.map, Option.some.injEq, Except.ok.injEq] at h
      exact ⟨r', by rw [← h]⟩

theorem divmod_of_rem {fuel : Nat} {f g r : Polynomial T}
    (h : rem fuel f g = some (.ok r)) : ∃ q, divmod fuel f g = some (.ok (q, r)) := by
  unfold rem at h
  cases hd : divmod fuel f g with
  | none => rw [hd] at h; simp at h
  | some e =>
    rw [hd] at h
    cases e with
    | error e => simp [Except.map] at h
    | ok qr =>
      obtain ⟨q', r'⟩ := qr
      simp only [Option.map_some', Except.map, Option.some.injEq, Except.ok.injEq] at h
      exact ⟨q', by rw [← h]⟩

theorem normalized_powLoop : ∀ (fuel : Nat) (base result : Polynomial T) (e : Nat),
    Normalized result → Normalized (powLoop fuel base result e) := by
  intro fuel
  induction fuel with
  | zero => intro base result e h; simpa [powLoop] using h
  | succ n ih =>
    intro base result e h
    unfold powLoop
    split
    · apply ih
      split
      · exact normalized_mul _ _
      · exact h
    · exact h

theorem normalized_pow (f : Polynomial T) (e : Nat) : Normalized (pow f e) :=
  normalized_powLoop _ _ _ _ (normalized_const _)

omit [Scalar T] in
theorem rdropWhile_append_replicate (z : T) (l : List T) (k : Nat) :
    (l ++ List.replicate k z).rdropWhile (fun c => decide (c = z))
      = l.rdropWhile (fun c => decide (c = z)) := by
  induction k with
  | zero => simp
  | succ n ih =>
    rw [List.replicate_succ', ← List.append_assoc, List.rdropWhile_concat]
    simp [ih]

theorem ofCoeffs_append_zeros (l : List T) (k : Nat) :
    ofCoeffs (l ++ List.replicate k (Scalar.ofInt 0)) = ofCoeffs l := by
  unfold ofCoeffs normalize
  simp only [rdropWhile_append_replicate]

omit [Scalar T] [DecidableEq T] in
theorem degree_eq_length (f : Polynomial T) : f.degree = (f.coeffs.length : Int) - 1 := by
  unfold degree
  cases h : f.coeffs <;> simp

theorem normalized_iff (f : Polynomial T) :
    Normalized f ↔ f.coeffs = [] ∨
      ∃ h : f.coeffs ≠ [], f.coeffs.getLast h ≠ Scalar.ofInt 0 := by
  unfold Normalized
  by_cases h : f.coeffs = []
  · simp [h]
  · rw [List.getLast?_eq_getLast _ h]
    simp [h]

end Polynomial
end PolyCalc

namespace PolyCalc

/-! ## The representative invariant -/

section
variable {T : Type} [Scalar T] [DecidableEq T]

theorem Polynomial.divmodLoop_rem_short (m : Polynomial T) (hm : m.coeffs ≠ []) :
    ∀ (fuel : Nat) (D Q q r : Polynomial T), Polynomial.divmodLoop m fuel D Q = some (q, r) →
      r.coeffs.length < m.coeffs.length := by
  intro fuel
  induction fuel with
  | zero => intro D Q q r h; simp [Polynomial.divmodLoop] at h
  | succ n ih =>
    intro D Q q r h
    unfold Polynomial.divmodLoop at h
    split at h
    · exact ih _ _ _ _ h
    · rename_i hc
      simp only [Option.some.injEq, Prod.mk.injEq] at h
      rw [← h.2]
      have hle := Polynomial.normalize_length_le D
      have hmpos : 0 < m.coeffs.length := List.length_pos.mpr hm
      rw [Polynomial.degree_eq_length, Polynomial.degree_eq_length] at hc
      omega

theorem Polynomial.divmod_rem_short {fuel : Nat} {f m q r : Polynomial T}
    (h : Polynomial.divmod fuel f m = some (.ok (q, r))) :
    m.coeffs ≠ [] ∧ r.coeffs.length < m.coeffs.length := by
  have hm : m.coeffs ≠ [] := by
    intro h0
    have := (Polynomial.divmod_error_iff fuel f m).mpr h0
    rw [this] at h
    simp at h
  refine ⟨hm, ?_⟩
  unfold Polynomial.divmod at h
  split at h
  · simp at h
  · simp only at h
    cases hl : Polynomial.divmodLoop m fuel f
        ⟨List.replicate (max 0 (f.degree - m.degree + 1)).toNat (Scalar.ofInt 0)⟩ with
    | none => rw [hl] at h; simp at h
    | some qr =>
      rw [hl] at h
      simp only [Option.map_some', Option.some.injEq, Except.ok.injEq] at h
      subst h
      exact Polynomial.divmodLoop_rem_short m hm fuel _ _ _ _ hl

end

namespace FactorRingElement

variable {T : Type} [FieldScalar T] [DecidableEq T]

theorem divmod_of_construct {fuel : Nat} {x m : Polynomial T} {e : FactorRingElement T}
    (h : construct fuel x m = some (.ok e)) :
    e.mod_poly = m ∧ ∃ q, Polynomial.divmod fuel x m = some (.ok (q, e.poly)) := by
  unfold construct at h
  cases hr : Polynomial.rem fuel x m with
  | none => rw [hr] at h; simp at h
  | some v =>
    rw [hr] at h
    cases v with
    | error err => simp [Except.map] at h
    | ok r =>
      simp only [Option.map_some', Except.map, Option.some.injEq, Except.ok.injEq] at h
      subst h
      exact ⟨rfl, Polynomial.divmod_of_rem hr⟩

omit [FieldScalar T] in
theorem reduced_of_short {e : FactorRingElement T} {m : Polynomial T} (h1 : e.mod_poly = m)
    (h2 : e.poly.coeffs.length < m.coeffs.length) : Reduced e m := by
  refine ⟨h1, ?_⟩
  by_cases h0 : e.poly.coeffs = []
  · exact Or.inl h0
  · right
    rw [Polynomial.degree_eq_length, Polynomial.degree_eq_length]
    omega

omit [FieldScalar T] [DecidableEq T] in
theorem Reduced.short {e : FactorRingElement T} {m : Polynomial T} (h : Reduced e m)
    (hm : m.coeffs ≠ []) : e.poly.coeffs.length < m.coeffs.length := by
  have hmpos : 0 < m.coeffs.length := List.length_pos.mpr hm
  rcases h.2 with h0 | h0
  · rw [h0]; exact hmpos
  · rw [Polynomial.degree_eq_length, Polynomial.degree_eq_length] at h0
    omega

theorem construct_reduced {fuel : Nat} {x m : Polynomial T} {e : FactorRingElement T}
    (h : construct fuel x m = some (.ok e)) :
    Reduced e m ∧ m.coeffs ≠ [] ∧ e.poly.coeffs.length < m.coeffs.length ∧
      Polynomial.Normalized e.poly := by
  obtain ⟨h1, q, hq⟩ := divmod_of_construct h
  obtain ⟨hm, hs⟩ := Polynomial.divmod_rem_short hq
  exact ⟨reduced_of_short h1 hs, hm, hs, (Polynomial.normalized_divmod hq).2⟩

theorem add_reduced {fuel : Nat} {a b e : FactorRingElement T}
    (h : add fuel a b = some (.ok e)) : Reduced e a.mod_poly := by
  unfold add at h
  split at h
  · simp at h
  · exact (construct_reduced h).1

theorem sub_reduced {fuel : Nat} {a b e : FactorRingElement T}
    (h : sub fuel a b = some (.ok e)) : Reduced e a.mod_poly := by
  unfold sub at h
  split at h
  · simp at h
  · exact (construct_reduced h).1

theorem mul_reduced {fuel : Nat} {a b e : FactorRingElement T}
    (h : mul fuel a b = some (.ok e)) : Reduced e a.mod_poly := by
  unfold mul at h
  split at h
  · simp at h
  · exact (construct_reduced h).1

theorem inv_reduced {fuel : Nat} {a e : FactorRingElement T}
    (h : inv fuel a = some (.ok e)) : Reduced e a.mod_poly := by
  unfold inv at h
  split at h
  · simp at h
  · simp at h
  · split at h
    · simp at h
    · exact (construct_reduced h).1

theorem div_reduced {fuel : Nat} {a b e : FactorRingElement T}
    (h : div fuel a b = some (.ok e)) : Reduced e a.mod_poly := by
  unfold div at h
  split at h
  · simp at h
  · split at h
    · simp at h
    · simp at h
    · exact mul_reduced h

theorem powLoop_reduced (fuel : Nat) (m : Polynomial T) :
    ∀ (rounds : Nat) (base result : FactorRingElement T) (k : Nat) (e : FactorRingElement T),
      Reduced result m → powLoop fuel rounds base result k = some (.ok e) → Reduced e m := by
  intro rounds
  induction rounds with
  | zero =>
    intro base result k e hr h
    simp only [powLoop, Option.some.injEq, Except.ok.injEq] at h
    rw [← h]; exact hr
  | succ n ih =>
    intro base result k e hr h
    unfold powLoop at h
    split at h
    · have step : ∀ res : FactorRingElement T, Reduced res m →
          (match mul fuel base base with
            | none => none
            | some (.error e) => some (.error e)
            | some (.ok base) => powLoop fuel n base res (k / 2)) = some (.ok e) →
          Reduced e m := by
        intro res hres hs
        split at hs
        · simp at hs
        · simp at hs
        · exact ih _ _ _ _ hres hs
      simp only at h
      split at h
      · split at h
        · simp at h
        · simp at h
        · rename_i r' hmul
          have := mul_reduced hmul
          rw [hr.1] at this
          exact step _ this h
      · exact step _ hr h
    · simp only [Option.some.injEq, Except.ok.injEq] at h
      rw [← h]; exact hr

theorem pow_reduced {fuel : Nat} {a e : FactorRingElement T} {k : Nat}
    (h : pow fuel a k = some (.ok e)) : Reduced e a.mod_poly := by
  unfold pow at h
  split at h
  · simp at h
  · simp at h
  · rename_i r hc
    exact powLoop_reduced fuel _ _ _ _ _ _ (construct_reduced hc).1 h

end FactorRingElement
end PolyCalc

namespace PolyCalc
namespace FactorRingElement

/-! ## Inversion over a constant modulus -/

variable {T : Type} [FieldScalar T] [DecidableEq T]

theorem const_zero_empty : (Polynomial.const (Scalar.ofInt 0 : T)) = ⟨[]⟩ := by
  unfold Polynomial.const Polynomial.normalize
  have : ([Scalar.ofInt 0] : List T) = [] ++ [Scalar.ofInt 0] := rfl
  rw [this, List.rdropWhile_concat]
  simp

theorem divmod_empty {m : Polynomial T} (hm : m.coeffs ≠ []) (n : Nat) :
    Polynomial.divmod (n + 1) (⟨[]⟩ : Polynomial T) m = some (.ok (⟨[]⟩, ⟨[]⟩)) := by
  unfold Polynomial.divmod
  have h1 : m.coeffs.isEmpty = false := by
    cases h : m.coeffs with
    | nil => exact absurd h hm
    | cons x xs => rfl
  have h2 : (max 0 ((⟨[]⟩ : Polynomial T).degree - m.degree + 1)).toNat = 0 := by
    rw [Polynomial.degree_eq_length, Polynomial.degree_eq_length]
    have : 0 < m.coeffs.length := List.length_pos.mpr hm
    simp only [List.length_nil]
    omega
  simp only [h1, h2, Bool.false_eq_true, if_false, List.replicate_zero]
  unfold Polynomial.divmodLoop
  have h3 : ¬ ((⟨[]⟩ : Polynomial T).degree ≥ m.degree ∧ (⟨[]⟩ : Polynomial T).degree ≥ 0) := by
    rw [Polynomial.degree_eq_length]
    simp
  simp only [h3, if_false]
  simp [Polynomial.normalize]

theorem inv_of_constant_modulus {a : FactorRingElement T} {c : T}
    (hm : a.mod_poly.coeffs = [c]) (ha : a.poly.coeffs = []) (n : Nat) :
    inv (n + 2) a = some (.ok a) := by
  obtain ⟨⟨pl⟩, m⟩ := a
  simp only at hm ha
  subst ha
  have hmne : m.coeffs ≠ [] := by rw [hm]; simp
  have hdeg : m.degree = 0 := by rw [Polynomial.degree_eq_length, hm]; simp
  have hdeg' : ¬ (m.degree < 0) := by omega
  have he : (⟨[]⟩ : Polynomial T).degree < 0 := by
    rw [Polynomial.degree_eq_length]; simp
  have hg : extended_gcd (n + 2) (⟨[]⟩ : Polynomial T) m
      = some (.ok (m, Polynomial.const (Scalar.ofInt 0),
          Polynomial.sub (Polynomial.const (Scalar.ofInt 1))
            (Polynomial.mul ⟨[]⟩ (Polynomial.const (Scalar.ofInt 0))))) := by
    rw [extended_gcd]
    simp only [hdeg', if_false, divmod_empty hmne]
    rw [extended_gcd]
    simp only [he, if_true]
  unfold inv
  simp only [hg, hdeg, ne_eq, not_true_eq_false, if_false]
  rw [const_zero_empty]
  have hmul : ∀ g : Polynomial T, Polynomial.mul (⟨[]⟩ : Polynomial T) g = ⟨[]⟩ := by
    intro g
    simp [Polynomial.mul, Polynomial.empty]
  rw [hmul]
  exact construct_of_divmod (divmod_empty hmne (n + 1))

end FactorRingElement
end PolyCalc

namespace PolyCalc
namespace Polynomial

/-! ## The rendering loop -/

theorem intercalate_go_concat (s : String) (l : List String) :
    ∀ (acc t : String), String.intercalate.go acc s (l ++ [t])
      = String.intercalate.go acc s l ++ s ++ t := by
  induction l with
  | nil => intro acc t; simp [String.intercalate.go]
  | cons a as ih => intro acc t; simp [String.intercalate.go, ih]

theorem intercalate_concat (s : String) (l : List String) (t : String) :
    s.intercalate (l ++ [t]) = if l = [] then t else s.intercalate l ++ s ++ t := by
  cases l with
  | nil => simp [String.intercalate, String.intercalate.go]
  | cons a as =>
    simp only [List.cons_append, String.intercalate, intercalate_go_concat]
    simp

variable {T : Type} [Scalar T] [DecidableEq T] [ToString T]

theorem renderStep_zero (f : Polynomial T) (st : Bool × String) (i : Nat)
    (h : f.coeffs.getD i (Scalar.ofInt 0) = Scalar.ofInt 0) : renderStep f st i = st := by
  unfold renderStep
  generalize f.coeffs.getD i (Scalar.ofInt 0) = c at h
  simp [h]

theorem renderStep_nonzero (f : Polynomial T) (st : Bool × String) (i : Nat)
    (h : f.coeffs.getD i (Scalar.ofInt 0) ≠ Scalar.ofInt 0) :
    renderStep f st i
      = (false, (if st.1 then st.2 else st.2 ++ " + ")
          ++ termText i (f.coeffs.getD i (Scalar.ofInt 0))) := by
  have hx : "x" ++ "^" = "x^" := by decide
  obtain ⟨first, os⟩ := st
  unfold renderStep termText
  generalize f.coeffs.getD i (Scalar.ofInt 0) = c at h
  simp only [h, if_false]
  congr 1
  by_cases h0 : i = 0
  · cases first <;> simp [h0]
  · by_cases h1 : i = 1
    · by_cases hc : c = Scalar.ofInt 1
      · cases first <;> simp [h1, hc, String.append_assoc]
      · cases first <;> simp [h1, hc, String.append_assoc]
    · have hgt : i > 1 := by omega
      have e1 : ∀ s : String, " + x^" ++ s = " + " ++ ("x^" ++ s) := fun s => by
        rw [← String.append_assoc]
        exact congrArg (· ++ s) (by decide)
      have e2 : ∀ s : String, "*x^" ++ s = "*" ++ ("x^" ++ s) := fun s => by
        rw [← String.append_assoc]
        exact congrArg (· ++ s) (by decide)
      by_cases hc : c = Scalar.ofInt 1
      · cases first <;> simp [h0, h1, hgt, hc, String.append_assoc, ← hx]
        rw [e1]
      · cases first <;> simp [h0, h1, hgt, hc, String.append_assoc, ← hx] <;> rw [e2]

theorem renderStep_none (f : Polynomial T) (st : Bool × String) (i : Nat)
    (h : termOf f i = none) : renderStep f st i = st := by
  apply renderStep_zero
  by_contra hc
  unfold termOf at h
  simp only [hc, if_false] at h
  cases h

theorem renderStep_some (f : Polynomial T) (st : Bool × String) (i : Nat) (t : String)
    (h : termOf f i = some t) :
    renderStep f st i = (false, (if st.1 then st.2 else st.2 ++ " + ") ++ t) := by
  have hc : f.coeffs.getD i (Scalar.ofInt 0) ≠ Scalar.ofInt 0 := by
    intro hc
    unfold termOf at h
    simp only [hc, if_true] at h
    cases h
  rw [renderStep_nonzero f st i hc]
  unfold termOf at h
  simp only [hc, if_false, Option.some.injEq] at h
  rw [h]

theorem render_loop (f : Polynomial T) (is : List Nat) :
    ∀ ts : List String,
      is.foldl (renderStep f) (decide (ts = []), " + ".intercalate ts)
        = (decide (ts ++ is.filterMap (termOf f) = []),
            " + ".intercalate (ts ++ is.filterMap (termOf f))) := by
  induction is with
  | nil => intro ts; simp
  | cons i is ih =>
    intro ts
    rw [List.foldl_cons]
    cases h : termOf f i with
    | none =>
      rw [renderStep_none f _ i h, ih ts, List.filterMap_cons_none h]
    | some t =>
      rw [renderStep_some f _ i t h]
      have e : (false, (if (decide (ts = []), " + ".intercalate ts).1 = true
            then (decide (ts = []), " + ".intercalate ts).2
            else (decide (ts = []), " + ".intercalate ts).2 ++ " + ") ++ t)
          = (decide (ts ++ [t] = []), " + ".intercalate (ts ++ [t])) := by
        rw [intercalate_concat]
        by_cases hts : ts = []
        · simp [hts, String.intercalate]
        · simp [hts]
      rw [e, ih, List.filterMap_cons_some h, List.append_assoc]
      rfl

theorem render_eq_renderSpec (f : Polynomial T) : render f = renderSpec f := by
  unfold render renderSpec
  by_cases h : f.coeffs = []
  · simp [h, termTexts]
  · have hne : f.coeffs.isEmpty = false := by
      cases hc : f.coeffs with
      | nil => exact absurd hc h
      | cons x xs => rfl
    have hn : (f.degree + 1).toNat = f.coeffs.length := by
      unfold degree
      simp only [hne, Bool.false_eq_true, if_false]
      omega
    have key := render_loop f (List.range f.coeffs.length).reverse []
    have e0 : ((decide (([] : List String) = []), " + ".intercalate []) : Bool × String)
        = (true, "") := rfl
    rw [e0, List.nil_append] at key
    simp only [hne, Bool.false_eq_true, if_false, hn, key]
    unfold termTexts
    by_cases ht : (List.range f.coeffs.length).reverse.filterMap (termOf f) = []
    · simp only [ht, decide_True, if_true]
      rfl
    · simp only [ht, decide_False, if_false, Bool.false_eq_true]

theorem termTexts_ne_nil (f : Polynomial T) (hne : f.coeffs ≠ []) (hn : Normalized f) :
    termTexts f ≠ [] := by
  have hpos : 0 < f.coeffs.length := List.length_pos.mpr hne
  have hlast : f.coeffs.getD (f.coeffs.length - 1) (Scalar.ofInt 0) ≠ Scalar.ofInt 0 := by
    intro h0
    apply hn
    rw [List.getLast?_eq_getElem?]
    rw [List.getD_eq_getElem?_getD, List.getElem?_eq_getElem (by omega)] at h0
    rw [List.getElem?_eq_getElem (by omega)]
    simpa using h0
  have hsome : termOf f (f.coeffs.length - 1)
      = some (termText (f.coeffs.length - 1)
          (f.coeffs.getD (f.coeffs.length - 1) (Scalar.ofInt 0))) := by
    unfold termOf
    simp only [hlast, if_false]
  intro h
  unfold termTexts at h
  rw [List.filterMap_eq_nil_iff] at h
  have := h (f.coeffs.length - 1) (by simp; omega)
  rw [hsome] at this
  cases this

end Polynomial
end PolyCalc

namespace PolyCalc
namespace Polynomial

/-! ## Horner's rule -/

theorem foldr_range_getD {α β : Type} (g : α → β → β) (z : α) (b : β) (l : List α) :
    (List.range l.length).foldr (fun i r => g (l.getD i z) r) b = l.foldr g b := by
  induction l with
  | nil => rfl
  | cons a as ih =>
    rw [List.length_cons, List.range_succ_eq_map, List.foldr_cons, List.foldr_map]
    simp only [List.getD_cons_zero, List.getD_cons_succ, List.foldr_cons]
    rw [ih]

theorem evaluate_eq_foldr {T : Type} [Scalar T] (f : Polynomial T) (x : T) :
    evaluate f x = f.coeffs.foldr (fun c acc => acc * x + c) (Scalar.ofInt 0) := by
  unfold evaluate
  have hn : (f.degree + 1).toNat = f.coeffs.length := by
    rw [degree_eq_length]; omega
  rw [hn, List.foldl_reverse]
  exact foldr_range_getD (fun c acc => acc * x + c) (Scalar.ofInt 0) (Scalar.ofInt 0) f.coeffs

theorem horner_sum {R : Type} [CommRing R] (l : List R) (x : R) :
    l.foldr (fun c acc => acc * x + c) 0
      = ∑ i ∈ Finset.range l.length, l.getD i 0 * x ^ i := by
  induction l with
  | nil => simp
  | cons a as ih =>
    rw [List.foldr_cons, ih, List.length_cons, Finset.sum_range_succ', Finset.sum_mul]
    simp only [List.getD_cons_zero, List.getD_cons_succ, pow_zero, mul_one, pow_succ]
    congr 1
    apply Finset.sum_congr rfl
    intro i _
    ring

theorem evaluate_ofCommRing (R : Type) [CommRing R] [Div R] (f : Polynomial R) (x : R) :
    @evaluate R (Scalar.ofCommRing R) f x
      = ∑ i ∈ Finset.range f.coeffs.length, f.coeffs.getD i 0 * x ^ i := by
  rw [@evaluate_eq_foldr R (Scalar.ofCommRing R) f x]
  have h0 : (@Scalar.ofInt R (Scalar.ofCommRing R) 0) = 0 := by
    simp [Scalar.ofCommRing]
  rw [h0]
  exact horner_sum f.coeffs x

theorem horner_modInt {M : Int} (h1 : 1 ≤ M) (h2 : M ≤ 1073741824) (x : ModInt M)
    (hx : ModInt.Valid x) (l : List (ModInt M)) (hl : ValidL l) :
    ModInt.Valid (l.foldr (fun c acc => acc * x + c) ⟨0⟩) ∧
    (l.foldr (fun c acc => acc * x + c) ⟨0⟩).value
      = (∑ i ∈ Finset.range l.length, (l.getD i ⟨0⟩).value * x.value ^ i) % M := by
  induction l with
  | nil => exact ⟨valid_zero (by omega), by simp⟩
  | cons a as ih =>
    obtain ⟨hv, he⟩ := ih (fun c hc => hl c (List.mem_cons_of_mem _ hc))
    have ha : ModInt.Valid a := hl a (List.mem_cons_self _ _)
    have hm : ModInt.Valid (ModInt.mul (as.foldr (fun c acc => acc * x + c) ⟨0⟩) x) :=
      ModInt.mul_valid hv hx (by omega)
    have hf : (ModInt.mul (as.foldr (fun c acc => acc * x + c) ⟨0⟩) x).value + a.value
        < 2147483648 := by
      have := hm.2
      have := ha.2
      omega
    rw [List.foldr_cons]
    refine ⟨ModInt.add_valid hm ha hf, ?_⟩
    show (ModInt.add (ModInt.mul (as.foldr (fun c acc => acc * x + c) ⟨0⟩) x) a).value = _
    rw [ModInt.add_value hm ha hf, ModInt.mul_value hv hx (by omega), he, List.length_cons,
      Finset.sum_range_succ']
    simp only [List.getD_cons_zero, List.getD_cons_succ, pow_zero, mul_one, pow_succ]
    rw [Int.emod_add_emod]
    have hS : ∑ i ∈ Finset.range as.length, (as.getD i ⟨0⟩).value * (x.value ^ i * x.value)
        = (∑ i ∈ Finset.range as.length, (as.getD i ⟨0⟩).value * x.value ^ i) * x.value := by
      rw [Finset.sum_mul]
      apply Finset.sum_congr rfl
      intro i _
      ring
    rw [hS]
    exact ((Int.mod_modEq _ M).mul_right x.value).add_right a.value

end Polynomial
end PolyCalc

namespace PolyCalc

/-! ## Length and coefficients of a product -/

variable {p : Nat}

theorem Polynomial.get_natCast {T : Type} [Scalar T] (f : Polynomial T) (k : Nat) :
    Polynomial.get f (k : Int) = f.coeffs.getD k (Scalar.ofInt 0) := by
  unfold Polynomial.get
  by_cases h : k < f.coeffs.length
  · have : ¬ ((k : Int) < 0 ∨ (k : Int) ≥ (f.coeffs.length : Int)) := by omega
    simp only [this, if_false, Int.toNat_ofNat]
  · have : ((k : Int) < 0 ∨ (k : Int) ≥ (f.coeffs.length : Int)) := by omega
    simp only [this, if_true]
    rw [List.getD_eq_default _ _ (by omega)]

theorem Polynomial.mul_empty_left {T : Type} [Scalar T] [DecidableEq T] (f g : Polynomial T)
    (h : f.coeffs = [] ∨ g.coeffs = []) : Polynomial.mul f g = ⟨[]⟩ := by
  unfold Polynomial.mul
  rcases h with h | h <;> simp [h, Polynomial.empty]

theorem Polynomial.mul_length (hp : p.Prime) (hM : (p : Int) ≤ 2147483648)
    {f g : Polynomial (ModInt (p : Int))} (hf : Polynomial.WF f) (hg : Polynomial.WF g)
    (hfe : f.coeffs ≠ []) (hge : g.coeffs ≠ []) :
    (Polynomial.mul f g).coeffs = Polynomial.mulLoop f.coeffs g.coeffs ∧
    (Polynomial.mul f g).coeffs.length = f.coeffs.length + g.coeffs.length - 1 := by
  haveI := Fact.mk hp
  have hpos : (0 : Int) < p := by exact_mod_cast hp.pos
  have hmul : Polynomial.mul f g = Polynomial.ofCoeffs (Polynomial.mulLoop f.coeffs g.coeffs) := by
    unfold Polynomial.mul
    simp [Polynomial.isEmpty_eq_false hfe, Polynomial.isEmpty_eq_false hge]
  obtain ⟨l1, l2⟩ := mulLoop_last hpos hM hfe hge
  have hla := List.length_pos.mpr hfe
  have hlb := List.length_pos.mpr hge
  set L := Polynomial.mulLoop f.coeffs g.coeffs with hL
  have hLne : L ≠ [] := by
    intro h0; rw [h0] at l1; simp at l1; omega
  have hfl : ModInt.Valid (f.coeffs.getLast hfe) := hf.1.getLast hfe
  have hgl : ModInt.Valid (g.coeffs.getLast hge) := hg.1.getLast hge
  have hlast : L.getLast hLne = ModInt.mul (f.coeffs.getLast hfe) (g.coeffs.getLast hge) := by
    rw [getLast_eq_getD L hLne ⟨0⟩, l1, l2, ← getLast_eq_getD _ hfe, ← getLast_eq_getD _ hge]
  have hprod0 : ModInt.mul (f.coeffs.getLast hfe) (g.coeffs.getLast hge) ≠ ⟨0⟩ := by
    intro h0
    have hz := ModInt.toZ_mul hfl hgl hM
    rw [h0, toZ_zero] at hz
    rcases mul_eq_zero.mp hz.symm with h | h
    · exact hf.2.last_ne hfe ((ModInt.toZ_eq_zero_iff hfl).mp h)
    · exact hg.2.last_ne hge ((ModInt.toZ_eq_zero_iff hgl).mp h)
  have hLn : NormalizedL L := by
    rw [normalizedL_iff]
    intro hl
    rw [hlast]
    exact hprod0
  have hcoeffs : (Polynomial.mul f g).coeffs = L := by
    rw [hmul]
    unfold Polynomial.ofCoeffs
    rw [normalize_coeffs, rdropWhile_of_normalizedL hLn]
  exact ⟨hcoeffs, by rw [hcoeffs, l1]⟩

theorem value_of_toZ_eq {a : ModInt (p : Int)} (ha : ModInt.Valid a) {s : Int}
    (h : ModInt.toZ a = (s : ZMod p)) : a.value = s % (p : Int) := by
  unfold ModInt.toZ at h
  rw [ZMod.intCast_eq_intCast_iff] at h
  have := Int.ModEq.eq h
  rw [← this, Int.emod_eq_of_lt ha.1 ha.2]

theorem Polynomial.mul_coeff (hp : 0 < p) (hM : (p : Int) ≤ 1073741824)
    {f g : Polynomial (ModInt (p : Int))} (hf : Polynomial.WF f) (hg : Polynomial.WF g)
    (k : Nat) :
    ModInt.Valid ((Polynomial.mul f g).coeffs.getD k ⟨0⟩) ∧
    ((Polynomial.mul f g).coeffs.getD k ⟨0⟩).value
      = (∑ ij ∈ Finset.antidiagonal k,
          (f.coeffs.getD ij.1 ⟨0⟩).value * (g.coeffs.getD ij.2 ⟨0⟩).value) % (p : Int) := by
  obtain ⟨hw, he⟩ := Polynomial.mul_spec hp hM hf.1 hg.1
  have hv : ModInt.Valid ((Polynomial.mul f g).coeffs.getD k ⟨0⟩) :=
    hw.1.getD (by exact_mod_cast hp) k
  refine ⟨hv, value_of_toZ_eq hv ?_⟩
  have hc := congrArg (fun P => P.coeff k) he
  simp only [Polynomial.toPoly, coeff_toPolyL, Polynomial.coeff_mul] at hc
  rw [hc]
  push_cast
  rfl

end PolyCalc

namespace PolyCalc

/-! ## The gcd computed by `extended_gcd`, and when `inv` returns -/

section GcdAll
variable {p : Nat}

theorem FactorRingElement.extended_gcd_gcd (hp : p.Prime) (hM : (p : Int) ≤ 2147483648)
    (fuel : Nat) :
    ∀ (a b : Polynomial (ModInt (p : Int))), Polynomial.WF a → Polynomial.WF b →
      max a.coeffs.length b.coeffs.length + b.coeffs.length + 2 ≤ fuel →
      ∃ g x y, FactorRingElement.extended_gcd fuel a b = some (.ok (g, x, y)) ∧
        Polynomial.WF g ∧
        Polynomial.toPoly g ∣ Polynomial.toPoly a ∧
        Polynomial.toPoly g ∣ Polynomial.toPoly b ∧
        ∀ d : FpPoly p, d ∣ Polynomial.toPoly a → d ∣ Polynomial.toPoly b →
          d ∣ Polynomial.toPoly g := by
  induction fuel with
  | zero => intro a b _ _ h; omega
  | succ fuel ih =>
    intro a b ha hb hfuel
    rw [FactorRingElement.extended_gcd]
    by_cases hbe : b.coeffs = []
    · rw [if_pos ((Polynomial.degree_neg_iff b).mpr hbe)]
      refine ⟨a, _, _, rfl, ha, dvd_refl _, ?_, fun d h _ => h⟩
      have : Polynomial.toPoly b = 0 := by
        unfold Polynomial.toPoly; rw [hbe]; rfl
      rw [this]
      exact dvd_zero _
    · rw [if_neg (fun h => hbe ((Polynomial.degree_neg_iff b).mp h))]
      obtain ⟨q, r, d1, d2, d3, d4, d5⟩ := Polynomial.divmod_ok hp hM ha hb hbe
      rw [d1 fuel (by omega)]
      simp only
      obtain ⟨g, x, y, e1, e2, e6, e7, e8⟩ := ih b r hb d3 (by
        have : max b.coeffs.length r.coeffs.length = b.coeffs.length := by omega
        omega)
      rw [e1]
      simp only
      refine ⟨g, y, _, rfl, e2, ?_, e6, ?_⟩
      · rw [← d4]
        exact dvd_add (Dvd.dvd.mul_right e6 _) e7
      · intro d hda hdb
        apply e8 d hdb
        have hr : Polynomial.toPoly r
            = Polynomial.toPoly a - Polynomial.toPoly b * Polynomial.toPoly q := by
          rw [← d4]; ring
        rw [hr]
        exact dvd_sub hda (Dvd.dvd.mul_right hdb _)

theorem normalizedL_of_normalized {M : Int} {f : Polynomial (ModInt M)}
    (h : Polynomial.Normalized f) : NormalizedL f.coeffs := by
  unfold Polynomial.Normalized at h
  rw [scalar_ofInt_zero] at h
  exact h

theorem Polynomial.mul_const_tame (hp : 0 < p) (hM : (p : Int) ≤ 2147483648)
    (x : Polynomial (ModInt (p : Int))) (c : ModInt (p : Int)) :
    ∀ y ∈ (Polynomial.mul x (Polynomial.const c)).coeffs, ModInt.Tame y := by
  have hpos : (0 : Int) < p := by exact_mod_cast hp
  by_cases hxe : x.coeffs = []
  · rw [Polynomial.mul_empty_left x _ (Or.inl hxe)]
    intro y hy; simp at hy
  by_cases hc0 : c = ⟨0⟩
  · have : (Polynomial.const c).coeffs = [] := by
      rw [hc0]
      unfold Polynomial.const
      rw [normalize_coeffs]
      have : ([⟨0⟩] : List (ModInt (p : Int))) = [] ++ [⟨0⟩] := rfl
      rw [this, List.rdropWhile_concat]
      simp
    rw [Polynomial.mul_empty_left x _ (Or.inr this)]
    intro y hy; simp at hy
  have hconst : (Polynomial.const c).coeffs = [c] := by
    unfold Polynomial.const
    rw [normalize_coeffs]
    have : ([c] : List (ModInt (p : Int))) = [] ++ [c] := rfl
    rw [this, List.rdropWhile_concat]
    simp [hc0]
  have hmul : (Polynomial.mul x (Polynomial.const c)).coeffs
      = (Polynomial.mulLoop x.coeffs [c]).rdropWhile (fun c => decide (c = ⟨0⟩)) := by
    unfold Polynomial.mul
    rw [Polynomial.isEmpty_eq_false hxe, hconst]
    simp only [List.isEmpty_cons, Bool.or_self, Bool.false_eq_true, if_false]
    unfold Polynomial.ofCoeffs
    rw [normalize_coeffs]
  have hget := mulLoop_monomial_getElem? (a := x.coeffs) (b := [c]) (d := 0) (c := c) hpos hM
    rfl (fun j hj => absurd hj (Nat.not_lt_zero j)) rfl x.coeffs.length le_rfl
  have hdef : Polynomial.mulLoop x.coeffs [c] = (List.range x.coeffs.length).foldl
      (fun result i => (List.range ([c] : List (ModInt (p : Int))).length).foldl
        (fun result j => result.set (i + j)
          (result.getD (i + j) ⟨0⟩ + x.coeffs.getD i ⟨0⟩ * ([c] : List _).getD j ⟨0⟩)) result)
      (List.replicate (x.coeffs.length + ([c] : List (ModInt (p : Int))).length - 1) ⟨0⟩) := by
    unfold Polynomial.mulLoop
    simp only [scalar_ofInt_zero]
  intro y hy
  rw [hmul] at hy
  have hy' : y ∈ Polynomial.mulLoop x.coeffs [c] :=
    ( List.rdropWhile_prefix _ (Polynomial.mulLoop x.coeffs [c])).subset hy
  rw [hdef] at hy'
  obtain ⟨m, hm⟩ := List.getElem?_of_mem hy'
  rw [hget m] at hm
  by_cases hlt : m < x.coeffs.length + 0
  · simp only [hlt, if_true, Option.some.injEq] at hm
    subst hm
    have hs : ∀ a b : ModInt (p : Int), ModInt.Tame (ModInt.mul a b) := by
      intro a b
      unfold ModInt.Tame
      rw [ModInt.mul_value_raw hpos hM]
      have := tmod_abs_lt (a.value * b.value) hpos
      constructor <;> omega
    split
    · exact hs _ _
    · exact ⟨by simp; omega, by simp⟩
  · rw [if_neg hlt] at hm
    cases hm

end GcdAll
end PolyCalc

namespace PolyCalc
namespace FactorRingElement

section InvAll
variable {p : Nat}

theorem divmod_mul_const_returns (hp : p.Prime) (hM : (p : Int) ≤ 2147483648)
    {m : Polynomial (ModInt (p : Int))} (hm : Polynomial.WF m) (hmne : m.coeffs ≠ [])
    (x : Polynomial (ModInt (p : Int))) (c : ModInt (p : Int))
    (hx : (p : Int) ≤ 1073741824 → Polynomial.WF x) (hc : ModInt.Valid c) (fuel : Nat)
    (hfuel : (Polynomial.mul x (Polynomial.const c)).coeffs.length < fuel) :
    ∃ q r, Polynomial.divmod fuel (Polynomial.mul x (Polynomial.const c)) m
      = some (.ok (q, r)) := by
  by_cases hsmall : (p : Int) ≤ 1073741824
  · obtain ⟨k1, -⟩ := Polynomial.const_spec hc
    obtain ⟨w, -⟩ := Polynomial.mul_spec hp.pos hsmall (hx hsmall).1 k1.1
      (f := x) (g := Polynomial.const c)
    obtain ⟨q, r, h1, -⟩ := Polynomial.divmod_ok hp hM w hm hmne
    exact ⟨q, r, h1 fuel hfuel⟩
  · have ht := Polynomial.mul_const_tame hp.pos hM x c
    obtain ⟨q, r, h⟩ := divmodLoop_tame hp (by omega) hM hm hmne fuel
      (Polynomial.mul x (Polynomial.const c))
      ⟨List.replicate (max 0 ((Polynomial.mul x (Polynomial.const c)).degree
        - m.degree + 1)).toNat (Scalar.ofInt 0)⟩
      (normalizedL_of_normalized (Polynomial.normalized_mul _ _))
      (fun h => ⟨ht _ (List.getLast_mem h), Or.inr ht⟩) hfuel
    refine ⟨q, r, ?_⟩
    unfold Polynomial.divmod
    rw [Polynomial.isEmpty_eq_false hmne]
    simp only [Bool.false_eq_true, if_false]
    rw [h]
    rfl

theorem inv_cases (hp : p.Prime) (hM : (p : Int) ≤ 2147483648)
    {a m : Polynomial (ModInt (p : Int))} (ha : Polynomial.WF a) (hm : Polynomial.WF m)
    (hmne : m.coeffs ≠ []) :
    ∃ g : Polynomial (ModInt (p : Int)), Polynomial.WF g ∧
      Polynomial.toPoly g ∣ Polynomial.toPoly a ∧ Polynomial.toPoly g ∣ Polynomial.toPoly m ∧
      (∀ d : FpPoly p, d ∣ Polynomial.toPoly a → d ∣ Polynomial.toPoly m →
        d ∣ Polynomial.toPoly g) ∧
      ∃ N, ∀ fuel, N ≤ fuel →
        (g.degree ≠ 0 ∧ inv fuel ⟨a, m⟩ = some (.error .noInverse)) ∨
        (g.degree = 0 ∧ ∃ e, inv fuel ⟨a, m⟩ = some (.ok e)) := by
  have hpos : (0 : Int) < p := by exact_mod_cast hp.pos
  obtain ⟨g, x, y, e1, e2, e3, e4, e5⟩ :=
    extended_gcd_gcd hp hM _ a m ha hm (le_refl (max a.coeffs.length m.coeffs.length
      + m.coeffs.length + 2))
  refine ⟨g, e2, e3, e4, e5, ?_⟩
  by_cases hdeg : g.degree ≠ 0
  · refine ⟨max a.coeffs.length m.coeffs.length + m.coeffs.length + 2, ?_⟩
    intro fuel hfuel
    left
    refine ⟨hdeg, ?_⟩
    unfold inv
    simp only
    rw [extended_gcd_mono hfuel e1]
    simp only
    rw [if_pos hdeg]
  · have hlen : g.coeffs.length = 1 := (degree_eq_zero_iff g).mp (not_not.mp hdeg)
    set c := g.coeffs.getD 0 (Scalar.ofInt 0) with hc
    have hgc : g.coeffs = [c] := getD_zero_of_length_one hlen _
    have hcv : ModInt.Valid c := e2.1 c (by rw [hgc]; exact List.mem_singleton_self c)
    have hiv : ModInt.Valid (ModInt.inv c) := ModInt.inv_valid hp.pos hM hcv
    have hxw : (p : Int) ≤ 1073741824 → Polynomial.WF x := by
      intro hs
      obtain ⟨g', x', y', f1, -, f3, -⟩ :=
        extended_gcd_spec hp hs _ a m ha hm (le_refl (max a.coeffs.length m.coeffs.length
          + m.coeffs.length + 2))
      rw [e1] at f1
      simp only [Option.some.injEq, Except.ok.injEq, Prod.mk.injEq] at f1
      rw [f1.2.1]
      exact f3
    refine ⟨max (max a.coeffs.length m.coeffs.length + m.coeffs.length + 2)
      ((Polynomial.mul x (Polynomial.const (ModInt.inv c))).coeffs.length + 1), ?_⟩
    intro fuel hfuel
    right
    refine ⟨not_not.mp hdeg, ?_⟩
    obtain ⟨q, r, h⟩ := divmod_mul_const_returns hp hM hm hmne x (ModInt.inv c) hxw hiv fuel
      (by have := le_trans (le_max_right _ _) hfuel; omega)
    refine ⟨⟨r, m⟩, ?_⟩
    unfold inv
    simp only
    rw [extended_gcd_mono (le_trans (le_max_left _ _) hfuel) e1]
    simp only
    rw [if_neg hdeg]
    exact construct_of_divmod h

end InvAll
end FactorRingElement
end PolyCalc

namespace PolyCalc

/-! ## Divisors of a modulus that `is_irreducible` accepts -/

section IrreducibleModulus
variable {p : Nat}

theorem exists_wf [Fact p.Prime] (G : FpPoly p) :
    ∃ g : Polynomial (ModInt (p : Int)), Polynomial.WF g ∧ Polynomial.toPoly g = G := by
  have hp : p.Prime := Fact.out
  haveI : NeZero p := ⟨hp.ne_zero⟩
  by_cases hG : G = 0
  · exact ⟨⟨[]⟩, Polynomial.wf_empty, by rw [hG]; rfl⟩
  have hv : ValidL ((List.range (G.natDegree + 1)).map
      (fun i => (⟨((G.coeff i).val : Int)⟩ : ModInt (p : Int)))) := by
    intro x hx
    obtain ⟨i, _, rfl⟩ := List.mem_map.mp hx
    constructor
    · exact Int.natCast_nonneg _
    · show ((G.coeff i).val : Int) < (p : Int)
      exact_mod_cast ZMod.val_lt _
  have hpoly : toPolyL ((List.range (G.natDegree + 1)).map
      (fun i => (⟨((G.coeff i).val : Int)⟩ : ModInt (p : Int)))) = G := by
    ext k
    rw [coeff_toPolyL, List.getD_eq_getElem?_getD]
    by_cases hk : k < G.natDegree + 1
    · simp [hk, ModInt.toZ]
    · have hz : G.coeff k = 0 := Polynomial.coeff_eq_zero_of_natDegree_lt (by omega)
      have h3 : ((List.range (G.natDegree + 1)).map
          (fun i => (⟨((G.coeff i).val : Int)⟩ : ModInt (p : Int))))[k]? = none :=
        List.getElem?_eq_none (by simp; omega)
      rw [h3, hz]
      exact toZ_zero
  refine ⟨Polynomial.ofCoeffs ((List.range (G.natDegree + 1)).map
      (fun i => (⟨((G.coeff i).val : Int)⟩ : ModInt (p : Int)))), Polynomial.ofCoeffs_wf hv, ?_⟩
  rw [Polynomial.toPoly_ofCoeffs, hpoly]

theorem degree_eq_natDegree {g : Polynomial (ModInt (p : Int))} (hg : Polynomial.WF g)
    (h0 : Polynomial.toPoly g ≠ 0) :
    g.coeffs ≠ [] ∧ g.degree = ((Polynomial.toPoly g).natDegree : Int) := by
  have hne : g.coeffs ≠ [] := by
    intro h
    apply h0
    unfold Polynomial.toPoly
    rw [h]
    rfl
  exact ⟨hne, (Polynomial.degree_eq hg hne).1⟩

/-- A divisor of a modulus without proper factorisation is a constant or has the degree of
the modulus. -/
theorem divisor_of_irreducible [Fact p.Prime] {f g : Polynomial (ModInt (p : Int))}
    (hf : Polynomial.WF f) (hg : Polynomial.WF g) (hf1 : 1 ≤ f.degree)
    (hirr : ¬ ∃ g h : Polynomial (ModInt (p : Int)), Polynomial.WF g ∧ Polynomial.WF h ∧
      1 ≤ g.degree ∧ 1 ≤ h.degree ∧
      Polynomial.toPoly g * Polynomial.toPoly h = Polynomial.toPoly f)
    (hdvd : Polynomial.toPoly g ∣ Polynomial.toPoly f) :
    Polynomial.toPoly g ≠ 0 ∧
      (g.degree = 0 ∨ (Polynomial.toPoly g).natDegree = (Polynomial.toPoly f).natDegree) := by
  have hfne : f.coeffs ≠ [] := by
    intro h
    rw [Polynomial.degree_empty h] at hf1
    omega
  obtain ⟨hfd, hf0⟩ := Polynomial.degree_eq hf hfne
  have hg0 : Polynomial.toPoly g ≠ 0 := by
    intro h
    rw [h] at hdvd
    exact hf0 (zero_dvd_iff.mp hdvd)
  refine ⟨hg0, ?_⟩
  obtain ⟨hgne, hgd⟩ := degree_eq_natDegree hg hg0
  obtain ⟨H, hH⟩ := hdvd
  have hH0 : H ≠ 0 := by
    intro h
    rw [h, mul_zero] at hH
    exact hf0 hH
  have hdegs : (Polynomial.toPoly f).natDegree
      = (Polynomial.toPoly g).natDegree + H.natDegree := by
    rw [hH]
    exact Polynomial.natDegree_mul hg0 hH0
  by_cases hg1 : 1 ≤ g.degree
  · right
    by_contra hne
    have hH1 : 1 ≤ H.natDegree := by omega
    obtain ⟨h, hw, hh⟩ := exists_wf H
    have hh0 : Polynomial.toPoly h ≠ 0 := by rw [hh]; exact hH0
    obtain ⟨-, hhd⟩ := degree_eq_natDegree hw hh0
    apply hirr
    refine ⟨g, h, hg, hw, hg1, ?_, ?_⟩
    · rw [hhd, hh]
      exact_mod_cast hH1
    · rw [hh, ← hH]
  · left
    have : (0 : Int) ≤ ((Polynomial.toPoly g).natDegree : Int) := Int.natCast_nonneg _
    omega

end IrreducibleModulus
end PolyCalc

namespace PolyCalc
namespace FactorRingElement

/-! ## Division and powers in the factor ring return -/

section DivPow
variable {p : Nat}

theorem mul_ok (hp : p.Prime) (hM : (p : Int) ≤ 1073741824)
    {a b m : Polynomial (ModInt (p : Int))} (ha : Polynomial.WF a) (hb : Polynomial.WF b)
    (hm : Polynomial.WF m) (hmne : m.coeffs ≠ []) (hal : a.coeffs.length < m.coeffs.length)
    (hbl : b.coeffs.length < m.coeffs.length) (fuel : Nat)
    (hfuel : 2 * m.coeffs.length ≤ fuel) :
    ∃ r, mul fuel ⟨a, m⟩ ⟨b, m⟩ = some (.ok ⟨r, m⟩) ∧ Polynomial.WF r ∧
      r.coeffs.length < m.coeffs.length := by
  have hM' : (p : Int) ≤ 2147483648 := by omega
  obtain ⟨w, -⟩ := Polynomial.mul_spec hp.pos hM ha.1 hb.1
  obtain ⟨r, r1, r2, r3, -⟩ := construct_ok hp hM' w hm hmne
  have hlen : (Polynomial.mul a b).coeffs.length < fuel := by
    by_cases hae : a.coeffs = []
    · rw [Polynomial.mul_empty_left a b (Or.inl hae)]
      have := List.length_pos.mpr hmne
      simp only [List.length_nil]
      omega
    by_cases hbe : b.coeffs = []
    · rw [Polynomial.mul_empty_left a b (Or.inr hbe)]
      have := List.length_pos.mpr hmne
      simp only [List.length_nil]
      omega
    rw [(Polynomial.mul_length hp hM' ha hb hae hbe).2]
    omega
  refine ⟨r, ?_, r2, r3⟩
  unfold mul
  simp only [ne_eq, not_true_eq_false, if_false]
  exact r1 fuel hlen

theorem powLoop_ok (hp : p.Prime) (hM : (p : Int) ≤ 1073741824)
    {m : Polynomial (ModInt (p : Int))} (hm : Polynomial.WF m) (hmne : m.coeffs ≠ [])
    (fuel : Nat) (hfuel : 2 * m.coeffs.length ≤ fuel) :
    ∀ (rounds : Nat) (base result : Polynomial (ModInt (p : Int))) (k : Nat),
      Polynomial.WF base → base.coeffs.length < m.coeffs.length →
      Polynomial.WF result → result.coeffs.length < m.coeffs.length →
      ∃ e, powLoop fuel rounds ⟨base, m⟩ ⟨result, m⟩ k = some (.ok e) := by
  intro rounds
  induction rounds with
  | zero => intro base result k _ _ _ _; exact ⟨_, rfl⟩
  | succ n ih =>
    intro base result k hb hbl hr hrl
    unfold powLoop
    by_cases hk : k ≠ 0
    · rw [if_pos hk]
      obtain ⟨b2, hb2, wb2, lb2⟩ := mul_ok hp hM hb hb hm hmne hbl hbl fuel hfuel
      simp only
      by_cases hodd : k % 2 = 1
      · rw [if_pos hodd]
        obtain ⟨r2, hr2, wr2, lr2⟩ := mul_ok hp hM hr hb hm hmne hrl hbl fuel hfuel
        rw [hr2]
        simp only
        rw [hb2]
        simp only
        exact ih b2 r2 (k / 2) wb2 lb2 wr2 lr2
      · rw [if_neg hodd, hb2]
        simp only
        exact ih b2 result (k / 2) wb2 lb2 hr hrl
    · rw [if_neg hk]
      exact ⟨_, rfl⟩

theorem pow_ok (hp : p.Prime) (hM : (p : Int) ≤ 1073741824)
    {a m : Polynomial (ModInt (p : Int))} (ha : Polynomial.WF a) (hm : Polynomial.WF m)
    (hmne : m.coeffs ≠ []) (hal : a.coeffs.length < m.coeffs.length) (fuel : Nat)
    (hfuel : 2 * m.coeffs.length + 2 ≤ fuel) (k : Nat) :
    ∃ e, pow fuel ⟨a, m⟩ k = some (.ok e) := by
  have hM' : (p : Int) ≤ 2147483648 := by omega
  obtain ⟨o1, -⟩ := Polynomial.const_spec (valid_one hp.two_le)
  obtain ⟨U, u1, u2, u3, -⟩ := construct_ok hp hM' o1 hm hmne
  have hlen : (Polynomial.const (⟨1⟩ : ModInt (p : Int))).coeffs.length < fuel := by
    have : (Polynomial.const (⟨1⟩ : ModInt (p : Int))).coeffs.length ≤ 1 :=
      Polynomial.normalize_length_le (⟨[⟨1⟩]⟩ : Polynomial (ModInt (p : Int)))
    omega
  unfold pow
  simp only
  rw [scalar_ofInt_one hp.two_le, u1 fuel hlen]
  simp only
  exact powLoop_ok hp hM hm hmne fuel (by omega) k a U k ha hal u2 u3

theorem div_ok (hp : p.Prime) (hM : (p : Int) ≤ 1073741824)
    {a b m : Polynomial (ModInt (p : Int))} (ha : Polynomial.WF a) (hb : Polynomial.WF b)
    (hm : Polynomial.WF m) (hmne : m.coeffs ≠ []) (hal : a.coeffs.length < m.coeffs.length) :
    ∃ N, ∀ fuel, N ≤ fuel →
      (div fuel ⟨a, m⟩ ⟨b, m⟩ = some (.error .noInverse) ∨
        ∃ e, div fuel ⟨a, m⟩ ⟨b, m⟩ = some (.ok e)) := by
  obtain ⟨N, hN⟩ := inv_ok hp hM hb hm hmne
  refine ⟨max N (2 * m.coeffs.length), ?_⟩
  intro fuel hfuel
  unfold div
  simp only [ne_eq, not_true_eq_false, if_false]
  rcases hN fuel (le_trans (le_max_left _ _) hfuel) with he | ⟨i, one, h1, h2, h3, -, -⟩
  · left
    rw [he]
  · right
    rw [h1]
    simp only
    obtain ⟨r, hr, -, -⟩ := mul_ok hp hM ha h2 hm hmne hal h3 fuel
      (le_trans (le_max_right _ _) hfuel)
    exact ⟨_, hr⟩

end DivPow
end FactorRingElement
end PolyCalc

namespace PolyCalc
namespace FactorRingElement

/-! ## Congruent polynomials build the same element -/

section Congruence
variable {p : Nat}

theorem construct_eq_iff_dvd (hp : p.Prime) (hM : (p : Int) ≤ 2147483648)
    {x y m : Polynomial (ModInt (p : Int))} (hx : Polynomial.WF x) (hy : Polynomial.WF y)
    (hm : Polynomial.WF m) (hmne : m.coeffs ≠ []) :
    ∃ rx ry, (∀ fuel, x.coeffs.length < fuel → construct fuel x m = some (.ok ⟨rx, m⟩)) ∧
      (∀ fuel, y.coeffs.length < fuel → construct fuel y m = some (.ok ⟨ry, m⟩)) ∧
      Polynomial.WF rx ∧ Polynomial.WF ry ∧
      (∃ q, Polynomial.toPoly m * q + Polynomial.toPoly rx = Polynomial.toPoly x) ∧
      (∃ q, Polynomial.toPoly m * q + Polynomial.toPoly ry = Polynomial.toPoly y) ∧
      (rx = ry ↔ Polynomial.toPoly m ∣ Polynomial.toPoly x - Polynomial.toPoly y) := by
  haveI := Fact.mk hp
  obtain ⟨rx, x1, x2, x3, qx, x4⟩ := construct_ok hp hM hx hm hmne
  obtain ⟨ry, y1, y2, y3, qy, y4⟩ := construct_ok hp hM hy hm hmne
  refine ⟨rx, ry, x1, y1, x2, y2, ⟨qx, x4⟩, ⟨qy, y4⟩, ?_⟩
  constructor
  · intro h
    refine ⟨qx - qy, ?_⟩
    rw [← x4, ← y4, h]
    ring
  · rintro ⟨k, hk⟩
    apply Polynomial.eq_of_toPoly_eq x2 y2
    have h : Polynomial.toPoly m * qx + Polynomial.toPoly rx
        = Polynomial.toPoly m * (qy + k) + Polynomial.toPoly ry := by
      rw [x4, mul_add, add_right_comm, y4, ← hk]
      ring
    exact (fp_divmod_unique h (Polynomial.lt_of_length_lt x2 hm x3)
      (Polynomial.lt_of_length_lt y2 hm y3)).2

end Congruence
end FactorRingElement
end PolyCalc

namespace PolyCalc
namespace Polynomial

/-- C11, defect of the code: over `ModInt<2147483647>` the polynomial with the canonical
coefficients `[2147483646, 2147483646]` evaluated at `x = 1` yields the stored value `-4`,
where the sum of the `c[i] * x^i`, which the claim states, is `2147483645` modulo `M`: the
addition of Horner's rule goes through `ModInt::operator+=`, which adds in `int` without
widening and wraps around. -/
theorem evaluate_overflow :
    ValidL ([⟨2147483646⟩, ⟨2147483646⟩] : List (ModInt 2147483647)) ∧
    ModInt.Valid (⟨1⟩ : ModInt 2147483647) ∧
    (evaluate (⟨[⟨2147483646⟩, ⟨2147483646⟩]⟩ : Polynomial (ModInt 2147483647)) ⟨1⟩).value
      = -4 ∧
    (∑ i ∈ Finset.range 2,
        (([⟨2147483646⟩, ⟨2147483646⟩] : List (ModInt 2147483647)).getD i ⟨0⟩).value
          * (⟨1⟩ : ModInt 2147483647).value ^ i) % 2147483647 = 2147483645 := by
  refine ⟨by decide, by decide, by decide, ?_⟩
  simp [Finset.sum_range_succ]

/-- Where the operations are exact: over an exact commutative ring, such as the integers or
the rationals,
`evaluate(x)` is the sum of the `c[i] * x^i` for every coefficient sequence and every point;
over `ModInt<M>` with `1 ≤ M ≤ 2^30`, canonical coefficients and a canonical point, the value
stored by `evaluate(x)` is that sum modulo `M`, in `[0, M)`; the zero polynomial evaluates to
`T(0)` over every coefficient type. -/
theorem evaluate_sum :
    (∀ (R : Type) [CommRing R] [Div R] (f : Polynomial R) (x : R),
      @evaluate R (Scalar.ofCommRing R) f x
        = ∑ i ∈ Finset.range f.coeffs.length, f.coeffs.getD i 0 * x ^ i) ∧
    (∀ (M : Int) (f : Polynomial (ModInt M)) (x : ModInt M), 1 ≤ M → M ≤ 1073741824 →
      ValidL f.coeffs → ModInt.Valid x →
      (evaluate f x).value
          = (∑ i ∈ Finset.range f.coeffs.length, (f.coeffs.getD i ⟨0⟩).value * x.value ^ i) % M ∧
        ModInt.Valid (evaluate f x)) ∧
    (∀ (T : Type) [Scalar T] (x : T), evaluate (⟨[]⟩ : Polynomial T) x = Scalar.ofInt 0) := by
  refine ⟨evaluate_ofCommRing, ?_, fun T _ x => rfl⟩
  intro M f x h1 h2 hf hx
  rw [evaluate_eq_foldr, scalar_ofInt_zero]
  obtain ⟨hv, he⟩ := horner_modInt h1 h2 x hx f.coeffs hf
  exact ⟨he, hv⟩

theorem evaluate_sum_witness :
    @evaluate Int (Scalar.ofCommRing Int) ⟨[3, 2, 1]⟩ 2
      = ∑ i ∈ Finset.range 3, ([3, 2, 1] : List Int).getD i 0 * 2 ^ i ∧
    @evaluate Int (Scalar.ofCommRing Int) ⟨[3, 2, 1]⟩ 2 = 11 ∧
    @evaluate Rat (Scalar.ofCommRing Rat) ⟨[3, 2, 1]⟩ 2 = 11 ∧
    ((evaluate (⟨[⟨3⟩, ⟨2⟩, ⟨1⟩]⟩ : Polynomial (ModInt 5)) ⟨2⟩).value
        = (∑ i ∈ Finset.range 3,
            (([⟨3⟩, ⟨2⟩, ⟨1⟩] : List (ModInt 5)).getD i ⟨0⟩).value
              * (⟨2⟩ : ModInt 5).value ^ i) % 5 ∧
      ModInt.Valid (evaluate (⟨[⟨3⟩, ⟨2⟩, ⟨1⟩]⟩ : Polynomial (ModInt 5)) ⟨2⟩)) ∧
    (evaluate (⟨[⟨3⟩, ⟨2⟩, ⟨1⟩]⟩ : Polynomial (ModInt 5)) ⟨2⟩).value = 1 :=
  ⟨evaluate_sum.1 Int ⟨[3, 2, 1]⟩ 2, by decide, by
      rw [evaluate_sum.1 Rat ⟨[3, 2, 1]⟩ 2]
      norm_num [Finset.sum_range_succ],
    evaluate_sum.2.1 5 ⟨[⟨3⟩, ⟨2⟩, ⟨1⟩]⟩ ⟨2⟩ (by decide) (by decide) (by decide) (by decide),
    by decide⟩

end Polynomial
end PolyCalc

namespace PolyCalc
namespace FactorRingElement

/-- C12: for every prime `p ≤ 2^31 - 1` and every nonzero modulus `m` over `ModInt<p>`, every
element the two-argument constructor builds over `m`, and every element returned by `+`, `-`,
`*`, `/`, `inv` and `pow` on elements with modulus `m`, keeps the modulus `m` and stores a
representative that is the zero polynomial or has degree below `degree(m)`.  The constructor,
`+`, `-` and `*` return on the elements built from any two polynomials, `inv` returns or
fails with the inversion-not-possible error, and when `p ≤ 2^30` so does `/`, and `pow`
returns for every exponent. -/
theorem representative_invariant (p : Nat) (hp : p.Prime) (hM : p ≤ 2147483647)
    (m u v : Polynomial (ModInt (p : Int))) (hm : Polynomial.WF m) (hmne : m.coeffs ≠ [])
    (hu : Polynomial.WF u) (hv : Polynomial.WF v) :
    (∀ (fuel : Nat) (x : Polynomial (ModInt (p : Int))) (e : FactorRingElement (ModInt (p : Int))),
      construct fuel x m = some (.ok e) → Reduced e m) ∧
    (∀ (fuel : Nat) (a b e : FactorRingElement (ModInt (p : Int))), a.mod_poly = m →
      (add fuel a b = some (.ok e) ∨ sub fuel a b = some (.ok e) ∨
        mul fuel a b = some (.ok e) ∨ div fuel a b = some (.ok e)) → Reduced e m) ∧
    (∀ (fuel : Nat) (a e : FactorRingElement (ModInt (p : Int))), a.mod_poly = m →
      inv fuel a = some (.ok e) → Reduced e m) ∧
    (∀ (fuel : Nat) (a e : FactorRingElement (ModInt (p : Int))) (k : Nat), a.mod_poly = m →
      pow fuel a k = some (.ok e) → Reduced e m) ∧
    (∃ N, ∀ fuel, N ≤ fuel →
      ∃ a b, construct fuel u m = some (.ok a) ∧ construct fuel v m = some (.ok b) ∧
        (∃ e, add fuel a b = some (.ok e)) ∧ (∃ e, sub fuel a b = some (.ok e)) ∧
        (∃ e, mul fuel a b = some (.ok e)) ∧
        (inv fuel a = some (.error .noInverse) ∨ ∃ e, inv fuel a = some (.ok e)) ∧
        (p ≤ 1073741824 →
          (div fuel a b = some (.error .noInverse) ∨ ∃ e, div fuel a b = some (.ok e)) ∧
          ∀ k : Nat, ∃ e, pow fuel a k = some (.ok e))) := by
  have hM' : (p : Int) ≤ 2147483648 := by
    have : (p : Int) ≤ 2147483647 := by exact_mod_cast hM
    omega
  refine ⟨fun fuel x e h => (construct_reduced h).1, ?_, ?_, ?_, ?_⟩
  · intro fuel a b e ham h
    rw [← ham]
    rcases h with h | h | h | h
    · exact add_reduced h
    · exact sub_reduced h
    · exact mul_reduced h
    · exact div_reduced h
  · intro fuel a e ham h
    rw [← ham]
    exact inv_reduced h
  · intro fuel a e k ham h
    rw [← ham]
    exact pow_reduced h
  · obtain ⟨ra, a1, a2, a3, -⟩ := construct_ok hp hM' hu hm hmne
    obtain ⟨rb, b1, b2, b3, -⟩ := construct_ok hp hM' hv hm hmne
    obtain ⟨g, -, -, -, -, Ni, hNi⟩ := inv_cases hp hM' a2 hm hmne
    have hdiv : ∃ Nd, p ≤ 1073741824 → ∀ fuel, Nd ≤ fuel →
        (div fuel ⟨ra, m⟩ ⟨rb, m⟩ = some (.error .noInverse) ∨
          ∃ e, div fuel ⟨ra, m⟩ ⟨rb, m⟩ = some (.ok e)) := by
      by_cases hs : p ≤ 1073741824
      · obtain ⟨Nd, hNd⟩ := div_ok hp (small_bound hs) a2 b2 hm hmne a3
        exact ⟨Nd, fun _ => hNd⟩
      · exact ⟨0, fun h => absurd h hs⟩
    obtain ⟨Nd, hNd⟩ := hdiv
    refine ⟨max (max (max u.coeffs.length v.coeffs.length + 1)
      ((Polynomial.mul ra rb).coeffs.length + 1)) (max (max Ni Nd) (2 * m.coeffs.length + 2)), ?_⟩
    intro fuel hfuel
    have f1 : u.coeffs.length < fuel := by
      have := le_trans (le_max_left _ _) (le_trans (le_max_left _ _) hfuel)
      have := le_max_left u.coeffs.length v.coeffs.length
      omega
    have f2 : v.coeffs.length < fuel := by
      have := le_trans (le_max_left _ _) (le_trans (le_max_left _ _) hfuel)
      have := le_max_right u.coeffs.length v.coeffs.length
      omega
    have f3 : (Polynomial.mul ra rb).coeffs.length < fuel := by
      have := le_trans (le_max_right _ _) (le_trans (le_max_left _ _) hfuel)
      omega
    have f4 : Ni ≤ fuel :=
      le_trans (le_max_left _ _) (le_trans (le_max_left _ _) (le_trans (le_max_right _ _) hfuel))
    have f5 : Nd ≤ fuel :=
      le_trans (le_max_right _ _) (le_trans (le_max_left _ _) (le_trans (le_max_right _ _) hfuel))
    have f6 : 2 * m.coeffs.length + 2 ≤ fuel :=
      le_trans (le_max_right _ _) (le_trans (le_max_right _ _) hfuel)
    obtain ⟨⟨e1, h1, -⟩, ⟨e2, h2, -⟩⟩ := add_sub_return a3 b3 fuel (by omega)
    obtain ⟨q, r, h3⟩ := divmod_mul_returns hp hM' a2 b2 hm hmne fuel f3
    refine ⟨⟨ra, m⟩, ⟨rb, m⟩, a1 fuel f1, b1 fuel f2, ⟨e1, h1⟩, ⟨e2, h2⟩, ⟨⟨r, m⟩, ?_⟩, ?_, ?_⟩
    · unfold mul
      simp only [ne_eq, not_true_eq_false, if_false]
      exact construct_of_divmod h3
    · rcases hNi fuel f4 with ⟨-, he⟩ | ⟨-, e, he⟩
      · exact Or.inl he
      · exact Or.inr ⟨e, he⟩
    · intro hs
      exact ⟨hNd hs fuel f5, fun k => pow_ok hp (small_bound hs) a2 hm hmne a3 fuel f6 k⟩

theorem representative_invariant_witness :
    (Nat.Prime 2 ∧ 2 ≤ 2147483647 ∧
      Polynomial.WF (⟨[⟨1⟩, ⟨1⟩, ⟨1⟩]⟩ : Polynomial (ModInt ((2 : Nat) : Int))) ∧
      (⟨[⟨1⟩, ⟨1⟩, ⟨1⟩]⟩ : Polynomial (ModInt ((2 : Nat) : Int))).coeffs ≠ [] ∧
      Polynomial.WF (⟨[⟨0⟩, ⟨0⟩, ⟨0⟩, ⟨1⟩]⟩ : Polynomial (ModInt ((2 : Nat) : Int))) ∧
      Polynomial.WF (⟨[⟨1⟩, ⟨1⟩]⟩ : Polynomial (ModInt ((2 : Nat) : Int)))) ∧
    (∃ N, ∀ fuel, N ≤ fuel →
      ∃ a b,
        construct fuel (⟨[⟨0⟩, ⟨0⟩, ⟨0⟩, ⟨1⟩]⟩ : Polynomial (ModInt ((2 : Nat) : Int)))
          ⟨[⟨1⟩, ⟨1⟩, ⟨1⟩]⟩ = some (.ok a) ∧
        construct fuel (⟨[⟨1⟩, ⟨1⟩]⟩ : Polynomial (ModInt ((2 : Nat) : Int)))
          ⟨[⟨1⟩, ⟨1⟩, ⟨1⟩]⟩ = some (.ok b) ∧
        (∃ e, add fuel a b = some (.ok e)) ∧ (∃ e, sub fuel a b = some (.ok e)) ∧
        (∃ e, mul fuel a b = some (.ok e)) ∧
        (inv fuel a = some (.error .noInverse) ∨ ∃ e, inv fuel a = some (.ok e)) ∧
        (2 ≤ 1073741824 →
          (div fuel a b = some (.error .noInverse) ∨ ∃ e, div fuel a b = some (.ok e)) ∧
          ∀ k : Nat, ∃ e, pow fuel a k = some (.ok e))) ∧
    construct 8 (⟨[⟨0⟩, ⟨0⟩, ⟨0⟩, ⟨1⟩]⟩ : Polynomial (ModInt 2)) ⟨[⟨1⟩, ⟨1⟩, ⟨1⟩]⟩
      = some (.ok ⟨⟨[⟨1⟩]⟩, ⟨[⟨1⟩, ⟨1⟩, ⟨1⟩]⟩⟩) ∧
    pow 8 (⟨⟨[⟨0⟩, ⟨1⟩]⟩, ⟨[⟨1⟩, ⟨1⟩, ⟨1⟩]⟩⟩ : FactorRingElement (ModInt 2)) 5
      = some (.ok ⟨⟨[⟨1⟩, ⟨1⟩]⟩, ⟨[⟨1⟩, ⟨1⟩, ⟨1⟩]⟩⟩) ∧
    div 8 (⟨⟨[⟨0⟩, ⟨1⟩]⟩, ⟨[⟨1⟩, ⟨1⟩, ⟨1⟩]⟩⟩ : FactorRingElement (ModInt 2))
        ⟨⟨[⟨1⟩, ⟨1⟩]⟩, ⟨[⟨1⟩, ⟨1⟩, ⟨1⟩]⟩⟩
      = some (.ok ⟨⟨[⟨1⟩, ⟨1⟩]⟩, ⟨[⟨1⟩, ⟨1⟩, ⟨1⟩]⟩⟩) :=
  ⟨⟨by norm_num, by decide, by decide, by decide, by decide, by decide⟩,
    (representative_invariant 2 (by norm_num) (by decide) ⟨[⟨1⟩, ⟨1⟩, ⟨1⟩]⟩
      ⟨[⟨0⟩, ⟨0⟩, ⟨0⟩, ⟨1⟩]⟩ ⟨[⟨1⟩, ⟨1⟩]⟩ (by decide) (by decide) (by decide)
      (by decide)).2.2.2.2,
    rfl, rfl, rfl⟩

end FactorRingElement
end PolyCalc

namespace PolyCalc
namespace Polynomial

/-- C13: for every coefficient type, every polynomial built by a constructor or returned by
`+`, `-`, `*`, `divmod` (quotient and remainder), `/`, `%` and `pow` has a coefficient vector
that is empty or ends in a coefficient different from `T(0)`; `degree()` is the length minus
one, `-1` for the empty vector; and trailing zeros do not change what the constructor
builds. -/
theorem normalization_invariant (T : Type) [Scalar T] [DecidableEq T] :
    (Normalized (empty : Polynomial T) ∧
      (∀ l : List T, Normalized (ofCoeffs l)) ∧ (∀ c : T, Normalized (const c))) ∧
    (∀ f g : Polynomial T, Normalized (add f g) ∧ Normalized (sub f g) ∧ Normalized (mul f g)) ∧
    (∀ (fuel : Nat) (f g q r : Polynomial T), divmod fuel f g = some (.ok (q, r)) →
      Normalized q ∧ Normalized r) ∧
    (∀ (fuel : Nat) (f g q : Polynomial T), quot fuel f g = some (.ok q) → Normalized q) ∧
    (∀ (fuel : Nat) (f g r : Polynomial T), rem fuel f g = some (.ok r) → Normalized r) ∧
    (∀ (f : Polynomial T) (e : Nat), Normalized (pow f e)) ∧
    (∀ f : Polynomial T, (Normalized f ↔ f.coeffs = [] ∨
        ∃ h : f.coeffs ≠ [], f.coeffs.getLast h ≠ Scalar.ofInt 0) ∧
      f.degree = (f.coeffs.length : Int) - 1 ∧ (f.coeffs = [] → f.degree = -1)) ∧
    (∀ (l : List T) (k : Nat),
      ofCoeffs (l ++ List.replicate k (Scalar.ofInt 0)) = ofCoeffs l) := by
  refine ⟨⟨normalized_empty, normalized_ofCoeffs, normalized_const⟩,
    fun f g => ⟨normalized_add f g, normalized_sub f g, normalized_mul f g⟩,
    fun fuel f g q r h => normalized_divmod h, ?_, ?_, normalized_pow, ?_,
    ofCoeffs_append_zeros⟩
  · intro fuel f g q h
    obtain ⟨r, hr⟩ := divmod_of_quot h
    exact (normalized_divmod hr).1
  · intro fuel f g r h
    obtain ⟨q, hq⟩ := divmod_of_rem h
    exact (normalized_divmod hq).2
  · intro f
    refine ⟨normalized_iff f, degree_eq_length f, ?_⟩
    intro h
    rw [degree_eq_length, h]
    rfl

theorem normalization_invariant_witness :
    (ofCoeffs ([⟨1⟩, ⟨2⟩, ⟨0⟩, ⟨0⟩] : List (ModInt 5))).coeffs = [⟨1⟩, ⟨2⟩] ∧
    (ofCoeffs ([⟨1⟩, ⟨2⟩] : List (ModInt 5))).coeffs = [⟨1⟩, ⟨2⟩] ∧
    (ofCoeffs ([⟨1⟩, ⟨2⟩, ⟨0⟩, ⟨0⟩] : List (ModInt 5))).degree = 1 ∧
    ofCoeffs (([⟨1⟩, ⟨2⟩] : List (ModInt 5)) ++ List.replicate 2 (Scalar.ofInt 0))
      = ofCoeffs [⟨1⟩, ⟨2⟩] ∧
    divmod 8 (⟨[⟨1⟩, ⟨0⟩, ⟨1⟩]⟩ : Polynomial (ModInt 5)) ⟨[⟨1⟩, ⟨1⟩]⟩
      = some (.ok (⟨[⟨4⟩, ⟨1⟩]⟩, ⟨[⟨2⟩]⟩)) ∧
    Normalized (⟨[⟨4⟩, ⟨1⟩]⟩ : Polynomial (ModInt 5)) ∧
    Normalized (⟨[⟨2⟩]⟩ : Polynomial (ModInt 5)) :=
  ⟨by decide, by decide, by decide,
    (normalization_invariant (ModInt 5)).2.2.2.2.2.2.2 [⟨1⟩, ⟨2⟩] 2, rfl,
    ((normalization_invariant (ModInt 5)).2.2.1 8 ⟨[⟨1⟩, ⟨0⟩, ⟨1⟩]⟩ ⟨[⟨1⟩, ⟨1⟩]⟩
      ⟨[⟨4⟩, ⟨1⟩]⟩ ⟨[⟨2⟩]⟩ rfl).1,
    ((normalization_invariant (ModInt 5)).2.2.1 8 ⟨[⟨1⟩, ⟨0⟩, ⟨1⟩]⟩ ⟨[⟨1⟩, ⟨1⟩]⟩
      ⟨[⟨4⟩, ⟨1⟩]⟩ ⟨[⟨2⟩]⟩ rfl).2⟩

end Polynomial
end PolyCalc

namespace PolyCalc
namespace ModInt

/-- C14: for every modulus `1 ≤ M ≤ 2^31 - 1` and every integer `v`, negative ones
included, the constructor `ModInt(v)` stores the canonical residue of `v`: the stored value
is `v mod M`, it lies in `[0, M)`, and it is the only number of `[0, M)` congruent to `v`
modulo `M`. -/
theorem ofInt_canonical (M v : Int) (h1 : 1 ≤ M) (h2 : M ≤ 2147483647) :
    (ofInt M v).value = v % M ∧ Valid (ofInt M v) ∧
      M ∣ v - (ofInt M v).value ∧
      ∀ r : Int, 0 ≤ r → r < M → M ∣ v - r → r = (ofInt M v).value := by
  have hv := ofInt_value v h1 h2
  refine ⟨hv, ?_, ?_, ?_⟩
  · unfold Valid
    rw [hv]
    exact ⟨Int.emod_nonneg _ (by omega), Int.emod_lt_of_pos _ (by omega)⟩
  · rw [hv]
    exact Int.dvd_sub_of_emod_eq rfl
  · intro r h0 hr hd
    rw [hv]
    have h := (Int.emod_emod_of_dvd v (dvd_refl M)).symm
    have e : v % M = r % M := (Int.emod_eq_emod_iff_emod_sub_eq_zero).mpr
      (Int.emod_eq_zero_of_dvd hd)
    rw [e, Int.emod_eq_of_lt h0 hr]

theorem ofInt_canonical_witness :
    ((1 : Int) ≤ 5 ∧ (5 : Int) ≤ 2147483647) ∧
    ((ofInt 5 (-7)).value = (-7) % 5 ∧ Valid (ofInt 5 (-7)) ∧
      (5 : Int) ∣ (-7) - (ofInt 5 (-7)).value ∧
      ∀ r : Int, 0 ≤ r → r < 5 → (5 : Int) ∣ (-7) - r → r = (ofInt 5 (-7)).value) ∧
    (ofInt 5 (-7)).value = 3 :=
  ⟨⟨by decide, by decide⟩, ofInt_canonical 5 (-7) (by decide) (by decide), by decide⟩

/-- C15, defect of the code: with `M = 2147483647`, which fits in the machine `int`, and
`a = b = 2147483646` in `[0, M)`, operator `+=` adds in `int` without widening and the sum
wraps around: `a + b` stores `-4`, outside `[0, M)`, where the claim states
`(a + b) mod M`, which is `2147483645`. -/
theorem add_overflow :
    (1 : Int) ≤ 2147483647 ∧ (2147483647 : Int) ≤ 2147483647 ∧
    Valid (⟨2147483646⟩ : ModInt 2147483647) ∧
    (add (⟨2147483646⟩ : ModInt 2147483647) ⟨2147483646⟩).value = -4 ∧
    ((2147483646 : Int) + 2147483646) % 2147483647 = 2147483645 ∧
    ¬ Valid (add (⟨2147483646⟩ : ModInt 2147483647) ⟨2147483646⟩) := by
  decide

/-- The three operators where they are exact: for every modulus `1 ≤ M ≤ 2^31 - 1` and all
`a`, `b` in `[0, M)`,
`a - b` stores `(a - b) mod M` and `a * b` stores `(a * b) mod M`, both in `[0, M)`;
`a + b` stores `(a + b) mod M`, in `[0, M)`, whenever the integer sum `a + b` is below
`2^31`, which is so for all residues when `M ≤ 2^30`. -/
theorem add_sub_mul_canonical (M : Int) (a b : ModInt M) (h1 : 1 ≤ M) (h2 : M ≤ 2147483647)
    (ha : Valid a) (hb : Valid b) :
    ((M ≤ 1073741824 ∨ a.value + b.value < 2147483648) →
      (add a b).value = (a.value + b.value) % M ∧ Valid (add a b)) ∧
    ((sub a b).value = (a.value - b.value) % M ∧ Valid (sub a b)) ∧
    ((mul a b).value = (a.value * b.value) % M ∧ Valid (mul a b)) := by
  refine ⟨?_, ⟨sub_value ha hb (by omega), sub_valid ha hb (by omega)⟩,
    ⟨mul_value ha hb (by omega), mul_valid ha hb (by omega)⟩⟩
  intro h
  have hf : a.value + b.value < 2147483648 := by
    rcases h with h | h
    · have := ha.2
      have := hb.2
      omega
    · exact h
  exact ⟨add_value ha hb hf, add_valid ha hb hf⟩

theorem add_sub_mul_canonical_witness :
    ((1 : Int) ≤ 7 ∧ (7 : Int) ≤ 2147483647 ∧ Valid (⟨5⟩ : ModInt 7) ∧
      Valid (⟨6⟩ : ModInt 7)) ∧
    (((7 : Int) ≤ 1073741824 ∨ (⟨5⟩ : ModInt 7).value + (⟨6⟩ : ModInt 7).value < 2147483648) →
      (add (⟨5⟩ : ModInt 7) ⟨6⟩).value
          = ((⟨5⟩ : ModInt 7).value + (⟨6⟩ : ModInt 7).value) % 7 ∧
        Valid (add (⟨5⟩ : ModInt 7) ⟨6⟩)) ∧
    ((sub (⟨5⟩ : ModInt 7) ⟨6⟩).value
          = ((⟨5⟩ : ModInt 7).value - (⟨6⟩ : ModInt 7).value) % 7 ∧
        Valid (sub (⟨5⟩ : ModInt 7) ⟨6⟩)) ∧
    ((mul (⟨5⟩ : ModInt 7) ⟨6⟩).value
          = ((⟨5⟩ : ModInt 7).value * (⟨6⟩ : ModInt 7).value) % 7 ∧
        Valid (mul (⟨5⟩ : ModInt 7) ⟨6⟩)) ∧
    (add (⟨5⟩ : ModInt 7) ⟨6⟩).value = 4 ∧ (sub (⟨5⟩ : ModInt 7) ⟨6⟩).value = 6 ∧
      (mul (⟨5⟩ : ModInt 7) ⟨6⟩).value = 2 :=
  ⟨⟨by decide, by decide, by decide, by decide⟩,
    (add_sub_mul_canonical 7 ⟨5⟩ ⟨6⟩ (by decide) (by decide) (by decide) (by decide)).1,
    (add_sub_mul_canonical 7 ⟨5⟩ ⟨6⟩ (by decide) (by decide) (by decide) (by decide)).2.1,
    (add_sub_mul_canonical 7 ⟨5⟩ ⟨6⟩ (by decide) (by decide) (by decide) (by decide)).2.2,
    by decide, by decide, by decide⟩

end ModInt
end PolyCalc

namespace PolyCalc
namespace FactorRingElement

/-- C16: for every prime `p ≤ 2^31 - 1`, every modulus `f` over `ModInt<p>` for which
`is_irreducible(f)` returns true and every element `a` built over `f` from a polynomial `u`:
`a.inv()` fails with the inversion-not-possible error exactly when the representative of `a`
is the zero polynomial, and returns an element whenever the representative is nonzero; when
`p ≤ 2^30` the product of `a` and the returned element is the ring unit. -/
theorem inv_fails_iff_zero (p : Nat) (hp : p.Prime) (hM : p ≤ 2147483647)
    (f u : Polynomial (ModInt (p : Int))) (hf : Polynomial.WF f) (hu : Polynomial.WF u)
    (fuel0 : Nat) (hfuel0 : f.coeffs.length < fuel0)
    (hirr : is_irreducible fuel0 f = some (.ok true)) :
    ∃ N, ∀ fuel, N ≤ fuel →
      ∃ a, construct fuel u f = some (.ok a) ∧
        (inv fuel a = some (.error .noInverse) ↔ a.poly.coeffs = []) ∧
        (a.poly.coeffs ≠ [] → ∃ i, inv fuel a = some (.ok i) ∧
          (p ≤ 1073741824 → ∃ one, mul fuel a i = some (.ok one) ∧
            construct fuel (Polynomial.const (Scalar.ofInt 1)) f = some (.ok one))) := by
  haveI := Fact.mk hp
  have hM' : (p : Int) ≤ 2147483648 := by
    have : (p : Int) ≤ 2147483647 := by exact_mod_cast hM
    omega
  obtain ⟨b, hb1, hb2⟩ := is_irreducible_spec hp hM' hf fuel0 hfuel0
  rw [hirr] at hb1
  simp only [Option.some.injEq, Except.ok.injEq] at hb1
  obtain ⟨hf1, hno⟩ := hb2.mp hb1.symm
  have hfne : f.coeffs ≠ [] := by
    intro h
    rw [Polynomial.degree_empty h] at hf1
    omega
  obtain ⟨hfd, hf0⟩ := Polynomial.degree_eq hf hfne
  obtain ⟨r, r1, r2, r3, -⟩ := construct_ok hp hM' hu hf hfne
  obtain ⟨g, g1, g2, g3, g4, N, hN⟩ := inv_cases hp hM' r2 hf hfne
  obtain ⟨hg0, hgdeg⟩ := divisor_of_irreducible hf g1 hf1 hno g3
  obtain ⟨hgne, hgd⟩ := degree_eq_natDegree g1 hg0
  have hkey : g.degree = 0 ↔ r.coeffs ≠ [] := by
    constructor
    · intro h0 hr
      have hr0 : Polynomial.toPoly r = 0 := by
        unfold Polynomial.toPoly; rw [hr]; rfl
      have hfg : Polynomial.toPoly f ∣ Polynomial.toPoly g :=
        g4 _ (by rw [hr0]; exact dvd_zero _) (dvd_refl _)
      have := Polynomial.natDegree_le_of_dvd hfg hg0
      have h1 : ((Polynomial.toPoly f).natDegree : Int) ≤ (Polynomial.toPoly g).natDegree := by
        exact_mod_cast this
      omega
    · intro hr
      rcases hgdeg with h | h
      · exact h
      · exfalso
        have hr0 : Polynomial.toPoly r ≠ 0 := (Polynomial.degree_eq r2 hr).2
        have h1 := Polynomial.natDegree_le_of_dvd g2 hr0
        have h2 := Polynomial.lt_of_length_lt r2 hf r3
        have h3 := Polynomial.natDegree_lt_natDegree hr0 h2
        omega
  by_cases hsmall : p ≤ 1073741824
  · obtain ⟨N', hN'⟩ := inv_ok hp (small_bound hsmall) r2 hf hfne
    refine ⟨max (max N N') (u.coeffs.length + 1), ?_⟩
    intro fuel hfuel
    have hc := r1 fuel (by have := le_trans (le_max_right _ _) hfuel; omega)
    have hi := hN fuel (le_trans (le_trans (le_max_left _ _) (le_max_left _ _)) hfuel)
    have hi' := hN' fuel (le_trans (le_trans (le_max_right _ _) (le_max_left _ _)) hfuel)
    refine ⟨⟨r, f⟩, hc, ?_, ?_⟩
    · constructor
      · intro he
        by_contra hr
        rcases hi with ⟨hd, -⟩ | ⟨-, e, he'⟩
        · exact hd (hkey.mpr hr)
        · rw [he] at he'; simp at he'
      · intro hr
        rcases hi with ⟨-, he⟩ | ⟨h0, -⟩
        · exact he
        · exact absurd hr (hkey.mp h0)
    · intro hr
      rcases hi' with he | ⟨i, one, h1, -, -, h4, h5⟩
      · rcases hi with ⟨hd, -⟩ | ⟨-, e, he'⟩
        · exact absurd (hkey.mpr hr) hd
        · rw [he] at he'; simp at he'
      · exact ⟨⟨i, f⟩, h1, fun _ => ⟨⟨one, f⟩, h4, h5⟩⟩
  · refine ⟨max N (u.coeffs.length + 1), ?_⟩
    intro fuel hfuel
    have hc := r1 fuel (by have := le_trans (le_max_right _ _) hfuel; omega)
    have hi := hN fuel (le_trans (le_max_left _ _) hfuel)
    refine ⟨⟨r, f⟩, hc, ?_, ?_⟩
    · constructor
      · intro he
        by_contra hr
        rcases hi with ⟨hd, -⟩ | ⟨-, e, he'⟩
        · exact hd (hkey.mpr hr)
        · rw [he] at he'; simp at he'
      · intro hr
        rcases hi with ⟨-, he⟩ | ⟨h0, -⟩
        · exact he
        · exact absurd hr (hkey.mp h0)
    · intro hr
      rcases hi with ⟨hd, -⟩ | ⟨-, e, he'⟩
      · exact absurd (hkey.mpr hr) hd
      · exact ⟨e, he', fun h => absurd h hsmall⟩

theorem inv_fails_iff_zero_witness :
    (Nat.Prime 2 ∧ 2 ≤ 2147483647 ∧
      Polynomial.WF (⟨[⟨1⟩, ⟨1⟩, ⟨1⟩]⟩ : Polynomial (ModInt ((2 : Nat) : Int))) ∧
      Polynomial.WF (⟨[⟨0⟩, ⟨1⟩]⟩ : Polynomial (ModInt ((2 : Nat) : Int))) ∧
      (⟨[⟨1⟩, ⟨1⟩, ⟨1⟩]⟩ : Polynomial (ModInt ((2 : Nat) : Int))).coeffs.length < 8 ∧
      is_irreducible 8 (⟨[⟨1⟩, ⟨1⟩, ⟨1⟩]⟩ : Polynomial (ModInt ((2 : Nat) : Int)))
        = some (.ok true)) ∧
    (∃ N, ∀ fuel, N ≤ fuel →
      ∃ a, construct fuel (⟨[⟨0⟩, ⟨1⟩]⟩ : Polynomial (ModInt ((2 : Nat) : Int)))
          ⟨[⟨1⟩, ⟨1⟩, ⟨1⟩]⟩ = some (.ok a) ∧
        (inv fuel a = some (.error .noInverse) ↔ a.poly.coeffs = []) ∧
        (a.poly.coeffs ≠ [] → ∃ i, inv fuel a = some (.ok i) ∧
          (2 ≤ 1073741824 → ∃ one, mul fuel a i = some (.ok one) ∧
            construct fuel (Polynomial.const (Scalar.ofInt 1))
              (⟨[⟨1⟩, ⟨1⟩, ⟨1⟩]⟩ : Polynomial (ModInt ((2 : Nat) : Int)))
              = some (.ok one)))) ∧
    inv 8 (⟨⟨[⟨0⟩, ⟨1⟩]⟩, ⟨[⟨1⟩, ⟨1⟩, ⟨1⟩]⟩⟩ : FactorRingElement (ModInt 2))
      = some (.ok ⟨⟨[⟨1⟩, ⟨1⟩]⟩, ⟨[⟨1⟩, ⟨1⟩, ⟨1⟩]⟩⟩) ∧
    inv 8 (⟨⟨[]⟩, ⟨[⟨1⟩, ⟨1⟩, ⟨1⟩]⟩⟩ : FactorRingElement (ModInt 2))
      = some (.error .noInverse) :=
  ⟨⟨by norm_num, by decide, by decide, by decide, by decide, rfl⟩,
    inv_fails_iff_zero 2 (by norm_num) (by decide) ⟨[⟨1⟩, ⟨1⟩, ⟨1⟩]⟩ ⟨[⟨0⟩, ⟨1⟩]⟩
      (by decide) (by decide) 8 (by decide) rfl,
    rfl, rfl⟩

end FactorRingElement
end PolyCalc

namespace PolyCalc
namespace FactorRingElement

set_option maxRecDepth 1000000 in
/-- C17, defect of the code: sums inside the polynomial `+` and `*` go through
`ModInt::operator+=`, which adds in `int` without widening and wraps around, so that
reduction does not commute with them as the claim states.  Over the prime
`p = 2147483647` with modulus `x + 1`, the elements
built from `u = x + 2147483646` and `v = x + 3` have the product with representative
`2147483643`, while the element built from `u * v` has representative `2147483645`; with
modulus `x`, the sum of the elements built from `u` and `u` has representative `-4`, while the
element built from `u + u` has representative `2147483643`. -/
theorem reduction_overflow :
    Nat.Prime 2147483647 ∧
    Polynomial.WF (⟨[⟨2147483646⟩, ⟨1⟩]⟩ : Polynomial (ModInt ((2147483647 : Nat) : Int))) ∧
    Polynomial.WF (⟨[⟨3⟩, ⟨1⟩]⟩ : Polynomial (ModInt ((2147483647 : Nat) : Int))) ∧
    Polynomial.WF (⟨[⟨1⟩, ⟨1⟩]⟩ : Polynomial (ModInt ((2147483647 : Nat) : Int))) ∧
    Polynomial.WF (⟨[⟨0⟩, ⟨1⟩]⟩ : Polynomial (ModInt ((2147483647 : Nat) : Int))) ∧
    (∀ fuel, 4 ≤ fuel →
      construct fuel (⟨[⟨2147483646⟩, ⟨1⟩]⟩ : Polynomial (ModInt ((2147483647 : Nat) : Int)))
          ⟨[⟨1⟩, ⟨1⟩]⟩ = some (.ok ⟨⟨[⟨2147483645⟩]⟩, ⟨[⟨1⟩, ⟨1⟩]⟩⟩) ∧
      construct fuel (⟨[⟨3⟩, ⟨1⟩]⟩ : Polynomial (ModInt ((2147483647 : Nat) : Int)))
          ⟨[⟨1⟩, ⟨1⟩]⟩ = some (.ok ⟨⟨[⟨2⟩]⟩, ⟨[⟨1⟩, ⟨1⟩]⟩⟩) ∧
      mul fuel (⟨⟨[⟨2147483645⟩]⟩, ⟨[⟨1⟩, ⟨1⟩]⟩⟩ :
            FactorRingElement (ModInt ((2147483647 : Nat) : Int))) ⟨⟨[⟨2⟩]⟩, ⟨[⟨1⟩, ⟨1⟩]⟩⟩
          = some (.ok ⟨⟨[⟨2147483643⟩]⟩, ⟨[⟨1⟩, ⟨1⟩]⟩⟩) ∧
      construct fuel (Polynomial.mul
            (⟨[⟨2147483646⟩, ⟨1⟩]⟩ : Polynomial (ModInt ((2147483647 : Nat) : Int)))
            ⟨[⟨3⟩, ⟨1⟩]⟩) ⟨[⟨1⟩, ⟨1⟩]⟩
          = some (.ok ⟨⟨[⟨2147483645⟩]⟩, ⟨[⟨1⟩, ⟨1⟩]⟩⟩) ∧
      construct fuel (⟨[⟨2147483646⟩, ⟨1⟩]⟩ : Polynomial (ModInt ((2147483647 : Nat) : Int)))
          ⟨[⟨0⟩, ⟨1⟩]⟩ = some (.ok ⟨⟨[⟨2147483646⟩]⟩, ⟨[⟨0⟩, ⟨1⟩]⟩⟩) ∧
      add fuel (⟨⟨[⟨2147483646⟩]⟩, ⟨[⟨0⟩, ⟨1⟩]⟩⟩ :
            FactorRingElement (ModInt ((2147483647 : Nat) : Int)))
            ⟨⟨[⟨2147483646⟩]⟩, ⟨[⟨0⟩, ⟨1⟩]⟩⟩
          = some (.ok ⟨⟨[⟨-4⟩]⟩, ⟨[⟨0⟩, ⟨1⟩]⟩⟩) ∧
      construct fuel (Polynomial.add
            (⟨[⟨2147483646⟩, ⟨1⟩]⟩ : Polynomial (ModInt ((2147483647 : Nat) : Int)))
            ⟨[⟨2147483646⟩, ⟨1⟩]⟩) ⟨[⟨0⟩, ⟨1⟩]⟩
          = some (.ok ⟨⟨[⟨2147483643⟩]⟩, ⟨[⟨0⟩, ⟨1⟩]⟩⟩)) := by
  refine ⟨prime_mersenne31, by decide, by decide, by decide, by decide, ?_⟩
  intro fuel hfuel
  have c1 : construct 4 (⟨[⟨2147483646⟩, ⟨1⟩]⟩ :
      Polynomial (ModInt ((2147483647 : Nat) : Int))) ⟨[⟨1⟩, ⟨1⟩]⟩
      = some (.ok ⟨⟨[⟨2147483645⟩]⟩, ⟨[⟨1⟩, ⟨1⟩]⟩⟩) := rfl
  have c2 : construct 4 (⟨[⟨3⟩, ⟨1⟩]⟩ : Polynomial (ModInt ((2147483647 : Nat) : Int)))
      ⟨[⟨1⟩, ⟨1⟩]⟩ = some (.ok ⟨⟨[⟨2⟩]⟩, ⟨[⟨1⟩, ⟨1⟩]⟩⟩) := rfl
  have c3 : mul 4 (⟨⟨[⟨2147483645⟩]⟩, ⟨[⟨1⟩, ⟨1⟩]⟩⟩ :
      FactorRingElement (ModInt ((2147483647 : Nat) : Int))) ⟨⟨[⟨2⟩]⟩, ⟨[⟨1⟩, ⟨1⟩]⟩⟩
      = some (.ok ⟨⟨[⟨2147483643⟩]⟩, ⟨[⟨1⟩, ⟨1⟩]⟩⟩) := rfl
  have c4 : construct 4 (Polynomial.mul
      (⟨[⟨2147483646⟩, ⟨1⟩]⟩ : Polynomial (ModInt ((2147483647 : Nat) : Int)))
      ⟨[⟨3⟩, ⟨1⟩]⟩) ⟨[⟨1⟩, ⟨1⟩]⟩
      = some (.ok ⟨⟨[⟨2147483645⟩]⟩, ⟨[⟨1⟩, ⟨1⟩]⟩⟩) := rfl
  have c5 : construct 4 (⟨[⟨2147483646⟩, ⟨1⟩]⟩ :
      Polynomial (ModInt ((2147483647 : Nat) : Int))) ⟨[⟨0⟩, ⟨1⟩]⟩
      = some (.ok ⟨⟨[⟨2147483646⟩]⟩, ⟨[⟨0⟩, ⟨1⟩]⟩⟩) := rfl
  have c6 : add 4 (⟨⟨[⟨2147483646⟩]⟩, ⟨[⟨0⟩, ⟨1⟩]⟩⟩ :
      FactorRingElement (ModInt ((2147483647 : Nat) : Int)))
      ⟨⟨[⟨2147483646⟩]⟩, ⟨[⟨0⟩, ⟨1⟩]⟩⟩ = some (.ok ⟨⟨[⟨-4⟩]⟩, ⟨[⟨0⟩, ⟨1⟩]⟩⟩) := rfl
  have c7 : construct 4 (Polynomial.add
      (⟨[⟨2147483646⟩, ⟨1⟩]⟩ : Polynomial (ModInt ((2147483647 : Nat) : Int)))
      ⟨[⟨2147483646⟩, ⟨1⟩]⟩) ⟨[⟨0⟩, ⟨1⟩]⟩
      = some (.ok ⟨⟨[⟨2147483643⟩]⟩, ⟨[⟨0⟩, ⟨1⟩]⟩⟩) := rfl
  have madd : ∀ {a b : FactorRingElement (ModInt ((2147483647 : Nat) : Int))}
      {v : Except Error (FactorRingElement (ModInt ((2147483647 : Nat) : Int)))},
      add 4 a b = some v → add fuel a b = some v := by
    intro a b v h
    unfold add at h ⊢
    split
    · rename_i hne; rw [if_pos hne] at h; exact h
    · rename_i hne; rw [if_neg hne] at h; exact construct_mono hfuel h
  exact ⟨construct_mono hfuel c1, construct_mono hfuel c2, mul_mono hfuel c3,
    construct_mono hfuel c4, construct_mono hfuel c5, madd c6, construct_mono hfuel c7⟩

/-- Reduction and the ring operations where they are exact: for every prime
`p ≤ 2^31 - 1`, every nonzero modulus `m` and all
polynomials `u`, `v` over `ModInt<p>`: the difference of the elements built from `u` and `v`
is the element built from `u - v`; when `p ≤ 2^30` their sum is the element built from `u + v`
and their product the element built from `u * v`; and `u` and `v` build the same element
exactly when they differ by a multiple of `m` in `Z_p[x]`. -/
theorem reduction_commutes (p : Nat) (hp : p.Prime) (hM : p ≤ 2147483647)
    (m u v : Polynomial (ModInt (p : Int))) (hm : Polynomial.WF m) (hmne : m.coeffs ≠ [])
    (hu : Polynomial.WF u) (hv : Polynomial.WF v) :
    ∃ N, ∀ fuel, N ≤ fuel →
      ∃ a b, construct fuel u m = some (.ok a) ∧ construct fuel v m = some (.ok b) ∧
        (∃ e, sub fuel a b = some (.ok e) ∧
          construct fuel (Polynomial.sub u v) m = some (.ok e)) ∧
        (p ≤ 1073741824 →
          (∃ e, add fuel a b = some (.ok e) ∧
            construct fuel (Polynomial.add u v) m = some (.ok e)) ∧
          (∃ e, mul fuel a b = some (.ok e) ∧
            construct fuel (Polynomial.mul u v) m = some (.ok e))) ∧
        (a = b ↔ Polynomial.toPoly m ∣ Polynomial.toPoly u - Polynomial.toPoly v) := by
  have hM' : (p : Int) ≤ 2147483648 := by
    have : (p : Int) ≤ 2147483647 := by exact_mod_cast hM
    omega
  obtain ⟨ra, rb, a1, b1, a2, b2, ⟨qa, a4⟩, ⟨qb, b4⟩, hab⟩ :=
    construct_eq_iff_dvd hp hM' hu hv hm hmne
  -- subtraction
  obtain ⟨s1, s2⟩ := Polynomial.sub_spec hp.pos hM' a2.1 b2.1 (f := ra) (g := rb)
  obtain ⟨t1, t2⟩ := Polynomial.sub_spec hp.pos hM' hu.1 hv.1 (f := u) (g := v)
  obtain ⟨rs, rt, cs, ct, -, -, -, -, hst⟩ := construct_eq_iff_dvd hp hM' s1 t1 hm hmne
  have hsub : rs = rt := by
    rw [hst, s2, t2, ← a4, ← b4]
    exact ⟨qb - qa, by ring⟩
  -- addition and multiplication
  have hsmall : ∃ N', p ≤ 1073741824 → ∀ fuel, N' ≤ fuel →
      (∃ e, add fuel ⟨ra, m⟩ ⟨rb, m⟩ = some (.ok e) ∧
        construct fuel (Polynomial.add u v) m = some (.ok e)) ∧
      (∃ e, mul fuel ⟨ra, m⟩ ⟨rb, m⟩ = some (.ok e) ∧
        construct fuel (Polynomial.mul u v) m = some (.ok e)) := by
    by_cases hs : p ≤ 1073741824
    · have hs' := small_bound hs
      obtain ⟨d1, d2⟩ := Polynomial.add_spec hp.pos hs' a2.1 b2.1 (f := ra) (g := rb)
      obtain ⟨f1, f2⟩ := Polynomial.add_spec hp.pos hs' hu.1 hv.1 (f := u) (g := v)
      obtain ⟨rd, rf, cd, cf, -, -, -, -, hdf⟩ := construct_eq_iff_dvd hp hM' d1 f1 hm hmne
      have hadd : rd = rf := by
        rw [hdf, d2, f2, ← a4, ← b4]
        exact ⟨-(qa + qb), by ring⟩
      obtain ⟨m1, m2⟩ := Polynomial.mul_spec hp.pos hs' a2.1 b2.1 (f := ra) (g := rb)
      obtain ⟨n1, n2⟩ := Polynomial.mul_spec hp.pos hs' hu.1 hv.1 (f := u) (g := v)
      obtain ⟨rm, rn, cm, cn, -, -, -, -, hmn⟩ := construct_eq_iff_dvd hp hM' m1 n1 hm hmne
      have hmul : rm = rn := by
        rw [hmn, m2, n2, ← a4, ← b4]
        exact ⟨-(Polynomial.toPoly m * qa * qb + qa * Polynomial.toPoly rb
          + Polynomial.toPoly ra * qb), by ring⟩
      refine ⟨max (max ((Polynomial.add ra rb).coeffs.length + 1)
        ((Polynomial.add u v).coeffs.length + 1))
        (max ((Polynomial.mul ra rb).coeffs.length + 1)
          ((Polynomial.mul u v).coeffs.length + 1)), ?_⟩
      intro _ fuel hfuel
      have g1 := le_trans (le_max_left _ _) (le_trans (le_max_left _ _) hfuel)
      have g2 := le_trans (le_max_right _ _) (le_trans (le_max_left _ _) hfuel)
      have g3 := le_trans (le_max_left _ _) (le_trans (le_max_right _ _) hfuel)
      have g4 := le_trans (le_max_right _ _) (le_trans (le_max_right _ _) hfuel)
      constructor
      · refine ⟨⟨rd, m⟩, ?_, ?_⟩
        · unfold add
          simp only [ne_eq, not_true_eq_false, if_false]
          exact cd fuel (by omega)
        · rw [hadd]
          exact cf fuel (by omega)
      · refine ⟨⟨rm, m⟩, ?_, ?_⟩
        · unfold mul
          simp only [ne_eq, not_true_eq_false, if_false]
          exact cm fuel (by omega)
        · rw [hmul]
          exact cn fuel (by omega)
    · exact ⟨0, fun h => absurd h hs⟩
  obtain ⟨N', hN'⟩ := hsmall
  refine ⟨max (max (max u.coeffs.length v.coeffs.length + 1) N')
    (max ((Polynomial.sub ra rb).coeffs.length + 1)
      ((Polynomial.sub u v).coeffs.length + 1)), ?_⟩
  intro fuel hfuel
  have g0 := le_trans (le_max_left _ _) (le_trans (le_max_left _ _) hfuel)
  have g1 := le_max_left u.coeffs.length v.coeffs.length
  have g2 := le_max_right u.coeffs.length v.coeffs.length
  have g3 := le_trans (le_max_right _ _) (le_trans (le_max_left _ _) hfuel)
  have g4 := le_trans (le_max_left _ _) (le_trans (le_max_right _ _) hfuel)
  have g5 := le_trans (le_max_right _ _) (le_trans (le_max_right _ _) hfuel)
  refine ⟨⟨ra, m⟩, ⟨rb, m⟩, a1 fuel (by omega), b1 fuel (by omega), ?_,
    fun hs => hN' hs fuel g3, ?_⟩
  · refine ⟨⟨rs, m⟩, ?_, ?_⟩
    · unfold sub
      simp only [ne_eq, not_true_eq_false, if_false]
      exact cs fuel (by omega)
    · rw [hsub]
      exact ct fuel (by omega)
  · rw [← hab]
    constructor
    · intro h
      cases h
      rfl
    · intro h
      rw [h]

theorem reduction_commutes_witness :
    (Nat.Prime 2 ∧ 2 ≤ 2147483647 ∧
      Polynomial.WF (⟨[⟨1⟩, ⟨1⟩, ⟨1⟩]⟩ : Polynomial (ModInt ((2 : Nat) : Int))) ∧
      (⟨[⟨1⟩, ⟨1⟩, ⟨1⟩]⟩ : Polynomial (ModInt ((2 : Nat) : Int))).coeffs ≠ [] ∧
      Polynomial.WF (⟨[⟨0⟩, ⟨1⟩]⟩ : Polynomial (ModInt ((2 : Nat) : Int))) ∧
      Polynomial.WF (⟨[⟨1⟩, ⟨1⟩]⟩ : Polynomial (ModInt ((2 : Nat) : Int)))) ∧
    (∃ N, ∀ fuel, N ≤ fuel →
      ∃ a b,
        construct fuel (⟨[⟨0⟩, ⟨1⟩]⟩ : Polynomial (ModInt ((2 : Nat) : Int)))
          ⟨[⟨1⟩, ⟨1⟩, ⟨1⟩]⟩ = some (.ok a) ∧
        construct fuel (⟨[⟨1⟩, ⟨1⟩]⟩ : Polynomial (ModInt ((2 : Nat) : Int)))
          ⟨[⟨1⟩, ⟨1⟩, ⟨1⟩]⟩ = some (.ok b) ∧
        (∃ e, sub fuel a b = some (.ok e) ∧
          construct fuel (Polynomial.sub
            (⟨[⟨0⟩, ⟨1⟩]⟩ : Polynomial (ModInt ((2 : Nat) : Int))) ⟨[⟨1⟩, ⟨1⟩]⟩)
            ⟨[⟨1⟩, ⟨1⟩, ⟨1⟩]⟩ = some (.ok e)) ∧
        (2 ≤ 1073741824 →
          (∃ e, add fuel a b = some (.ok e) ∧
            construct fuel (Polynomial.add
              (⟨[⟨0⟩, ⟨1⟩]⟩ : Polynomial (ModInt ((2 : Nat) : Int))) ⟨[⟨1⟩, ⟨1⟩]⟩)
              ⟨[⟨1⟩, ⟨1⟩, ⟨1⟩]⟩ = some (.ok e)) ∧
          (∃ e, mul fuel a b = some (.ok e) ∧
            construct fuel (Polynomial.mul
              (⟨[⟨0⟩, ⟨1⟩]⟩ : Polynomial (ModInt ((2 : Nat) : Int))) ⟨[⟨1⟩, ⟨1⟩]⟩)
              ⟨[⟨1⟩, ⟨1⟩, ⟨1⟩]⟩ = some (.ok e))) ∧
        (a = b ↔ Polynomial.toPoly (⟨[⟨1⟩, ⟨1⟩, ⟨1⟩]⟩ : Polynomial (ModInt ((2 : Nat) : Int)))
          ∣ Polynomial.toPoly (⟨[⟨0⟩, ⟨1⟩]⟩ : Polynomial (ModInt ((2 : Nat) : Int)))
            - Polynomial.toPoly (⟨[⟨1⟩, ⟨1⟩]⟩ : Polynomial (ModInt ((2 : Nat) : Int))))) ∧
    mul 8 (⟨⟨[⟨0⟩, ⟨1⟩]⟩, ⟨[⟨1⟩, ⟨1⟩, ⟨1⟩]⟩⟩ : FactorRingElement (ModInt 2))
        ⟨⟨[⟨1⟩, ⟨1⟩]⟩, ⟨[⟨1⟩, ⟨1⟩, ⟨1⟩]⟩⟩
      = some (.ok ⟨⟨[⟨1⟩]⟩, ⟨[⟨1⟩, ⟨1⟩, ⟨1⟩]⟩⟩) ∧
    construct 8 (Polynomial.mul (⟨[⟨0⟩, ⟨1⟩]⟩ : Polynomial (ModInt 2)) ⟨[⟨1⟩, ⟨1⟩]⟩)
        ⟨[⟨1⟩, ⟨1⟩, ⟨1⟩]⟩
      = some (.ok ⟨⟨[⟨1⟩]⟩, ⟨[⟨1⟩, ⟨1⟩, ⟨1⟩]⟩⟩) :=
  ⟨⟨by norm_num, by decide, by decide, by decide, by decide, by decide⟩,
    reduction_commutes 2 (by norm_num) (by decide) ⟨[⟨1⟩, ⟨1⟩, ⟨1⟩]⟩ ⟨[⟨0⟩, ⟨1⟩]⟩
      ⟨[⟨1⟩, ⟨1⟩]⟩ (by decide) (by decide) (by decide) (by decide),
    rfl, rfl⟩

end FactorRingElement
end PolyCalc

namespace PolyCalc
namespace Polynomial

/-- C18, defect of the code: over `ModInt<2147483647>`, a prime, the product of
`x + 2147483646` and `x + 3` stores `-2147483647` as its coefficient of `x`, where the sum of
the `a[i]*b[j]` over `i + j = 1`, which the claim states, is `2` modulo `p`: the accumulation
in operator `*` goes through `ModInt::operator+=`, which adds in `int` without widening and
wraps around. -/
theorem mul_coeff_overflow :
    Nat.Prime 2147483647 ∧
    WF (⟨[⟨2147483646⟩, ⟨1⟩]⟩ : Polynomial (ModInt ((2147483647 : Nat) : Int))) ∧
    WF (⟨[⟨3⟩, ⟨1⟩]⟩ : Polynomial (ModInt ((2147483647 : Nat) : Int))) ∧
    (mul (⟨[⟨2147483646⟩, ⟨1⟩]⟩ : Polynomial (ModInt ((2147483647 : Nat) : Int)))
      ⟨[⟨3⟩, ⟨1⟩]⟩).coeffs = [⟨2147483644⟩, ⟨-2147483647⟩, ⟨1⟩] ∧
    (get (mul (⟨[⟨2147483646⟩, ⟨1⟩]⟩ : Polynomial (ModInt ((2147483647 : Nat) : Int)))
      ⟨[⟨3⟩, ⟨1⟩]⟩) 1).value = -2147483647 ∧
    (∑ ij ∈ Finset.antidiagonal (1 : Nat),
      (get (⟨[⟨2147483646⟩, ⟨1⟩]⟩ : Polynomial (ModInt ((2147483647 : Nat) : Int)))
          (ij.1 : Int)).value
        * (get (⟨[⟨3⟩, ⟨1⟩]⟩ : Polynomial (ModInt ((2147483647 : Nat) : Int)))
          (ij.2 : Int)).value) % 2147483647 = 2 := by
  refine ⟨prime_mersenne31, by decide, by decide, by decide, by decide, ?_⟩
  have h : Finset.antidiagonal (1 : Nat) = {(0, 1), (1, 0)} := by decide
  rw [h, Finset.sum_pair (by decide)]
  decide

/-- Length and coefficients of a product where they are exact: for every prime
`p ≤ 2^31 - 1` and all polynomials `a`, `b` over
`ModInt<p>`: when both are nonzero, `a * b` has exactly `len(a) + len(b) - 1` coefficients
and `degree(a * b) = degree(a) + degree(b)`; when one is the zero polynomial, so is `a * b`;
and when `p ≤ 2^30`, the `k`-th coefficient of `a * b` is the sum of the `a[i] * b[j]` over
`i + j = k`, reduced modulo `p`. -/
theorem mul_length_coeff (p : Nat) (hp : p.Prime) (hM : p ≤ 2147483647)
    (a b : Polynomial (ModInt (p : Int))) (ha : WF a) (hb : WF b) :
    (a.coeffs ≠ [] → b.coeffs ≠ [] →
      (mul a b).coeffs.length = a.coeffs.length + b.coeffs.length - 1 ∧
        (mul a b).degree = a.degree + b.degree) ∧
    (a.coeffs = [] ∨ b.coeffs = [] → mul a b = ⟨[]⟩) ∧
    (p ≤ 1073741824 → ∀ k : Nat,
      (get (mul a b) (k : Int)).value
          = (∑ ij ∈ Finset.antidiagonal k,
              (get a (ij.1 : Int)).value * (get b (ij.2 : Int)).value) % (p : Int) ∧
        ModInt.Valid (get (mul a b) (k : Int))) := by
  have hM' : (p : Int) ≤ 2147483648 := by
    have : (p : Int) ≤ 2147483647 := by exact_mod_cast hM
    omega
  refine ⟨?_, mul_empty_left a b, ?_⟩
  · intro hae hbe
    obtain ⟨-, hl⟩ := mul_length hp hM' ha hb hae hbe
    refine ⟨hl, ?_⟩
    have h1 := List.length_pos.mpr hae
    have h2 := List.length_pos.mpr hbe
    rw [degree_eq_length, degree_eq_length, degree_eq_length, hl]
    omega
  · intro h30 k
    obtain ⟨hv, he⟩ := mul_coeff hp.pos (small_bound h30) ha hb k
    simp only [get_natCast, scalar_ofInt_zero]
    exact ⟨he, hv⟩

theorem mul_length_coeff_witness :
    (Nat.Prime 5 ∧ 5 ≤ 2147483647 ∧
      WF (⟨[⟨1⟩, ⟨2⟩]⟩ : Polynomial (ModInt ((5 : Nat) : Int))) ∧
      WF (⟨[⟨3⟩, ⟨4⟩]⟩ : Polynomial (ModInt ((5 : Nat) : Int)))) ∧
    (((⟨[⟨1⟩, ⟨2⟩]⟩ : Polynomial (ModInt ((5 : Nat) : Int))).coeffs ≠ [] →
      (⟨[⟨3⟩, ⟨4⟩]⟩ : Polynomial (ModInt ((5 : Nat) : Int))).coeffs ≠ [] →
      (mul (⟨[⟨1⟩, ⟨2⟩]⟩ : Polynomial (ModInt ((5 : Nat) : Int))) ⟨[⟨3⟩, ⟨4⟩]⟩).coeffs.length
          = (⟨[⟨1⟩, ⟨2⟩]⟩ : Polynomial (ModInt ((5 : Nat) : Int))).coeffs.length
            + (⟨[⟨3⟩, ⟨4⟩]⟩ : Polynomial (ModInt ((5 : Nat) : Int))).coeffs.length - 1 ∧
        (mul (⟨[⟨1⟩, ⟨2⟩]⟩ : Polynomial (ModInt ((5 : Nat) : Int))) ⟨[⟨3⟩, ⟨4⟩]⟩).degree
          = (⟨[⟨1⟩, ⟨2⟩]⟩ : Polynomial (ModInt ((5 : Nat) : Int))).degree
            + (⟨[⟨3⟩, ⟨4⟩]⟩ : Polynomial (ModInt ((5 : Nat) : Int))).degree) ∧
    ((⟨[⟨1⟩, ⟨2⟩]⟩ : Polynomial (ModInt ((5 : Nat) : Int))).coeffs = [] ∨
        (⟨[⟨3⟩, ⟨4⟩]⟩ : Polynomial (ModInt ((5 : Nat) : Int))).coeffs = [] →
      mul (⟨[⟨1⟩, ⟨2⟩]⟩ : Polynomial (ModInt ((5 : Nat) : Int))) ⟨[⟨3⟩, ⟨4⟩]⟩ = ⟨[]⟩) ∧
    (5 ≤ 1073741824 → ∀ k : Nat,
      (get (mul (⟨[⟨1⟩, ⟨2⟩]⟩ : Polynomial (ModInt ((5 : Nat) : Int))) ⟨[⟨3⟩, ⟨4⟩]⟩)
          (k : Int)).value
          = (∑ ij ∈ Finset.antidiagonal k,
              (get (⟨[⟨1⟩, ⟨2⟩]⟩ : Polynomial (ModInt ((5 : Nat) : Int))) (ij.1 : Int)).value
                * (get (⟨[⟨3⟩, ⟨4⟩]⟩ : Polynomial (ModInt ((5 : Nat) : Int)))
                    (ij.2 : Int)).value) % ((5 : Nat) : Int) ∧
        ModInt.Valid (get (mul (⟨[⟨1⟩, ⟨2⟩]⟩ : Polynomial (ModInt ((5 : Nat) : Int)))
          ⟨[⟨3⟩, ⟨4⟩]⟩) (k : Int)))) ∧
    (mul (⟨[⟨1⟩, ⟨2⟩]⟩ : Polynomial (ModInt ((5 : Nat) : Int))) ⟨[⟨3⟩, ⟨4⟩]⟩).coeffs
      = [⟨3⟩, ⟨0⟩, ⟨3⟩] :=
  ⟨⟨by norm_num, by decide, by decide, by decide⟩,
    mul_length_coeff 5 (by norm_num) (by decide) ⟨[⟨1⟩, ⟨2⟩]⟩ ⟨[⟨3⟩, ⟨4⟩]⟩
      (by decide) (by decide),
    by decide⟩

end Polynomial
end PolyCalc

namespace PolyCalc
namespace FactorRingElement

/-- C19, counterexample: over `Z_5` the modulus `2` is a nonzero constant; the element built
from `x + 3` over it has the zero representative, and `inv()` returns that element instead of
failing; the same holds for the default element, whose modulus is the constant `1`. -/
theorem inv_constant_modulus_returns :
    (⟨[⟨2⟩]⟩ : Polynomial (ModInt 5)).degree = 0 ∧
    construct 8 (⟨[⟨3⟩, ⟨1⟩]⟩ : Polynomial (ModInt 5)) ⟨[⟨2⟩]⟩
      = some (.ok ⟨⟨[]⟩, ⟨[⟨2⟩]⟩⟩) ∧
    inv 8 (⟨⟨[]⟩, ⟨[⟨2⟩]⟩⟩ : FactorRingElement (ModInt 5)) = some (.ok ⟨⟨[]⟩, ⟨[⟨2⟩]⟩⟩) ∧
    inv 8 (⟨⟨[]⟩, ⟨[⟨2⟩]⟩⟩ : FactorRingElement (ModInt 5)) ≠ some (.error .noInverse) ∧
    (default : FactorRingElement (ModInt 5)) = ⟨⟨[]⟩, ⟨[⟨1⟩]⟩⟩ ∧
    inv 8 (default : FactorRingElement (ModInt 5)) = some (.ok default) := by
  refine ⟨by decide, rfl, rfl, ?_, rfl, rfl⟩
  have h : inv 8 (⟨⟨[]⟩, ⟨[⟨2⟩]⟩⟩ : FactorRingElement (ModInt 5))
      = some (.ok ⟨⟨[]⟩, ⟨[⟨2⟩]⟩⟩) := rfl
  rw [h]
  simp

/-- C19, amended: for every element whose modulus is a constant polynomial and which keeps
the representative invariant, so every element the constructor builds over such a modulus,
the representative is the zero polynomial and `inv()` does not fail: it returns the element
itself, the only element of the trivial ring. -/
theorem inv_constant_modulus (T : Type) [FieldScalar T] [DecidableEq T]
    (a : FactorRingElement T) (c : T) (fuel : Nat) (hm : a.mod_poly.coeffs = [c])
    (ha : Reduced a a.mod_poly) (hfuel : 2 ≤ fuel) :
    a.poly.coeffs = [] ∧ inv fuel a = some (.ok a) ∧
      inv fuel a ≠ some (.error .noInverse) ∧
      ∀ (fuel' : Nat) (x : Polynomial T) (e : FactorRingElement T),
        construct fuel' x a.mod_poly = some (.ok e) →
          e.poly.coeffs = [] ∧ inv fuel e = some (.ok e) := by
  obtain ⟨n, rfl⟩ : ∃ n, fuel = n + 2 := ⟨fuel - 2, by omega⟩
  have key : ∀ e : FactorRingElement T, Reduced e a.mod_poly →
      e.poly.coeffs = [] ∧ inv (n + 2) e = some (.ok e) := by
    intro e he
    have hs := he.short (by rw [hm]; simp)
    rw [hm] at hs
    have h0 : e.poly.coeffs = [] := by
      apply List.eq_nil_of_length_eq_zero
      simp only [List.length_singleton] at hs
      omega
    exact ⟨h0, inv_of_constant_modulus (by rw [he.1, hm]) h0 n⟩
  obtain ⟨h0, h1⟩ := key a ha
  refine ⟨h0, h1, ?_, ?_⟩
  · rw [h1]; simp
  · intro fuel' x e he
    exact key e (construct_reduced he).1

theorem inv_constant_modulus_witness :
    ((⟨⟨[]⟩, ⟨[⟨2⟩]⟩⟩ : FactorRingElement (ModInt 5)).mod_poly.coeffs = [⟨2⟩] ∧
      Reduced (⟨⟨[]⟩, ⟨[⟨2⟩]⟩⟩ : FactorRingElement (ModInt 5)) ⟨[⟨2⟩]⟩ ∧ 2 ≤ 8) ∧
    ((⟨⟨[]⟩, ⟨[⟨2⟩]⟩⟩ : FactorRingElement (ModInt 5)).poly.coeffs = [] ∧
      inv 8 (⟨⟨[]⟩, ⟨[⟨2⟩]⟩⟩ : FactorRingElement (ModInt 5)) = some (.ok ⟨⟨[]⟩, ⟨[⟨2⟩]⟩⟩) ∧
      inv 8 (⟨⟨[]⟩, ⟨[⟨2⟩]⟩⟩ : FactorRingElement (ModInt 5)) ≠ some (.error .noInverse) ∧
      ∀ (fuel' : Nat) (x : Polynomial (ModInt 5)) (e : FactorRingElement (ModInt 5)),
        construct fuel' x ⟨[⟨2⟩]⟩ = some (.ok e) →
          e.poly.coeffs = [] ∧ inv 8 e = some (.ok e)) :=
  ⟨⟨rfl, ⟨rfl, Or.inl rfl⟩, by decide⟩,
    inv_constant_modulus (ModInt 5) ⟨⟨[]⟩, ⟨[⟨2⟩]⟩⟩ ⟨2⟩ 8 rfl ⟨rfl, Or.inl rfl⟩ (by decide)⟩

end FactorRingElement
end PolyCalc

namespace PolyCalc
namespace Polynomial

/-- C20: for every polynomial over `ModInt<M>` the text written by operator `<<` is `0` when
no coefficient differs from zero, so for the zero polynomial, and otherwise the terms of the
nonzero coefficients in descending degree joined by ` + `; the term of degree `0` is the
stored value, the term of degree `1` is `c*x` and the term of degree `i > 1` is `c*x^i`, the
factor `c*` being left out when `c` is `T(1)`.  A nonzero normalized polynomial has at least
one term. -/
theorem render_spec (M : Int) (f : Polynomial (ModInt M)) :
    render f = (if termTexts f = [] then "0" else " + ".intercalate (termTexts f)) ∧
    (f.coeffs = [] → render f = "0") ∧
    (f.coeffs ≠ [] → Normalized f → termTexts f ≠ []) ∧
    termTexts f = (List.range f.coeffs.length).reverse.filterMap (fun i =>
      if f.coeffs.getD i ⟨0⟩ = ⟨0⟩ then none else some (termText i (f.coeffs.getD i ⟨0⟩))) ∧
    (∀ c : ModInt M, termText 0 c = toString c.value ∧
      termText 1 c = (if c = Scalar.ofInt 1 then "x" else toString c.value ++ "*" ++ "x") ∧
      ∀ i : Nat, 1 < i → termText i c =
        (if c = Scalar.ofInt 1 then "x^" ++ toString i
          else toString c.value ++ "*" ++ ("x^" ++ toString i))) ∧
    (2 ≤ M → (Scalar.ofInt 1 : ModInt M) = ⟨1⟩) := by
  refine ⟨render_eq_renderSpec f, ?_, termTexts_ne_nil f, ?_, ?_, ?_⟩
  · intro h
    rw [render_eq_renderSpec]
    simp [renderSpec, termTexts, h]
  · unfold termTexts
    congr 1
    funext i
    unfold termOf
    rw [scalar_ofInt_zero]
  · intro c
    refine ⟨rfl, ?_, ?_⟩
    · unfold termText
      by_cases hc : c = Scalar.ofInt 1
      · simp only [hc, if_true]; rfl
      · simp only [hc, if_false]; rfl
    · intro i hi
      have h0 : i ≠ 0 := by omega
      have h1 : i ≠ 1 := by omega
      unfold termText
      by_cases hc : c = Scalar.ofInt 1
      · simp only [hc, h0, h1, if_true, if_false]
        rfl
      · simp only [hc, h0, h1, if_false]
        rfl
  · intro h
    exact ModInt.ofInt_one h

theorem render_spec_witness :
    render (⟨[⟨3⟩, ⟨2⟩, ⟨1⟩]⟩ : Polynomial (ModInt 5))
      = (if termTexts (⟨[⟨3⟩, ⟨2⟩, ⟨1⟩]⟩ : Polynomial (ModInt 5)) = [] then "0"
          else " + ".intercalate (termTexts (⟨[⟨3⟩, ⟨2⟩, ⟨1⟩]⟩ : Polynomial (ModInt 5)))) ∧
    termTexts (⟨[⟨3⟩, ⟨2⟩, ⟨1⟩]⟩ : Polynomial (ModInt 5)) = ["x^2", "2*x", "3"] ∧
    render (⟨[⟨3⟩, ⟨2⟩, ⟨1⟩]⟩ : Polynomial (ModInt 5)) = "x^2 + 2*x + 3" ∧
    render (⟨[⟨0⟩, ⟨1⟩, ⟨0⟩, ⟨4⟩]⟩ : Polynomial (ModInt 5)) = "4*x^3 + x" ∧
    render (⟨[]⟩ : Polynomial (ModInt 5)) = "0" :=
  ⟨(render_spec 5 ⟨[⟨3⟩, ⟨2⟩, ⟨1⟩]⟩).1, by decide, by decide, by decide,
    (render_spec 5 ⟨[]⟩).2.1 rfl⟩

end Polynomial
end PolyCalc

namespace PolyCalc
namespace Polynomial

/-! ## The rounds of the division loop -/

section Rounds
variable {T : Type} [Scalar T] [DecidableEq T]

theorem divmodLoop_succ_eq (divisor D Q : Polynomial T) (fuel : Nat) :
    divmodLoop divisor (fuel + 1) D Q =
      if D.degree ≥ divisor.degree ∧ D.degree ≥ 0 then
        divmodLoop divisor fuel (divmodBody divisor D Q).1 (divmodBody divisor D Q).2
      else some (normalize Q, normalize D) := rfl

theorem divmodIter_zero (divisor : Polynomial T) (s : Polynomial T × Polynomial T) :
    divmodIter divisor 0 s = s := rfl

theorem divmodIter_succ (divisor : Polynomial T) (k : Nat) (D Q : Polynomial T) :
    divmodIter divisor (k + 1) (D, Q)
      = divmodIter divisor k ((divmodBody divisor D Q).1, (divmodBody divisor D Q).2) := by
  unfold divmodIter
  rw [Function.iterate_succ_apply]

theorem divmodIter_succ_last (divisor : Polynomial T) (k : Nat)
    (s : Polynomial T × Polynomial T) :
    divmodIter divisor (k + 1) s
      = divmodBody divisor (divmodIter divisor k s).1 (divmodIter divisor k s).2 := by
  unfold divmodIter
  rw [Function.iterate_succ_apply']

theorem divmodLoop_of_rounds (divisor : Polynomial T) :
    ∀ (k fuel : Nat) (D Q : Polynomial T),
      (∀ j, j < k → (divmodIter divisor j (D, Q)).1.degree ≥ divisor.degree ∧
        (divmodIter divisor j (D, Q)).1.degree ≥ 0) →
      ¬ ((divmodIter divisor k (D, Q)).1.degree ≥ divisor.degree ∧
        (divmodIter divisor k (D, Q)).1.degree ≥ 0) →
      divmodLoop divisor fuel D Q =
        if k < fuel then
          some (normalize (divmodIter divisor k (D, Q)).2,
            normalize (divmodIter divisor k (D, Q)).1)
        else none := by
  intro k
  induction k with
  | zero =>
    intro fuel D Q _ hstop
    rw [divmodIter_zero] at hstop ⊢
    cases fuel with
    | zero => rfl
    | succ f =>
      rw [divmodLoop_succ_eq, if_neg hstop, if_pos (Nat.succ_pos f)]
  | succ k ih =>
    intro fuel D Q hrun hstop
    have h0 := hrun 0 (Nat.succ_pos k)
    rw [divmodIter_zero] at h0
    cases fuel with
    | zero =>
      rw [if_neg (Nat.not_lt_zero _)]
      rfl
    | succ f =>
      rw [divmodLoop_succ_eq, if_pos h0]
      have hrun' : ∀ j, j < k →
          (divmodIter divisor j
              ((divmodBody divisor D Q).1, (divmodBody divisor D Q).2)).1.degree
              ≥ divisor.degree ∧
            (divmodIter divisor j
              ((divmodBody divisor D Q).1, (divmodBody divisor D Q).2)).1.degree ≥ 0 := by
        intro j hj
        have := hrun (j + 1) (Nat.succ_lt_succ hj)
        rw [divmodIter_succ] at this
        exact this
      rw [divmodIter_succ] at hstop
      rw [ih f _ _ hrun' hstop, divmodIter_succ]
      by_cases hk : k < f
      · rw [if_pos hk, if_pos (Nat.succ_lt_succ hk)]
      · rw [if_neg hk, if_neg (fun h => hk (Nat.lt_of_succ_lt_succ h))]

end Rounds

section RoundsModInt
variable {p : Nat}

/-- One round of the loop on a running dividend that is not shorter than the divisor. -/
theorem divmodBody_spec (hp : p.Prime) (hM : (p : Int) ≤ 2147483648)
    {b D Q : Polynomial (ModInt (p : Int))} (hb : WF b) (hbne : b.coeffs ≠ [])
    (hD : WF D) (hDne : D.coeffs ≠ []) (hle : b.coeffs.length ≤ D.coeffs.length)
    (hQ : D.coeffs.length ≤ Q.coeffs.length + b.coeffs.length - 1) :
    WF (divmodBody b D Q).1 ∧
    (divmodBody b D Q).1.coeffs.length < D.coeffs.length ∧
    (divmodBody b D Q).2.coeffs.length = Q.coeffs.length ∧
    (D.degree - b.degree).toNat < Q.coeffs.length ∧
    ∃ c : ZMod p, c * (toPoly b).leadingCoeff = (toPoly D).leadingCoeff ∧
      (toPoly D).natDegree = (toPoly b).natDegree + (D.degree - b.degree).toNat ∧
      toPoly (divmodBody b D Q).1
        = toPoly D - toPoly b * (Polynomial.C c * Polynomial.X ^ (D.degree - b.degree).toNat) := by
  haveI := Fact.mk hp
  obtain ⟨s1, s2, s3, s4, s5⟩ := divmod_step hp hM hb hbne hD hDne hle
  have h1 := List.length_pos.mpr hbne
  obtain ⟨db1, db2, db3⟩ := toPolyL_lead hb.1 hb.2 hbne
  obtain ⟨dd1, dd2, dd3⟩ := toPolyL_lead hD.1 hD.2 hDne
  have hlastD : ModInt.Valid (D.coeffs.getLast hDne) := hD.1.getLast hDne
  have hlastb : ModInt.Valid (b.coeffs.getLast hbne) := hb.1.getLast hbne
  have hlcb : ModInt.toZ (b.coeffs.getLast hbne) ≠ 0 := by
    rw [← db2]; exact Polynomial.leadingCoeff_ne_zero.mpr db3
  have hfdef : D.coeffs.getLastD (Scalar.ofInt 0) / b.coeffs.getLastD (Scalar.ofInt 0)
      = ModInt.div (D.coeffs.getLast hDne) (b.coeffs.getLast hbne) := by
    rw [getLastD_eq_getLast _ hDne, getLastD_eq_getLast _ hbne]
    rfl
  refine ⟨s3, s4, ?_, ?_, ModInt.toZ (D.coeffs.getLastD (Scalar.ofInt 0)
    / b.coeffs.getLastD (Scalar.ofInt 0)), ?_, ?_, s5⟩
  · show (Q.coeffs.set _ _).length = _
    rw [List.length_set]
  · rw [s1]; omega
  · rw [hfdef, ModInt.toZ_div hp hM hlastD hlastb hlcb]
    unfold toPoly
    rw [dd2, db2, mul_assoc, inv_mul_cancel₀ hlcb, mul_one]
  · unfold toPoly
    rw [dd1, db1, s1]
    omega

end RoundsModInt

end Polynomial
end PolyCalc

namespace PolyCalc
namespace Polynomial

section RoundsBound
variable {p : Nat}

/-- The loop runs at most `n` rounds from a running dividend `D` with
`length(D) - length(b) + 1 ≤ n`, every round as the step specification says. -/
theorem divmod_rounds (hp : p.Prime) (hM : (p : Int) ≤ 2147483648)
    {b : Polynomial (ModInt (p : Int))} (hb : WF b) (hbne : b.coeffs ≠ []) :
    ∀ (n : Nat) (D Q : Polynomial (ModInt (p : Int))), WF D →
      D.coeffs.length + 1 ≤ n + b.coeffs.length →
      D.coeffs.length ≤ Q.coeffs.length + b.coeffs.length - 1 →
      ∃ k, k ≤ n ∧
        (∀ j, j < k →
          ((divmodIter b j (D, Q)).1.degree ≥ b.degree ∧
            (divmodIter b j (D, Q)).1.degree ≥ 0) ∧
          (divmodIter b (j + 1) (D, Q)).1.degree < (divmodIter b j (D, Q)).1.degree ∧
          ((divmodIter b j (D, Q)).1.degree - b.degree).toNat
            < (divmodIter b j (D, Q)).2.coeffs.length ∧
          (divmodIter b j (D, Q)).2.coeffs.length = Q.coeffs.length ∧
          ∃ c : ZMod p,
            c * (toPoly b).leadingCoeff = (toPoly (divmodIter b j (D, Q)).1).leadingCoeff ∧
            (toPoly (divmodIter b j (D, Q)).1).natDegree = (toPoly b).natDegree
              + ((divmodIter b j (D, Q)).1.degree - b.degree).toNat ∧
            toPoly (divmodIter b (j + 1) (D, Q)).1 = toPoly (divmodIter b j (D, Q)).1
              - toPoly b * (Polynomial.C c
                * Polynomial.X ^ ((divmodIter b j (D, Q)).1.degree - b.degree).toNat)) ∧
        ¬ ((divmodIter b k (D, Q)).1.degree ≥ b.degree ∧
          (divmodIter b k (D, Q)).1.degree ≥ 0) := by
  intro n
  induction n with
  | zero =>
    intro D Q hD hn hQ
    refine ⟨0, le_rfl, fun j hj => absurd hj (Nat.not_lt_zero j), ?_⟩
    rw [divmodIter_zero]
    intro h
    have hle : b.coeffs.length ≤ D.coeffs.length := ((loop_cond_iff hbne).mp h).2
    omega
  | succ n ih =>
    intro D Q hD hn hQ
    by_cases hc : D.degree ≥ b.degree ∧ D.degree ≥ 0
    · obtain ⟨hDne, hle⟩ := (loop_cond_iff hbne).mp hc
      obtain ⟨s1, s2, s3, s4, s5⟩ := divmodBody_spec hp hM hb hbne hD hDne hle hQ
      obtain ⟨k, hk, hrun, hstop⟩ := ih (divmodBody b D Q).1 (divmodBody b D Q).2 s1
        (by omega) (by rw [s3]; omega)
      refine ⟨k + 1, Nat.succ_le_succ hk, ?_, ?_⟩
      · intro j hj
        cases j with
        | zero =>
          rw [divmodIter_succ, divmodIter_zero, divmodIter_zero]
          dsimp only
          refine ⟨hc, ?_, s4, rfl, s5⟩
          rw [degree_eq_length, degree_eq_length]
          omega
        | succ j =>
          have := hrun j (Nat.lt_of_succ_lt_succ hj)
          rw [divmodIter_succ b (j + 1), divmodIter_succ b j, s3] at *
          exact this
      · rw [divmodIter_succ]
        exact hstop
    · refine ⟨0, Nat.zero_le _, fun j hj => absurd hj (Nat.not_lt_zero j), ?_⟩
      rw [divmodIter_zero]
      exact hc

end RoundsBound

end Polynomial
end PolyCalc

namespace PolyCalc
namespace Polynomial

/-- C21: for every prime `p ≤ 2^31 - 1`, every dividend `a` and every nonzero divisor `b`
over `ModInt<p>`, the loop of `a.divmod(b)` runs a number `k` of rounds that is at most
`max(0, degree(a) - degree(b) + 1)`: in each of them the loop condition holds, the leading
term of the running dividend cancels exactly (the new dividend is the old one minus
`b * c * x^diff` with `c * lead(b) = lead(dividend)`), the degree of the running dividend
strictly decreases, and the index `diff` of the write `quotient.coeffs[diff]` lies inside the
quotient vector, which keeps its initial size; after `k` rounds the condition fails, so
`divmod` returns exactly when it is given more than `k` units of fuel. -/
theorem divmod_terminates (p : Nat) (hp : p.Prime) (hM : p ≤ 2147483647)
    (a b : Polynomial (ModInt (p : Int))) (ha : WF a) (hb : WF b) (hbne : b.coeffs ≠ []) :
    ∃ k : Nat, (k : Int) ≤ max 0 (a.degree - b.degree + 1) ∧
      (∀ j, j < k →
        ((divmodState b a j).1.degree ≥ b.degree ∧ (divmodState b a j).1.degree ≥ 0) ∧
        (divmodState b a (j + 1)).1.degree < (divmodState b a j).1.degree ∧
        ((divmodState b a j).1.degree - b.degree).toNat
          < (divmodState b a j).2.coeffs.length ∧
        (divmodState b a j).2.coeffs.length = (max 0 (a.degree - b.degree + 1)).toNat ∧
        ∃ c : ZMod p,
          c * (toPoly b).leadingCoeff = (toPoly (divmodState b a j).1).leadingCoeff ∧
          (toPoly (divmodState b a j).1).natDegree = (toPoly b).natDegree
            + ((divmodState b a j).1.degree - b.degree).toNat ∧
          toPoly (divmodState b a (j + 1)).1 = toPoly (divmodState b a j).1
            - toPoly b * (Polynomial.C c
              * Polynomial.X ^ ((divmodState b a j).1.degree - b.degree).toNat)) ∧
      ¬ ((divmodState b a k).1.degree ≥ b.degree ∧ (divmodState b a k).1.degree ≥ 0) ∧
      (∀ fuel, k < fuel → divmod fuel a b
        = some (.ok (normalize (divmodState b a k).2, normalize (divmodState b a k).1))) ∧
      (∀ fuel, fuel ≤ k → divmod fuel a b = none) := by
  have hM' : (p : Int) ≤ 2147483648 := by
    have := int_bound hM
    omega
  have h1 := List.length_pos.mpr hbne
  have hsize := quotient_size (f := a) hbne
  have hn : a.coeffs.length + 1
      ≤ (max 0 (a.degree - b.degree + 1)).toNat + b.coeffs.length := by
    rw [degree_eq_length, degree_eq_length]
    omega
  obtain ⟨k, hk, hrun, hstop⟩ := divmod_rounds hp hM' hb hbne
    (max 0 (a.degree - b.degree + 1)).toNat a
    ⟨List.replicate (max 0 (a.degree - b.degree + 1)).toNat (Scalar.ofInt 0)⟩ ha hn
    (by rw [List.length_replicate]; exact hsize)
  have hloop := divmodLoop_of_rounds b k
  have hdiv : ∀ fuel, divmod fuel a b = (divmodLoop b fuel a
      ⟨List.replicate (max 0 (a.degree - b.degree + 1)).toNat (Scalar.ofInt 0)⟩).map .ok := by
    intro fuel
    unfold divmod
    rw [isEmpty_eq_false hbne]
    simp only [Bool.false_eq_true, if_false]
  refine ⟨k, ?_, ?_, hstop, ?_, ?_⟩
  · have : (0 : Int) ≤ max 0 (a.degree - b.degree + 1) := le_max_left _ _
    omega
  · intro j hj
    have := hrun j hj
    rw [List.length_replicate] at this
    exact this
  · intro fuel hfuel
    rw [hdiv, hloop fuel _ _ (fun j hj => (hrun j hj).1) hstop, if_pos hfuel]
    rfl
  · intro fuel hfuel
    rw [hdiv, hloop fuel _ _ (fun j hj => (hrun j hj).1) hstop, if_neg (by omega)]
    rfl

theorem divmod_terminates_witness :
    (Nat.Prime 5 ∧ 5 ≤ 2147483647 ∧
      WF (⟨[⟨1⟩, ⟨0⟩, ⟨1⟩]⟩ : Polynomial (ModInt ((5 : Nat) : Int))) ∧
      WF (⟨[⟨1⟩, ⟨1⟩]⟩ : Polynomial (ModInt ((5 : Nat) : Int))) ∧
      (⟨[⟨1⟩, ⟨1⟩]⟩ : Polynomial (ModInt ((5 : Nat) : Int))).coeffs ≠ []) ∧
    (∃ k : Nat, (k : Int) ≤ max 0
        ((⟨[⟨1⟩, ⟨0⟩, ⟨1⟩]⟩ : Polynomial (ModInt ((5 : Nat) : Int))).degree
          - (⟨[⟨1⟩, ⟨1⟩]⟩ : Polynomial (ModInt ((5 : Nat) : Int))).degree + 1) ∧
      (∀ j, j < k →
        ((divmodState (⟨[⟨1⟩, ⟨1⟩]⟩ : Polynomial (ModInt ((5 : Nat) : Int)))
              ⟨[⟨1⟩, ⟨0⟩, ⟨1⟩]⟩ j).1.degree
            ≥ (⟨[⟨1⟩, ⟨1⟩]⟩ : Polynomial (ModInt ((5 : Nat) : Int))).degree ∧
          (divmodState (⟨[⟨1⟩, ⟨1⟩]⟩ : Polynomial (ModInt ((5 : Nat) : Int)))
              ⟨[⟨1⟩, ⟨0⟩, ⟨1⟩]⟩ j).1.degree ≥ 0) ∧
        (divmodState (⟨[⟨1⟩, ⟨1⟩]⟩ : Polynomial (ModInt ((5 : Nat) : Int)))
            ⟨[⟨1⟩, ⟨0⟩, ⟨1⟩]⟩ (j + 1)).1.degree
          < (divmodState (⟨[⟨1⟩, ⟨1⟩]⟩ : Polynomial (ModInt ((5 : Nat) : Int)))
            ⟨[⟨1⟩, ⟨0⟩, ⟨1⟩]⟩ j).1.degree ∧
        ((divmodState (⟨[⟨1⟩, ⟨1⟩]⟩ : Polynomial (ModInt ((5 : Nat) : Int)))
              ⟨[⟨1⟩, ⟨0⟩, ⟨1⟩]⟩ j).1.degree
            - (⟨[⟨1⟩, ⟨1⟩]⟩ : Polynomial (ModInt ((5 : Nat) : Int))).degree).toNat
          < (divmodState (⟨[⟨1⟩, ⟨1⟩]⟩ : Polynomial (ModInt ((5 : Nat) : Int)))
              ⟨[⟨1⟩, ⟨0⟩, ⟨1⟩]⟩ j).2.coeffs.length ∧
        (divmodState (⟨[⟨1⟩, ⟨1⟩]⟩ : Polynomial (ModInt ((5 : Nat) : Int)))
            ⟨[⟨1⟩, ⟨0⟩, ⟨1⟩]⟩ j).2.coeffs.length
          = (max 0 ((⟨[⟨1⟩, ⟨0⟩, ⟨1⟩]⟩ : Polynomial (ModInt ((5 : Nat) : Int))).degree
              - (⟨[⟨1⟩, ⟨1⟩]⟩ : Polynomial (ModInt ((5 : Nat) : Int))).degree + 1)).toNat ∧
        ∃ c : ZMod 5,
          c * (toPoly (⟨[⟨1⟩, ⟨1⟩]⟩ : Polynomial (ModInt ((5 : Nat) : Int)))).leadingCoeff
            = (toPoly (divmodState (⟨[⟨1⟩, ⟨1⟩]⟩ : Polynomial (ModInt ((5 : Nat) : Int)))
                ⟨[⟨1⟩, ⟨0⟩, ⟨1⟩]⟩ j).1).leadingCoeff ∧
          (toPoly (divmodState (⟨[⟨1⟩, ⟨1⟩]⟩ : Polynomial (ModInt ((5 : Nat) : Int)))
                ⟨[⟨1⟩, ⟨0⟩, ⟨1⟩]⟩ j).1).natDegree
            = (toPoly (⟨[⟨1⟩, ⟨1⟩]⟩ : Polynomial (ModInt ((5 : Nat) : Int)))).natDegree
              + ((divmodState (⟨[⟨1⟩, ⟨1⟩]⟩ : Polynomial (ModInt ((5 : Nat) : Int)))
                  ⟨[⟨1⟩, ⟨0⟩, ⟨1⟩]⟩ j).1.degree
                - (⟨[⟨1⟩, ⟨1⟩]⟩ : Polynomial (ModInt ((5 : Nat) : Int))).degree).toNat ∧
          toPoly (divmodState (⟨[⟨1⟩, ⟨1⟩]⟩ : Polynomial (ModInt ((5 : Nat) : Int)))
              ⟨[⟨1⟩, ⟨0⟩, ⟨1⟩]⟩ (j + 1)).1
            = toPoly (divmodState (⟨[⟨1⟩, ⟨1⟩]⟩ : Polynomial (ModInt ((5 : Nat) : Int)))
                ⟨[⟨1⟩, ⟨0⟩, ⟨1⟩]⟩ j).1
              - toPoly (⟨[⟨1⟩, ⟨1⟩]⟩ : Polynomial (ModInt ((5 : Nat) : Int)))
                * (Polynomial.C c * Polynomial.X ^
                  ((divmodState (⟨[⟨1⟩, ⟨1⟩]⟩ : Polynomial (ModInt ((5 : Nat) : Int)))
                      ⟨[⟨1⟩, ⟨0⟩, ⟨1⟩]⟩ j).1.degree
                    - (⟨[⟨1⟩, ⟨1⟩]⟩ : Polynomial (ModInt ((5 : Nat) : Int))).degree).toNat)) ∧
      ¬ ((divmodState (⟨[⟨1⟩, ⟨1⟩]⟩ : Polynomial (ModInt ((5 : Nat) : Int)))
              ⟨[⟨1⟩, ⟨0⟩, ⟨1⟩]⟩ k).1.degree
            ≥ (⟨[⟨1⟩, ⟨1⟩]⟩ : Polynomial (ModInt ((5 : Nat) : Int))).degree ∧
          (divmodState (⟨[⟨1⟩, ⟨1⟩]⟩ : Polynomial (ModInt ((5 : Nat) : Int)))
              ⟨[⟨1⟩, ⟨0⟩, ⟨1⟩]⟩ k).1.degree ≥ 0) ∧
      (∀ fuel, k < fuel →
        divmod fuel (⟨[⟨1⟩, ⟨0⟩, ⟨1⟩]⟩ : Polynomial (ModInt ((5 : Nat) : Int))) ⟨[⟨1⟩, ⟨1⟩]⟩
          = some (.ok
            (normalize (divmodState (⟨[⟨1⟩, ⟨1⟩]⟩ : Polynomial (ModInt ((5 : Nat) : Int)))
                ⟨[⟨1⟩, ⟨0⟩, ⟨1⟩]⟩ k).2,
              normalize (divmodState (⟨[⟨1⟩, ⟨1⟩]⟩ : Polynomial (ModInt ((5 : Nat) : Int)))
                ⟨[⟨1⟩, ⟨0⟩, ⟨1⟩]⟩ k).1))) ∧
      (∀ fuel, fuel ≤ k →
        divmod fuel (⟨[⟨1⟩, ⟨0⟩, ⟨1⟩]⟩ : Polynomial (ModInt ((5 : Nat) : Int))) ⟨[⟨1⟩, ⟨1⟩]⟩
          = none)) ∧
    divmodState (⟨[⟨1⟩, ⟨1⟩]⟩ : Polynomial (ModInt 5)) ⟨[⟨1⟩, ⟨0⟩, ⟨1⟩]⟩ 0
      = (⟨[⟨1⟩, ⟨0⟩, ⟨1⟩]⟩, ⟨[⟨0⟩, ⟨0⟩]⟩) ∧
    divmodState (⟨[⟨1⟩, ⟨1⟩]⟩ : Polynomial (ModInt 5)) ⟨[⟨1⟩, ⟨0⟩, ⟨1⟩]⟩ 1
      = (⟨[⟨1⟩, ⟨4⟩]⟩, ⟨[⟨0⟩, ⟨1⟩]⟩) ∧
    divmodState (⟨[⟨1⟩, ⟨1⟩]⟩ : Polynomial (ModInt 5)) ⟨[⟨1⟩, ⟨0⟩, ⟨1⟩]⟩ 2
      = (⟨[⟨2⟩]⟩, ⟨[⟨4⟩, ⟨1⟩]⟩) ∧
    divmod 3 (⟨[⟨1⟩, ⟨0⟩, ⟨1⟩]⟩ : Polynomial (ModInt 5)) ⟨[⟨1⟩, ⟨1⟩]⟩
      = some (.ok (⟨[⟨4⟩, ⟨1⟩]⟩, ⟨[⟨2⟩]⟩)) ∧
    divmod 2 (⟨[⟨1⟩, ⟨0⟩, ⟨1⟩]⟩ : Polynomial (ModInt 5)) ⟨[⟨1⟩, ⟨1⟩]⟩ = none :=
  ⟨⟨by norm_num, by decide, by decide, by decide, by decide⟩,
    divmod_terminates 5 (by norm_num) (by decide) ⟨[⟨1⟩, ⟨0⟩, ⟨1⟩]⟩ ⟨[⟨1⟩, ⟨1⟩]⟩
      (by decide) (by decide) (by decide),
    by decide, by decide, by decide, rfl, rfl⟩

end Polynomial
end PolyCalc
